import Mathlib

/-!
# Verification of the pgraph probabilistic graph engine

A shallow embedding of the `pgraph` Go repository (probabilistic graph
inference engine) into Lean 4, together with theorems settling the frozen
claims about its specification.

Modelling conventions, used consistently below:

* Go `map[K]V` is modelled as an insertion-ordered association list
  `List (K × V)`: lookup returns the first binding, assignment replaces the
  value in place (keeping the position) or appends, deletion filters.
  Go map iteration order is unspecified; the list order is our fixed
  determinization of it.
* Go `float64` arithmetic is modelled over `ℚ` (exact real semantics).
  The `-log`/`exp` transformation used by the Dijkstra kernel is translated
  to its exact image in probability space: minimizing sums of `-log p`
  is comparing products of probabilities with the order reversed, so the
  model keeps distances as probabilities in `[0,1]`, with `+∞ ↦ 0`,
  `0 ↦ 1`, addition of weights `↦` multiplication, and `<` on weights `↦`
  `>` on probabilities.  Rounding of IEEE doubles is abstracted away except
  where a claim is about it (see `f64roundInt` for the JSON int path).
* Go functions that mutate a receiver are modelled as functions returning
  the new value; fallible functions return `Except GoError _`.
* Go errors: the repository's tagged error structs (`graph.GraphError`,
  `inference.InferenceError`, `query.QueryError`, `dsl.SyntaxError`, each a
  `{Kind, Message string}` pair) and untagged `fmt.Errorf` errors are
  modelled by the inductive `GoError`.
-/

namespace PGraph

/-! ## Association-list model of Go maps -/

/-- First binding for `k`, like a Go map read `m[k]` (presence part). -/
def lookupA {α β : Type} [DecidableEq α] (m : List (α × β)) (k : α) : Option β :=
  match m with
  | [] => none
  | (k', v) :: rest => if k' = k then some v else lookupA rest k

/-- Go map assignment `m[k] = v`: replace in place, else append. -/
def setA {α β : Type} [DecidableEq α] (m : List (α × β)) (k : α) (v : β) : List (α × β) :=
  match m with
  | [] => [(k, v)]
  | (k', v') :: rest => if k' = k then (k', v) :: rest else (k', v') :: setA rest k v

/-- Go map deletion `delete(m, k)`. -/
def delA {α β : Type} [DecidableEq α] (m : List (α × β)) (k : α) : List (α × β) :=
  m.filter (fun kv => kv.1 ≠ k)

/-- Apply `f` to the value bound to `k`, if any (used to model a write
`m[k]` → inner-map mutation when the entry exists; a Go `delete` on a
missing/nil inner map is a no-op). -/
def adjustA {α β : Type} [DecidableEq α] (m : List (α × β)) (k : α) (f : β → β) :
    List (α × β) :=
  m.map (fun kv => if kv.1 = k then (kv.1, f kv.2) else kv)

/-- Keys in iteration (insertion) order, like `maps.Keys`. -/
def keysA {α β : Type} (m : List (α × β)) : List α := m.map Prod.fst

/-- Values in iteration (insertion) order, like `slices.Collect (maps.Values m)`. -/
def valuesA {α β : Type} (m : List (α × β)) : List β := m.map Prod.snd

/-! ## Kernel-computable exact rational arithmetic

The model uses `ℚ` for Go `float64` values.  The `ℚ` field operations from
Batteries are `@[irreducible]`, which blocks `decide`-style evaluation of
concrete runs, so the model computes with the following provably-equal
forms (each is definitionally a reduced fraction built by `mkRat`, and the
theorems right below show each one IS the corresponding `ℚ` field
operation). -/

/-- Exact rational multiplication, `decide`-computable. -/
def qmul (a b : ℚ) : ℚ := mkRat (a.num * b.num) (a.den * b.den)

/-- Exact rational addition, `decide`-computable. -/
def qadd (a b : ℚ) : ℚ := mkRat (a.num * b.den + b.num * a.den) (a.den * b.den)

/-- Exact rational subtraction, `decide`-computable. -/
def qsub (a b : ℚ) : ℚ := mkRat (a.num * b.den - b.num * a.den) (a.den * b.den)

/-- Exact rational division (`x / 0 = 0`, as in `ℚ`), `decide`-computable. -/
def qdiv (a b : ℚ) : ℚ := Rat.divInt (a.num * b.den) (a.den * b.num)

theorem qmul_eq_mul (a b : ℚ) : qmul a b = a * b := by
  have ha : (a.den : ℚ) ≠ 0 := Nat.cast_ne_zero.mpr a.den_nz
  have hb : (b.den : ℚ) ≠ 0 := Nat.cast_ne_zero.mpr b.den_nz
  rw [qmul, Rat.mkRat_eq_divInt, Rat.divInt_eq_div]
  conv_rhs => rw [← Rat.num_div_den a, ← Rat.num_div_den b]
  push_cast
  field_simp

theorem qadd_eq_add (a b : ℚ) : qadd a b = a + b := by
  have ha : (a.den : ℚ) ≠ 0 := Nat.cast_ne_zero.mpr a.den_nz
  have hb : (b.den : ℚ) ≠ 0 := Nat.cast_ne_zero.mpr b.den_nz
  rw [qadd, Rat.mkRat_eq_divInt, Rat.divInt_eq_div]
  conv_rhs => rw [← Rat.num_div_den a, ← Rat.num_div_den b]
  push_cast
  field_simp

theorem qsub_eq_sub (a b : ℚ) : qsub a b = a - b := by
  have ha : (a.den : ℚ) ≠ 0 := Nat.cast_ne_zero.mpr a.den_nz
  have hb : (b.den : ℚ) ≠ 0 := Nat.cast_ne_zero.mpr b.den_nz
  rw [qsub, Rat.mkRat_eq_divInt, Rat.divInt_eq_div]
  conv_rhs => rw [← Rat.num_div_den a, ← Rat.num_div_den b]
  push_cast
  field_simp
  ring

theorem qdiv_eq_div (a b : ℚ) : qdiv a b = a / b := by
  rcases eq_or_ne b 0 with hb0 | hb0
  · subst hb0
    simp [qdiv]
  · have ha : (a.den : ℚ) ≠ 0 := Nat.cast_ne_zero.mpr a.den_nz
    have hbd : (b.den : ℚ) ≠ 0 := Nat.cast_ne_zero.mpr b.den_nz
    have hbn : b.num ≠ 0 := Rat.num_ne_zero.mpr hb0
    have hbn' : (b.num : ℚ) ≠ 0 := Int.cast_ne_zero.mpr hbn
    rw [qdiv, Rat.divInt_eq_div]
    conv_rhs => rw [← Rat.num_div_den a, ← Rat.num_div_den b]
    push_cast
    field_simp

/-! ## Data model (`internal/graph`) -/

abbrev NodeID := String
abbrev EdgeID := String

/-- `graph.ValueKind` (int iota). -/
inductive ValueKind : Type where
  | intVal
  | floatVal
  | stringVal
  | boolVal
deriving DecidableEq, Repr

/-- `graph.Value`: a struct carrying all four payload fields, tagged by
`Kind`; unused fields keep their Go zero values. -/
structure Value : Type where
  kind : ValueKind
  i : Int := 0
  f : ℚ := 0
  s : String := ""
  b : Bool := false
deriving DecidableEq, Repr

/-- `graph.Node`. -/
structure Node : Type where
  ID : NodeID
  Props : List (String × Value)
deriving DecidableEq, Repr

/-- `graph.Edge` (edges are independent Bernoulli random variables). -/
structure Edge : Type where
  ID : EdgeID
  From : NodeID
  To : NodeID
  Probability : ℚ
  Props : List (String × Value)
deriving DecidableEq, Repr

/-- `graph.Path`. -/
structure Path : Type where
  NodeIDs : List NodeID
  Probability : ℚ
deriving DecidableEq, Repr

/-- `graph.Condition`: four lists (the Go struct holds `[]*Edge` /
`[]NodeID`; edges are modelled by value). -/
structure Condition : Type where
  ForcedActiveEdges : List Edge := []
  ForcedInactiveEdges : List Edge := []
  ForcedActiveNodes : List NodeID := []
  ForcedInactiveNodes : List NodeID := []
deriving DecidableEq, Repr

/-- The repository's error values.  `graphErr`, `inferErr`, `queryErr` and
`dslErr` model the tagged structs `graph.GraphError`,
`inference.InferenceError`, `query.QueryError` and `dsl.SyntaxError`
(each `{Kind, Message}`); `plainErr` models an untagged `fmt.Errorf`
error, which carries no kind tag. -/
inductive GoError : Type where
  | graphErr (kind msg : String)
  | inferErr (kind msg : String)
  | queryErr (kind msg : String)
  | dslErr (kind msg : String)
  | plainErr (msg : String)
deriving DecidableEq, Repr

/-- The kind tag of an error, when it has one (`fmt.Errorf` errors do not). -/
def errKind : GoError → Option String
  | .graphErr k _ => some k
  | .inferErr k _ => some k
  | .queryErr k _ => some k
  | .dslErr k _ => some k
  | .plainErr _ => none

/-- `graph.NodeAlreadyExists` (errors.go). -/
def nodeAlreadyExistsErr (id : NodeID) : GoError :=
  .graphErr "NodeAlreadyExists" ("node " ++ id ++ " already exists")

/-- `graph.NodeDoesNotExist` (errors.go).  NOTE: the Go constructor is
named `NodeDoesNotExist` but the kind string it produces is
`"NodeDoesNotExists"`, with a trailing `s`. -/
def nodeDoesNotExistErr (id : NodeID) : GoError :=
  .graphErr "NodeDoesNotExists" ("node " ++ id ++ " does not exist")

/-- `graph.EdgeAlreadyExists` (errors.go). -/
def edgeAlreadyExistsErr (id : EdgeID) : GoError :=
  .graphErr "EdgeAlreadyExists" ("edge " ++ id ++ " already exists")

/-- `graph.EdgeDoesNotExist` (errors.go). -/
def edgeDoesNotExistErr (fromID toID : NodeID) : GoError :=
  .graphErr "EdgeDoesNotExist" ("edge from " ++ fromID ++ " to " ++ toID ++ " does not exist")

/-- `graph.EdgeDoesNotExistByID` (errors.go). -/
def edgeDoesNotExistByIDErr (id : EdgeID) : GoError :=
  .graphErr "EdgeDoesNotExist" ("edge " ++ id ++ " does not exist")

/-- `graph.ProbabilisticAdjacencyListGraph`: node map, edge map, and the
two adjacency directions (`out`, `in`; the latter is called `inn` here
because `in` is reserved in Lean).  Inner adjacency maps are keyed by the
other endpoint and hold the edge (the Go code shares `*Edge` pointers; the
model holds the edge value). -/
structure Graph : Type where
  nodeMap : List (NodeID × Node)
  edgeMap : List (EdgeID × Edge)
  out : List (NodeID × List (NodeID × Edge))
  inn : List (NodeID × List (NodeID × Edge))
deriving DecidableEq, Repr

/-- `graph.CreateProbAdjListGraph`. -/
def emptyGraph : Graph := ⟨[], [], [], []⟩

/-- The inner out-adjacency map of `n` (`g.out[n]`; a missing key reads as
the empty/nil map). -/
def outL (g : Graph) (n : NodeID) : List (NodeID × Edge) :=
  (lookupA g.out n).getD []

/-- The inner in-adjacency map of `n` (`g.in[n]`). -/
def innL (g : Graph) (n : NodeID) : List (NodeID × Edge) :=
  (lookupA g.inn n).getD []

/-- `ContainsNode`. -/
def containsNode (g : Graph) (id : NodeID) : Bool :=
  (lookupA g.nodeMap id).isSome

/-- `ContainsEdge` — reads `g.out[fromID][toID]`. -/
def containsEdge (g : Graph) (fromID toID : NodeID) : Bool :=
  (lookupA (outL g fromID) toID).isSome

/-- `ContainsEdgeByID`. -/
def containsEdgeByID (g : Graph) (id : EdgeID) : Bool :=
  (lookupA g.edgeMap id).isSome

/-- `GetNodes` (iteration order: our determinization is insertion order). -/
def getNodes (g : Graph) : List Node :=
  valuesA g.nodeMap

/-- `GetEdges`: iterates the node map and collects each node's out-edges. -/
def getEdges (g : Graph) : List Edge :=
  (getNodes g).flatMap (fun n => valuesA (outL g n.ID))

/-- `AddNode`: fails with `NodeAlreadyExists`, else inserts the node and
fresh empty inner adjacency maps (`props` is defensively copied in Go;
copying an association list is the identity here). -/
def addNode (g : Graph) (id : NodeID) (props : List (String × Value)) :
    Except GoError Graph :=
  if containsNode g id then .error (nodeAlreadyExistsErr id)
  else .ok { g with
    nodeMap := setA g.nodeMap id ⟨id, props⟩
    out := setA g.out id []
    inn := setA g.inn id [] }

/-- `OutgoingEdges`. -/
def outgoingEdges (g : Graph) (id : NodeID) : Except GoError (List Edge) :=
  if ¬ containsNode g id then .error (nodeDoesNotExistErr id)
  else .ok (valuesA (outL g id))

/-- `IncomingEdges`. -/
def incomingEdges (g : Graph) (id : NodeID) : Except GoError (List Edge) :=
  if ¬ containsNode g id then .error (nodeDoesNotExistErr id)
  else .ok (valuesA (innL g id))

/-- `RemoveNode`: fails with `NodeDoesNotExist` if absent; otherwise
deletes the node, deletes every incident edge from `edgeMap`, and deletes
the node's own rows `out[id]` and `in[id]`.  (Faithful to the source: the
source does NOT delete the entries `out[m][id]` / `in[m][id]` held under
other nodes `m`.) -/
def removeNode (g : Graph) (id : NodeID) : Except GoError Graph :=
  if ¬ containsNode g id then .error (nodeDoesNotExistErr id)
  else
    let outgoing := valuesA (outL g id)
    let incoming := valuesA (innL g id)
    let em1 := outgoing.foldl (fun em e => delA em e.ID) g.edgeMap
    let em2 := incoming.foldl (fun em e => delA em e.ID) em1
    .ok { nodeMap := delA g.nodeMap id
          edgeMap := em2
          out := delA g.out id
          inn := delA g.inn id }

/-- `AddEdge`. -/
def addEdge (g : Graph) (edgeID : EdgeID) (fromID toID : NodeID) (prob : ℚ)
    (props : List (String × Value)) : Except GoError Graph :=
  if containsEdgeByID g edgeID then .error (edgeAlreadyExistsErr edgeID)
  else if ¬ containsNode g fromID then .error (nodeDoesNotExistErr fromID)
  else if ¬ containsNode g toID then .error (nodeDoesNotExistErr toID)
  else if prob < 0 ∨ prob > 1 then
    .error (.graphErr "InvalidEdgeProbability" "probability must be between 0 and 1")
  else
    let newEdge : Edge := ⟨edgeID, fromID, toID, prob, props⟩
    .ok { g with
      out := adjustA g.out fromID (fun inner => setA inner toID newEdge)
      inn := adjustA g.inn toID (fun inner => setA inner fromID newEdge)
      edgeMap := setA g.edgeMap edgeID newEdge }

/-- `RemoveEdge`. -/
def removeEdge (g : Graph) (fromID toID : NodeID) : Except GoError Graph :=
  if ¬ containsNode g fromID then .error (nodeDoesNotExistErr fromID)
  else if ¬ containsNode g toID then .error (nodeDoesNotExistErr toID)
  else if ¬ containsEdge g fromID toID then .error (edgeDoesNotExistErr fromID toID)
  else
    let edgeID := ((lookupA (outL g fromID) toID).map Edge.ID).getD ""
    .ok { g with
      out := adjustA g.out fromID (fun inner => delA inner toID)
      inn := adjustA g.inn toID (fun inner => delA inner fromID)
      edgeMap := delA g.edgeMap edgeID }

/-- `RemoveEdgeByID`. -/
def removeEdgeByID (g : Graph) (edgeID : EdgeID) : Except GoError Graph :=
  match lookupA g.edgeMap edgeID with
  | none => .error (edgeDoesNotExistByIDErr edgeID)
  | some e =>
    .ok { g with
      out := adjustA g.out e.From (fun inner => delA inner e.To)
      inn := adjustA g.inn e.To (fun inner => delA inner e.From)
      edgeMap := delA g.edgeMap edgeID }

/-- `GetEdge`. -/
def getEdge (g : Graph) (fromID toID : NodeID) : Except GoError Edge :=
  if ¬ containsNode g fromID then .error (nodeDoesNotExistErr fromID)
  else if ¬ containsNode g toID then .error (nodeDoesNotExistErr toID)
  else
    match lookupA (outL g fromID) toID with
    | none => .error (edgeDoesNotExistErr fromID toID)
    | some e => .ok e

/-- `GetEdgeByID`. -/
def getEdgeByID (g : Graph) (id : EdgeID) : Except GoError Edge :=
  match lookupA g.edgeMap id with
  | none => .error (edgeDoesNotExistByIDErr id)
  | some e => .ok e

/-- The per-node copy made by `Clone` (`&Node{ID:…, Props: copy}`; copying
the props map is the identity on association lists). -/
def cloneNodeVal (n : Node) : Node := ⟨n.ID, n.Props⟩

/-- The per-edge copy made by `Clone`. -/
def cloneEdgeVal (e : Edge) : Edge := ⟨e.ID, e.From, e.To, e.Probability, e.Props⟩

/-- One assignment pass of `Clone`'s third loop body:
`clone.out[from][to] = clonedEdge; clone.in[to][from] = clonedEdge`, where
`clonedEdge = clone.edgeMap[edge.ID]`.  If the looked-up id is absent the
Go code stores a nil pointer (dead for well-formed graphs); the model
falls back to the edge value itself. -/
def cloneAdjStep (em : List (EdgeID × Edge))
    (acc : List (NodeID × List (NodeID × Edge)) × List (NodeID × List (NodeID × Edge)))
    (fromID : NodeID) (entry : NodeID × Edge) :
    List (NodeID × List (NodeID × Edge)) × List (NodeID × List (NodeID × Edge)) :=
  let toID := entry.1
  let clonedEdge := (lookupA em entry.2.ID).getD entry.2
  (adjustA acc.1 fromID (fun inner => setA inner toID clonedEdge),
   adjustA acc.2 toID (fun inner => setA inner fromID clonedEdge))

/-- `Clone`: deep copy.  First copies nodes (initializing empty inner maps
for every node), then copies the edge map, then rebuilds both adjacency
directions from `out`, sharing the edge values already placed in the
cloned edge map. -/
def clone (g : Graph) : Graph :=
  let nm := g.nodeMap.map (fun kv => (kv.1, cloneNodeVal kv.2))
  let em := g.edgeMap.map (fun kv => (kv.1, cloneEdgeVal kv.2))
  let outInit : List (NodeID × List (NodeID × Edge)) := g.nodeMap.map (fun kv => (kv.1, []))
  let innInit : List (NodeID × List (NodeID × Edge)) := g.nodeMap.map (fun kv => (kv.1, []))
  let filled := g.out.foldl
    (fun acc row => row.2.foldl (fun acc e => cloneAdjStep em acc row.1 e) acc)
    (outInit, innInit)
  { nodeMap := nm, edgeMap := em, out := filled.1, inn := filled.2 }

/-- `InvalidCondition` error for a missing node (ApplyCondition). -/
def invalidConditionNodeErr (id : NodeID) : GoError :=
  .graphErr "InvalidCondition" ("node " ++ id ++ " from condition does not exist in graph")

/-- `InvalidCondition` error for an edge with a missing endpoint
(ApplyCondition). -/
def invalidConditionEdgeErr (id : EdgeID) : GoError :=
  .graphErr "InvalidCondition" ("edge " ++ id ++ " from condition does not exist in graph")

/-- One iteration of `ApplyCondition`'s forced-inactive-node loop: checks
existence, then deletes the node from both adjacency directions and from
the node map (the edge map is NOT touched). -/
def applyInactiveNode (cl : Graph) (id : NodeID) : Except GoError Graph :=
  if ¬ containsNode cl id then .error (invalidConditionNodeErr id)
  else
    let outKeys := keysA (outL cl id)
    let inn1 := outKeys.foldl (fun m toID => adjustA m toID (fun inner => delA inner id)) cl.inn
    let innKeys := keysA ((lookupA inn1 id).getD [])
    let out1 := innKeys.foldl (fun m fromID => adjustA m fromID (fun inner => delA inner id)) cl.out
    .ok { cl with
      nodeMap := delA cl.nodeMap id
      out := delA out1 id
      inn := delA inn1 id }

/-- One iteration of `ApplyCondition`'s forced-inactive-edge loop: both
endpoints must exist; the edge is deleted from both adjacency directions
if still present (silently skipped otherwise).  The edge map is NOT
touched. -/
def applyInactiveEdge (cl : Graph) (e : Edge) : Except GoError Graph :=
  if ¬ containsNode cl e.From ∨ ¬ containsNode cl e.To then
    .error (invalidConditionEdgeErr e.ID)
  else if containsEdge cl e.From e.To then
    .ok { cl with
      out := adjustA cl.out e.From (fun inner => delA inner e.To)
      inn := adjustA cl.inn e.To (fun inner => delA inner e.From) }
  else .ok cl

/-- `ApplyCondition`: deep-clones the graph, processes the
forced-inactive nodes (deduplicated through a set in Go; modelled by
`eraseDups` keeping first occurrences), then the forced-inactive edges.
`ForcedActiveEdges` and `ForcedActiveNodes` are not read at all. -/
def applyCondition (g : Graph) (c : Condition) : Except GoError Graph := do
  let cl := clone g
  let cl ← c.ForcedInactiveNodes.eraseDups.foldlM applyInactiveNode cl
  let cl ← c.ForcedInactiveEdges.foldlM applyInactiveEdge cl
  return cl

/-! ## Basic lemmas about the association-list operations -/

theorem lookupA_setA {α β : Type} [DecidableEq α] (m : List (α × β)) (k k' : α) (v : β) :
    lookupA (setA m k v) k' = if k = k' then some v else lookupA m k' := by
  induction m with
  | nil => simp [setA, lookupA]
  | cons kv rest ih =>
    obtain ⟨k₀, v₀⟩ := kv
    by_cases h₀ : k₀ = k
    · subst h₀
      by_cases h₁ : k₀ = k'
      · subst h₁; simp [setA, lookupA]
      · simp [setA, lookupA, h₁]
    · by_cases h₁ : k₀ = k'
      · subst h₁
        have hk : ¬ k = k₀ := fun h => h₀ h.symm
        simp [setA, lookupA, h₀, hk]
      · simp [setA, lookupA, h₀, h₁, ih]

theorem lookupA_delA {α β : Type} [DecidableEq α] (m : List (α × β)) (k k' : α) :
    lookupA (delA m k) k' = if k = k' then none else lookupA m k' := by
  induction m with
  | nil => simp [delA, lookupA]
  | cons kv rest ih =>
    obtain ⟨k₀, v₀⟩ := kv
    by_cases h₀ : k₀ = k
    · subst h₀
      by_cases h₁ : k₀ = k'
      · subst h₁
        simpa [delA, lookupA] using ih
      · simpa [delA, lookupA, h₁] using ih
    · by_cases h₁ : k₀ = k'
      · subst h₁
        have hk : ¬ k = k₀ := fun h => h₀ h.symm
        simp [delA, lookupA, h₀, hk]
      · simpa [delA, lookupA, h₀, h₁] using ih

theorem adjustA_cons {α β : Type} [DecidableEq α] (k₀ : α) (v₀ : β)
    (rest : List (α × β)) (k : α) (f : β → β) :
    adjustA ((k₀, v₀) :: rest) k f =
      (if k₀ = k then (k₀, f v₀) else (k₀, v₀)) :: adjustA rest k f := by
  by_cases h : k₀ = k <;> simp [adjustA, h]

theorem lookupA_adjustA {α β : Type} [DecidableEq α] (m : List (α × β)) (k k' : α)
    (f : β → β) :
    lookupA (adjustA m k f) k' =
      if k = k' then (lookupA m k').map f else lookupA m k' := by
  induction m with
  | nil => simp [adjustA, lookupA]
  | cons kv rest ih =>
    obtain ⟨k₀, v₀⟩ := kv
    rw [adjustA_cons]
    by_cases h₀ : k₀ = k
    · rw [if_pos h₀]
      subst h₀
      by_cases h₁ : k₀ = k'
      · subst h₁; simp [lookupA]
      · simp [lookupA, h₁, ih]
    · rw [if_neg h₀]
      by_cases h₁ : k₀ = k'
      · subst h₁
        have hk : ¬ k = k₀ := fun h => h₀ h.symm
        simp [lookupA, hk]
      · simp [lookupA, h₁, ih]

/-! ## The edge map survives `ApplyCondition` untouched

`ApplyCondition` deletes conditioned-away elements only from the node map
and the two adjacency directions; nothing after `Clone` writes to
`edgeMap`, and `Clone` copies it verbatim. -/

theorem cloneEdgeVal_id (e : Edge) : cloneEdgeVal e = e := rfl

theorem cloneNodeVal_id (n : Node) : cloneNodeVal n = n := rfl

theorem clone_edgeMap (g : Graph) : (clone g).edgeMap = g.edgeMap := by
  show g.edgeMap.map (fun kv => (kv.1, cloneEdgeVal kv.2)) = g.edgeMap
  simp [cloneEdgeVal_id]

theorem clone_nodeMap (g : Graph) : (clone g).nodeMap = g.nodeMap := by
  show g.nodeMap.map (fun kv => (kv.1, cloneNodeVal kv.2)) = g.nodeMap
  simp [cloneNodeVal_id]

theorem applyInactiveNode_edgeMap {cl cl' : Graph} {id : NodeID}
    (h : applyInactiveNode cl id = .ok cl') : cl'.edgeMap = cl.edgeMap := by
  unfold applyInactiveNode at h
  split at h
  · exact absurd h (by simp)
  · exact (Except.ok.inj h) ▸ rfl

theorem applyInactiveEdge_edgeMap {cl cl' : Graph} {e : Edge}
    (h : applyInactiveEdge cl e = .ok cl') : cl'.edgeMap = cl.edgeMap := by
  unfold applyInactiveEdge at h
  split at h
  · exact absurd h (by simp)
  · split at h
    · exact (Except.ok.inj h) ▸ rfl
    · exact (Except.ok.inj h) ▸ rfl

/-- Destructing a successful `Except` bind. -/
theorem except_bind_ok {ε α β : Type} {x : Except ε α} {f : α → Except ε β} {b : β}
    (h : (x >>= f) = .ok b) : ∃ a, x = .ok a ∧ f a = .ok b := by
  cases x with
  | error e => exact absurd h (by simp [Bind.bind, Except.bind])
  | ok a => exact ⟨a, rfl, by simpa [Bind.bind, Except.bind] using h⟩

/-- A successful monadic fold whose step preserves a binary relation
transports the relation from the initial to the final state. -/
theorem foldlM_ok_preserves {σ ε α : Type} (f : σ → α → Except ε σ)
    (P : σ → σ → Prop) (hrefl : ∀ s, P s s)
    (htrans : ∀ a b c, P a b → P b c → P a c)
    (hstep : ∀ s x s', f s x = .ok s' → P s s') :
    ∀ (l : List α) (s s' : σ), l.foldlM f s = .ok s' → P s s' := by
  intro l
  induction l with
  | nil =>
    intro s s' h
    simp only [List.foldlM_nil] at h
    have h' : Except.ok (ε := ε) s = Except.ok s' := h
    cases h'
    exact hrefl s
  | cons x t ih =>
    intro s s' h
    rw [List.foldlM_cons] at h
    obtain ⟨mid, hx, hrest⟩ := except_bind_ok h
    exact htrans _ _ _ (hstep s x mid hx) (ih mid s' hrest)

theorem foldlM_inactiveNodes_edgeMap (l : List NodeID) (cl cl' : Graph)
    (h : l.foldlM applyInactiveNode cl = .ok cl') : cl'.edgeMap = cl.edgeMap :=
  foldlM_ok_preserves applyInactiveNode (fun a b => b.edgeMap = a.edgeMap)
    (fun _ => rfl) (fun _ _ _ h₁ h₂ => h₂.trans h₁)
    (fun _ _ _ hx => applyInactiveNode_edgeMap hx) l cl cl' h

theorem foldlM_inactiveEdges_edgeMap (l : List Edge) (cl cl' : Graph)
    (h : l.foldlM applyInactiveEdge cl = .ok cl') : cl'.edgeMap = cl.edgeMap :=
  foldlM_ok_preserves applyInactiveEdge (fun a b => b.edgeMap = a.edgeMap)
    (fun _ => rfl) (fun _ _ _ h₁ h₂ => h₂.trans h₁)
    (fun _ _ _ hx => applyInactiveEdge_edgeMap hx) l cl cl' h

/-- Splitting a successful `applyCondition` run into its clone, node and
edge phases. -/
theorem applyCondition_ok_split {g cl : Graph} {c : Condition}
    (h : applyCondition g c = .ok cl) :
    ∃ mid, c.ForcedInactiveNodes.eraseDups.foldlM applyInactiveNode (clone g) = .ok mid ∧
      c.ForcedInactiveEdges.foldlM applyInactiveEdge mid = .ok cl := by
  unfold applyCondition at h
  obtain ⟨mid, h₁, h₂⟩ := except_bind_ok h
  obtain ⟨fin, h₃, h₄⟩ := except_bind_ok h₂
  have h' : Except.ok (ε := GoError) fin = Except.ok cl := h₄
  cases h'
  exact ⟨mid, h₁, h₃⟩

theorem applyCondition_edgeMap {g cl : Graph} {c : Condition}
    (h : applyCondition g c = .ok cl) : cl.edgeMap = g.edgeMap := by
  obtain ⟨mid, h₁, h₂⟩ := applyCondition_ok_split h
  rw [foldlM_inactiveEdges_edgeMap _ _ _ h₂,
      foldlM_inactiveNodes_edgeMap _ _ _ h₁, clone_edgeMap]

/-! ## The forced-inactive-edge phase removes the adjacency entry -/

theorem applyInactiveEdge_self {cl cl' : Graph} {e : Edge}
    (h : applyInactiveEdge cl e = .ok cl') :
    containsEdge cl' e.From e.To = false := by
  unfold applyInactiveEdge at h
  split at h
  · exact absurd h (by simp)
  · split at h
    · have h' := Except.ok.inj h
      subst h'
      simp only [containsEdge, outL, lookupA_adjustA, if_pos rfl]
      cases hl : lookupA cl.out e.From with
      | none => simp [lookupA]
      | some inner => simp [lookupA_delA]
    · rename_i hce
      have h' := Except.ok.inj h
      subst h'
      simpa using hce

theorem applyInactiveEdge_absent {cl cl' : Graph} {f : Edge} {a b : NodeID}
    (h : applyInactiveEdge cl f = .ok cl')
    (habs : containsEdge cl a b = false) :
    containsEdge cl' a b = false := by
  unfold applyInactiveEdge at h
  split at h
  · exact absurd h (by simp)
  · split at h
    · have h' := Except.ok.inj h
      subst h'
      simp only [containsEdge, outL, lookupA_adjustA] at habs ⊢
      by_cases hfa : f.From = a
      · subst hfa
        rw [if_pos rfl]
        cases hl : lookupA cl.out f.From with
        | none => simp [lookupA]
        | some inner =>
          rw [hl] at habs
          simp only [Option.map_some', Option.getD_some] at *
          rw [lookupA_delA]
          by_cases hb : f.To = b
          · simp [hb]
          · simpa [hb] using habs
      · rwa [if_neg hfa]
    · have h' := Except.ok.inj h
      subst h'
      exact habs

theorem inactiveEdges_fold_contains (e : Edge) :
    ∀ (l : List Edge) (cl cl' : Graph),
      l.foldlM applyInactiveEdge cl = .ok cl' →
      (e ∈ l ∨ containsEdge cl e.From e.To = false) →
      containsEdge cl' e.From e.To = false := by
  intro l
  induction l with
  | nil =>
    intro cl cl' h hcase
    have h' : Except.ok (ε := GoError) cl = Except.ok cl' := h
    cases h'
    cases hcase with
    | inl hin => cases hin
    | inr habs => exact habs
  | cons x t ih =>
    intro cl cl' h hcase
    rw [List.foldlM_cons] at h
    obtain ⟨mid, hx, hrest⟩ := except_bind_ok h
    cases hcase with
    | inl hin =>
      cases List.mem_cons.mp hin with
      | inl he =>
        subst he
        exact ih mid cl' hrest (Or.inr (applyInactiveEdge_self hx))
      | inr ht => exact ih mid cl' hrest (Or.inl ht)
    | inr habs =>
      exact ih mid cl' hrest (Or.inr (applyInactiveEdge_absent hx habs))

/-! ## Concrete graphs used as inputs for the claims -/

instance exceptDecEq {ε α : Type} [DecidableEq ε] [DecidableEq α] :
    DecidableEq (Except ε α) := fun x y =>
  match x, y with
  | .error a, .error b => decidable_of_iff (a = b) (by simp)
  | .error _, .ok _ => isFalse (by simp)
  | .ok _, .error _ => isFalse (by simp)
  | .ok a, .ok b => decidable_of_iff (a = b) (by simp)

/-- Two nodes `A`, `B` and one edge `e : A → B` with probability `1/2`,
built through the graph API. -/
def twoNodeGraph : Graph :=
  ((addNode emptyGraph "A" []).bind (fun g => addNode g "B" []) |>.bind
    (fun g => addEdge g "e" "A" "B" (mkRat 1 2) [])).toOption.getD emptyGraph

/-- The edge of `twoNodeGraph`, as stored. -/
def twoNodeEdge : Edge := ⟨"e", "A", "B", mkRat 1 2, []⟩

/-- C1: concrete run of `RemoveNode` on `twoNodeGraph`'s node `B`. -/
def c1Removed : Except GoError Graph := removeNode twoNodeGraph "B"

/-- C1 (code bug, failing input): on the graph `A → B` (edge `e`),
`RemoveNode "B"` succeeds, deletes the node and deletes `e` from the edge
map, but the out-adjacency entry `(A, B)` is NOT purged: `ContainsEdge A B`
still reports `true` afterwards, contradicting the claim (and invariants
I2/I6) that no reference to the removed node remains in either adjacency
direction. -/
theorem removeNode_leaves_stale_adjacency :
    c1Removed.map (fun g =>
        (containsNode g "B", containsEdgeByID g "e", containsEdge g "A" "B"))
      = .ok (false, false, true) := by
  decide

/-- C2, counterexample part: conditioning `twoNodeGraph` on
`ForcedActiveEdges = [e]` yields a clone in which `e`'s probability is
still `1/2`, not `1.0` as the claim states. -/
theorem forcedActive_counterexample :
    (applyCondition twoNodeGraph { ForcedActiveEdges := [twoNodeEdge] }).map
        (fun cl => (getEdgeByID cl "e").map Edge.Probability)
      = .ok (.ok (mkRat 1 2)) ∧ mkRat 1 2 ≠ 1 := by
  constructor
  · decide
  · decide

/-- C2 (amended): `ApplyCondition` never reads `ForcedActiveEdges`; for
every graph and condition whose `ForcedActiveEdges` contains an edge `e`
of the graph, the returned clone still holds `e` with its probability
UNCHANGED (in particular it is not set to 1.0).  The Go original is not
mutated (the model is pure; the Go code only writes to the clone). -/
theorem forcedActive_leaves_probability_unchanged
    {g cl : Graph} {c : Condition} {e : Edge}
    (_hm : e ∈ c.ForcedActiveEdges)
    (hid : lookupA g.edgeMap e.ID = some e)
    (hok : applyCondition g c = .ok cl) :
    getEdgeByID cl e.ID = .ok e := by
  have hem := applyCondition_edgeMap hok
  unfold getEdgeByID
  rw [hem, hid]

/-- Witness for `forcedActive_leaves_probability_unchanged` at the
concrete input of `forcedActive_counterexample`. -/
theorem forcedActive_unchanged_witness :
    getEdgeByID
        ((applyCondition twoNodeGraph { ForcedActiveEdges := [twoNodeEdge] }).toOption.getD
          emptyGraph) "e" = .ok twoNodeEdge :=
  forcedActive_leaves_probability_unchanged
    (g := twoNodeGraph) (c := { ForcedActiveEdges := [twoNodeEdge] })
    (e := twoNodeEdge) (List.mem_singleton.mpr rfl) (by decide) (by decide)

/-- C10: after conditioning away an edge `e` (forced inactive), the clone
still contains `e` in its edge-id map — `ContainsEdgeByID` is true and
`GetEdgeByID` returns the edge — even though `ContainsEdge e.From e.To`
is false on the clone. -/
theorem inactive_edge_stays_in_edgeMap
    {g cl : Graph} {c : Condition} {e : Edge}
    (hm : e ∈ c.ForcedInactiveEdges)
    (hid : lookupA g.edgeMap e.ID = some e)
    (hok : applyCondition g c = .ok cl) :
    containsEdgeByID cl e.ID = true ∧ getEdgeByID cl e.ID = .ok e ∧
      containsEdge cl e.From e.To = false := by
  have hem := applyCondition_edgeMap hok
  obtain ⟨mid, h₁, h₂⟩ := applyCondition_ok_split hok
  refine ⟨?_, ?_, ?_⟩
  · simp [containsEdgeByID, hem, hid]
  · unfold getEdgeByID
    rw [hem, hid]
  · exact inactiveEdges_fold_contains e _ mid cl h₂ (Or.inl hm)

/-- Witness for `inactive_edge_stays_in_edgeMap` at a concrete input. -/
theorem inactive_edge_stays_witness :
    containsEdgeByID
        ((applyCondition twoNodeGraph { ForcedInactiveEdges := [twoNodeEdge] }).toOption.getD
          emptyGraph) "e" = true ∧
      getEdgeByID
        ((applyCondition twoNodeGraph { ForcedInactiveEdges := [twoNodeEdge] }).toOption.getD
          emptyGraph) "e" = .ok twoNodeEdge ∧
      containsEdge
        ((applyCondition twoNodeGraph { ForcedInactiveEdges := [twoNodeEdge] }).toOption.getD
          emptyGraph) "A" "B" = false :=
  inactive_edge_stays_in_edgeMap
    (g := twoNodeGraph) (c := { ForcedInactiveEdges := [twoNodeEdge] })
    (e := twoNodeEdge) (List.mem_singleton.mpr rfl) (by decide) (by decide)

/-! ## Inference kernels (`internal/inference`)

`MaxProbabilityPath` (part_004) runs Dijkstra on the weights
`-log p(e)`.  The model works in the exact probability space instead:
`dist` holds `exp(-weight-distance)`, so `+∞ ↦ 0`, the initial `0 ↦ 1`,
`alt := dist[u] + (-log p) ↦ alt := dist[u] * p`, and the comparison
`alt < dist[to]` becomes `alt > dist[to]`.  This is the exact-real image
of the float code (IEEE rounding abstracted). -/

/-- `inference.PQItem`, in probability space (`PriorityP = exp(-Priority)`).

Modelled from the spec: the priority-queue source file is not under
`src/` (only its use in `MaxProbabilityPath` is); the spec says "Min-heap
keyed by a real-valued priority, stable across equal keys", which in
probability space is a stable max-heap on the stored probability. -/
structure PQItem : Type where
  ID : NodeID
  PriorityP : ℚ
deriving DecidableEq, Repr

/-- Pop the earliest item of maximal probability (= minimal `-log`
priority; stable across equal keys).  Modelled from the spec (see
`PQItem`). -/
def pqPopMax : List PQItem → Option (PQItem × List PQItem)
  | [] => none
  | x :: rest =>
    match pqPopMax rest with
    | none => some (x, [])
    | some (y, rest') =>
      if y.PriorityP > x.PriorityP then some (y, x :: rest') else some (x, rest)

/-- Dijkstra working state: the `dist` and `prev` maps and the priority
queue. -/
structure DijkstraState : Type where
  dist : List (NodeID × ℚ)
  prev : List (NodeID × NodeID)
  pq : List PQItem
deriving DecidableEq, Repr

/-- A `dist` read.  Every node is initialized (to probability `0`, i.e.
weight `+∞`); a missing key only occurs for non-node ids, where the Go map
read returns the float zero value `0.0` — a WEIGHT of `0`, i.e.
probability `1`. -/
def distLookup (dist : List (NodeID × ℚ)) (n : NodeID) : ℚ :=
  (lookupA dist n).getD 1

/-- Total size of the out-adjacency (used only to compute a sufficient
fuel bound for the Dijkstra loop: with non-negative weights each node is
pushed at most in-degree + 1 times, so pops are bounded by edges+nodes+2). -/
def adjSize (g : Graph) : Nat :=
  ((getNodes g).map (fun n => (outL g n.ID).length)).sum

/-- The main Dijkstra loop of `MaxProbabilityPath`.  Faithful to the Go
loop: pop the minimum-weight (= maximum-probability) item; stop at `end`;
skip stale entries (`curr.Priority > dist[u]`, i.e. `PriorityP <
dist[u]` in probability space); otherwise relax the node's outgoing edges
(`OutgoingEdges` can fail, aborting the whole computation).  The `fuel`
argument makes the recursion structural; the caller supplies enough fuel
that exhaustion is unreachable for well-formed graphs. -/
def dijkstraLoop (g : Graph) (endID : NodeID) :
    Nat → DijkstraState → Except GoError DijkstraState
  | 0, st => .ok st
  | fuel+1, st =>
    match pqPopMax st.pq with
    | none => .ok st
    | some (curr, pq') =>
      if curr.ID = endID then .ok { st with pq := pq' }
      else if curr.PriorityP < distLookup st.dist curr.ID then
        dijkstraLoop g endID fuel { st with pq := pq' }
      else
        match outgoingEdges g curr.ID with
        | .error e => .error e
        | .ok edges =>
          let st' := edges.foldl (fun (st : DijkstraState) e =>
            let alt := qmul (distLookup st.dist curr.ID) e.Probability
            if alt > distLookup st.dist e.To then
              { dist := setA st.dist e.To alt
                prev := setA st.prev e.To curr.ID
                pq := st.pq ++ [⟨e.To, alt⟩] }
            else st) { st with pq := pq' }
          dijkstraLoop g endID fuel st'

/-- Path reconstruction of `MaxProbabilityPath`: follow `prev` from `end`
back to `start`, collecting nodes (the Go code then reverses the slice).
A missing `prev` entry reads as the Go zero value `""`; the fuel bound
makes the Go `for` loop structural (for a reachable `end` the chain
reaches `start` within the node count). -/
def reconstructPath (prev : List (NodeID × NodeID)) (start : NodeID) :
    Nat → NodeID → List NodeID → List NodeID
  | 0, _, acc => acc
  | fuel+1, at_, acc =>
    let acc' := acc ++ [at_]
    if at_ = start then acc'
    else reconstructPath prev start fuel ((lookupA prev at_).getD "") acc'

/-- `inference.MaxProbabilityPath` (part_004). -/
def maxProbabilityPath (g : Graph) (start endID : NodeID) : Except GoError Path :=
  if ¬ containsNode g start then
    .error (.graphErr "NodeDoesNotExist" ("start node " ++ start ++ " does not exist"))
  else if ¬ containsNode g endID then
    .error (.graphErr "NodeDoesNotExist" ("end node " ++ endID ++ " does not exist"))
  else
    let dist0 := setA ((getNodes g).foldl (fun d n => setA d n.ID 0) []) start 1
    let fuel := adjSize g + (getNodes g).length + 2
    match dijkstraLoop g endID fuel ⟨dist0, [], [⟨start, 1⟩]⟩ with
    | .error e => .error e
    | .ok st =>
      if distLookup st.dist endID = 0 then .ok ⟨[], 0⟩
      else
        let pathSlice := reconstructPath st.prev start ((getNodes g).length + 1) endID []
        .ok ⟨pathSlice.reverse, distLookup st.dist endID⟩

/-- `inference.equalNodePrefix` (top_k_max_probability_paths.go): true iff
`b` is a prefix of `a`. -/
def equalNodePre : List NodeID → List NodeID → Bool
  | _, [] => true
  | [], _ :: _ => false
  | x :: xs, y :: ys => x = y && equalNodePre xs ys

/-- `inference.pathProbability`: joint probability of consecutive edges
against the graph; `0.0` as soon as some consecutive pair is not an edge. -/
def pathProbability (g : Graph) : List NodeID → ℚ → ℚ
  | a :: b :: rest, acc =>
    match getEdge g a b with
    | .error _ => 0
    | .ok e => pathProbability g (b :: rest) (qmul acc e.Probability)
  | _, acc => acc

/-- Index of the best candidate, as picked by the Go loop (`bestIdx = 0`;
strictly-greater replaces): the first index of the maximum. -/
def pickBestIdx (candidates : List Path) : Nat :=
  (candidates.foldl
    (fun (acc : Nat × Nat × ℚ) c =>
      let (idx, bestIdx, bestP) := acc
      if c.Probability > bestP then (idx + 1, idx, c.Probability)
      else (idx + 1, bestIdx, bestP))
    (0, 0, (candidates.headD ⟨[], 0⟩).Probability)).2.1

/-- The spur-edge removal of one Yen iteration: for each previously
accepted path `p` sharing the root, remove the edge leaving its
`spurIdx`-th node (errors ignored, `_ = gClone.RemoveEdge(...)`). -/
def removeSpurEdges (results : List Path) (rootPathNodes : List NodeID)
    (spurIdx : Nat) (gc : Graph) : Graph :=
  results.foldl
    (fun gc p =>
      if spurIdx < p.NodeIDs.length ∧ equalNodePre p.NodeIDs rootPathNodes then
        match removeEdge gc (p.NodeIDs.getD spurIdx "") (p.NodeIDs.getD (spurIdx + 1) "") with
        | .ok gc' => gc'
        | .error _ => gc
      else gc) gc

/-- One spur-index step of a Yen iteration: build the reduced clone,
compute the spur path, combine root and spur, compute the candidate's
probability against the original graph, and append it unless it
duplicates an existing candidate. -/
def yenSpurStep (g : Graph) (endID : NodeID) (results : List Path)
    (prevPath : Path) (candidates : List Path) (spurIdx : Nat) : List Path :=
  let spurNode := prevPath.NodeIDs.getD spurIdx ""
  let rootPathNodes := prevPath.NodeIDs.take (spurIdx + 1)
  let gClone := removeSpurEdges results rootPathNodes spurIdx (clone g)
  match maxProbabilityPath gClone spurNode endID with
  | .error _ => candidates
  | .ok spurPath =>
    if spurPath.NodeIDs.length = 0 then candidates
    else
      let fullNodes := rootPathNodes.dropLast ++ spurPath.NodeIDs
      let fullProb := pathProbability g fullNodes 1
      let isDuplicate := candidates.any
        (fun c => c.NodeIDs.length = fullNodes.length && equalNodePre c.NodeIDs fullNodes)
      if isDuplicate then candidates
      else candidates ++ [⟨fullNodes, fullProb⟩]

/-- The main Yen iteration loop (`for i := 1; i < k; i++`), with the
iteration count made structural.  State: accepted `results` and the
persistent `candidates` pool. -/
def yenLoop (g : Graph) (endID : NodeID) :
    Nat → List Path → List Path → List Path
  | 0, results, _ => results
  | n+1, results, candidates =>
    let prevPath := results.getLastD ⟨[], 0⟩
    let candidates :=
      (List.range (prevPath.NodeIDs.length - 1)).foldl
        (yenSpurStep g endID results prevPath) candidates
    if candidates.length = 0 then results
    else
      let bestIdx := pickBestIdx candidates
      yenLoop g endID n
        (results ++ [candidates.getD bestIdx ⟨[], 0⟩])
        (candidates.eraseIdx bestIdx)

/-- `inference.TopKMaxProbabilityPaths` (top_k_max_probability_paths.go).
`k` is a Go `int`; `k <= 0` fails with a plain `fmt.Errorf` error (no kind
tag).  A successful run with no path from start to end returns `nil`
paths. -/
def topKMaxProbabilityPaths (g : Graph) (start endID : NodeID) (k : Int) :
    Except GoError (List Path) :=
  if k ≤ 0 then .error (.plainErr "k must be greater than 0")
  else
    match maxProbabilityPath g start endID with
    | .error e => .error e
    | .ok firstPath =>
      if firstPath.NodeIDs.length = 0 then .ok []
      else .ok (yenLoop g endID (k - 1).toNat [firstPath] [])

/-- The diamond-with-return-edge graph used to exercise the top-K kernel:
nodes `A`, `B`, `E`; edges `ae : A→E (0.9)`, `ab : A→B (0.6)`,
`be : B→E (0.6)`, `ba : B→A (1.0)`. -/
def yenGraph : Graph :=
  (((((((addNode emptyGraph "A" []).bind (fun g => addNode g "B" [])).bind
    (fun g => addNode g "E" [])).bind
    (fun g => addEdge g "ae" "A" "E" (mkRat 9 10) [])).bind
    (fun g => addEdge g "ab" "A" "B" (mkRat 6 10) [])).bind
    (fun g => addEdge g "be" "B" "E" (mkRat 6 10) [])).bind
    (fun g => addEdge g "ba" "B" "A" (mkRat 1 1) [])).toOption.getD emptyGraph

/-- C3 (code bug, failing input): on `yenGraph`, `top_k_paths(A, E, 3)`
returns the paths `[A,E] (0.9)`, `[A,B,E] (0.36)`, `[A,B,A,E] (0.54)` —
index 1 has probability `9/25 = 0.36`, strictly below index 2's
`27/50 = 0.54`, so the returned list is NOT sorted non-increasing in
probability.  (The implementation omits Yen's root-node removal, so the
iteration-3 spur at `B` walks back through `A` and produces a candidate
walk better than the previously accepted path; the spec twice states the
result is sorted by probability descending.) -/
theorem topK_result_not_sorted :
    topKMaxProbabilityPaths yenGraph "A" "E" 3 =
      .ok [⟨["A", "E"], mkRat 9 10⟩, ⟨["A", "B", "E"], mkRat 9 25⟩,
           ⟨["A", "B", "A", "E"], mkRat 27 50⟩] ∧
      ¬ (mkRat 9 25 ≥ mkRat 27 50) := by
  constructor
  · decide
  · decide

/-- C8, counterexample part: at `K = 0` the returned error is an untagged
`fmt.Errorf` error — its kind tag is `none`, not `"InvalidParameter"` as
the claim states. -/
theorem topK_kZero_untagged :
    topKMaxProbabilityPaths yenGraph "A" "E" 0 =
        .error (.plainErr "k must be greater than 0") ∧
      errKind (.plainErr "k must be greater than 0") ≠ some "InvalidParameter" := by
  constructor
  · decide
  · decide

/-- C8 (amended): for every graph and node pair, `top_k_paths` with
`K ≤ 0` fails with the untagged error `"k must be greater than 0"` (a
plain `fmt.Errorf`, carrying no kind tag) and returns no paths. -/
theorem topK_nonpositive_k_plain_error (g : Graph) (s e : NodeID) (k : Int)
    (hk : k ≤ 0) :
    topKMaxProbabilityPaths g s e k = .error (.plainErr "k must be greater than 0") := by
  unfold topKMaxProbabilityPaths
  rw [if_pos hk]

/-- Witness for `topK_nonpositive_k_plain_error` at a concrete input. -/
theorem topK_nonpositive_k_witness :
    topKMaxProbabilityPaths twoNodeGraph "A" "B" 0 =
      .error (.plainErr "k must be greater than 0") :=
  topK_nonpositive_k_plain_error twoNodeGraph "A" "B" 0 (by decide)

/-- C6 (code bug, failing input): every graph-layer operation that fails
on a missing node produces the kind tag `"NodeDoesNotExists"` — with a
trailing `s` — because the `graph.NodeDoesNotExist` error constructor's
`Kind` string is misspelled; the claim (and the spec's error-tag table)
says the tag is exactly `"NodeDoesNotExist"`.  The inference layer's
`max_path` uses the correct spelling, so the code is also internally
inconsistent. -/
theorem nodeMissing_kind_tag_mismatch :
    removeNode emptyGraph "A" =
        .error (.graphErr "NodeDoesNotExists" "node A does not exist") ∧
      addEdge twoNodeGraph "x" "C" "A" 1 [] =
        .error (.graphErr "NodeDoesNotExists" "node C does not exist") ∧
      removeEdge twoNodeGraph "C" "A" =
        .error (.graphErr "NodeDoesNotExists" "node C does not exist") ∧
      getEdge twoNodeGraph "C" "A" =
        .error (.graphErr "NodeDoesNotExists" "node C does not exist") ∧
      outgoingEdges twoNodeGraph "C" =
        .error (.graphErr "NodeDoesNotExists" "node C does not exist") ∧
      incomingEdges twoNodeGraph "C" =
        .error (.graphErr "NodeDoesNotExists" "node C does not exist") ∧
      maxProbabilityPath twoNodeGraph "C" "A" =
        .error (.graphErr "NodeDoesNotExist" "start node C does not exist") ∧
      "NodeDoesNotExists" ≠ "NodeDoesNotExist" := by
  decide

/-! ## Result model (`internal/result`) and reducers (`internal/query`) -/

/-- `result.SampleResult`. -/
structure SampleResult : Type where
  Estimate : ℚ
  NumSamples : Int
  Variance : ℚ
  StdErr : ℚ
  CI95Low : ℚ
  CI95High : ℚ
deriving DecidableEq, Repr

/-- `result.Result`: the closed sum of the six result variants
(`PathResult`, `PathsResult`, `ProbabilityResult`, `SampleResult`,
`BooleanResult`, `MultiResult`). -/
inductive ResultR : Type where
  | path (p : Path)
  | paths (ps : List Path)
  | probability (p : ℚ)
  | sample (s : SampleResult)
  | boolean (b : Bool)
  | multi (rs : List ResultR)
deriving Repr

/-- The Go `%T` type name of a result value (used in reducer error
messages). -/
def goTypeName : ResultR → String
  | .path _ => "result.PathResult"
  | .paths _ => "result.PathsResult"
  | .probability _ => "result.ProbabilityResult"
  | .sample _ => "result.SampleResult"
  | .boolean _ => "result.BooleanResult"
  | .multi _ => "result.MultiResult"

/-- The `result.ProbabilisticResult` interface assertion:
`PathResult`, `ProbabilityResult` and `SampleResult` implement
`ProbabilityValue()`; the other variants do not. -/
def probabilityValue : ResultR → Option ℚ
  | .path p => some p.Probability
  | .probability p => some p
  | .sample s => some s.Estimate
  | _ => none

/-- The accumulation loop of `MeanProbabilityReducer.Reduce` (part_006):
NOTE the Go loop type-asserts each element to the CONCRETE type
`result.ProbabilityResult` (not the `ProbabilisticResult` interface used
by the Max/Min/CountAbove reducers), so `Sample` and `Path` results are
rejected with an untagged error. -/
def meanReduceLoop : List ResultR → ℚ → Nat → Except GoError (ℚ × Nat)
  | [], sum, count => .ok (sum, count)
  | r :: rest, sum, count =>
    match r with
    | .probability p => meanReduceLoop rest (qadd sum p) (count + 1)
    | _ => .error (.plainErr ("expected ProbabilityResult, got " ++ goTypeName r))

/-- `MeanProbabilityReducer.Reduce` (the division on an empty input is the
Go float `0/0 = NaN`; the model's `qdiv _ 0 = 0`; reducers are only ever
called on non-empty lists by the query layer). -/
def meanReduce (results : List ResultR) : Except GoError ResultR :=
  match meanReduceLoop results 0 0 with
  | .error e => .error e
  | .ok (sum, count) => .ok (.probability (qdiv sum (count : ℚ)))

/-- The selection loop of `BestPathReducer.Reduce`
(`!found || pr.Path.Probability > best.Probability` replaces). -/
def bestPathLoop : List ResultR → Option Path → Except GoError (Option Path)
  | [], best => .ok best
  | r :: rest, best =>
    match r with
    | .path p =>
      bestPathLoop rest
        (match best with
         | none => some p
         | some b => if p.Probability > b.Probability then some p else some b)
    | _ => .error (.plainErr "expected PathResult")

/-- `BestPathReducer.Reduce` (an empty input returns the Go zero-value
path). -/
def bestPathReduce (results : List ResultR) : Except GoError ResultR :=
  match bestPathLoop results none with
  | .error e => .error e
  | .ok best => .ok (.path (best.getD ⟨[], 0⟩))

/-- The accumulation loop of `MaxProbabilityReducer.Reduce` (starts at
`0.0`; accepts any `ProbabilisticResult`). -/
def maxReduceLoop : List ResultR → ℚ → Except GoError ℚ
  | [], m => .ok m
  | r :: rest, m =>
    match probabilityValue r with
    | none => .error (.plainErr ("expected ProbabilisticResult, got " ++ goTypeName r))
    | some p => maxReduceLoop rest (if p > m then p else m)

/-- `MaxProbabilityReducer.Reduce`. -/
def maxReduce (results : List ResultR) : Except GoError ResultR :=
  (maxReduceLoop results 0).map ResultR.probability

/-- The accumulation loop of `MinProbabilityReducer.Reduce` (starts at
`1.0`). -/
def minReduceLoop : List ResultR → ℚ → Except GoError ℚ
  | [], m => .ok m
  | r :: rest, m =>
    match probabilityValue r with
    | none => .error (.plainErr ("expected ProbabilisticResult, got " ++ goTypeName r))
    | some p => minReduceLoop rest (if p < m then p else m)

/-- `MinProbabilityReducer.Reduce`. -/
def minReduce (results : List ResultR) : Except GoError ResultR :=
  (minReduceLoop results 1).map ResultR.probability

/-- The counting loop of `CountAboveThresholdReducer.Reduce`. -/
def countAboveLoop (t : ℚ) : List ResultR → Nat → Except GoError Nat
  | [], count => .ok count
  | r :: rest, count =>
    match probabilityValue r with
    | none => .error (.plainErr ("expected ProbabilisticResult, got " ++ goTypeName r))
    | some p => countAboveLoop t rest (if p ≥ t then count + 1 else count)

/-- `CountAboveThresholdReducer.Reduce`. -/
def countAboveReduce (t : ℚ) (results : List ResultR) : Except GoError ResultR :=
  match countAboveLoop t results 0 with
  | .error e => .error e
  | .ok count => .ok (.probability (qdiv (count : ℚ) (results.length : ℚ)))

/-- C7 (code bug, failing input): the Mean reducer applied to the
single-element list holding a probability-bearing `Sample` result (here
with estimate `1/2`) fails with `"expected ProbabilityResult, got
result.SampleResult"` instead of succeeding with mean `1/2`: its loop
type-asserts the concrete `ProbabilityResult` type, unlike the sibling
Max/Min/CountAbove reducers, which accept any `ProbabilisticResult`
(the second and third conjuncts show the same input is probability-bearing
and accepted by Max). -/
theorem meanReducer_rejects_probability_bearing :
    meanReduce [.sample ⟨mkRat 1 2, 100, 0, 0, 0, 0⟩] =
        .error (.plainErr "expected ProbabilityResult, got result.SampleResult") ∧
      probabilityValue (.sample ⟨mkRat 1 2, 100, 0, 0, 0, 0⟩) = some (mkRat 1 2) ∧
      maxReduce [.sample ⟨mkRat 1 2, 100, 0, 0, 0, 0⟩] =
        .ok (.probability (mkRat 1 2)) := by
  refine ⟨rfl, rfl, rfl⟩

/-! ## DSL condition conversion (`internal/dsl/convert.go`) -/

/-- `dsl.ConditionItemAST`: one `GIVEN` item — an edge id or a node id,
each with a state string (the grammar only produces `"ACTIVE"` or
`"INACTIVE"`).  The Go struct holds two pointers; the both-nil case (which
`convertCondition` rejects with `InvalidSyntax`) cannot be produced by the
parser and is not representable here. -/
inductive ConditionItemAST : Type where
  | edge (edgeID : String) (state : String)
  | node (nodeID : String) (state : String)
deriving DecidableEq, Repr

/-- The four accumulator slices of `convertCondition`
(`forcedActiveEdges`, `forcedInaActiveEdges`, `forcedActiveNodes`,
`forcedInactiveNodes`). -/
structure CondLists : Type where
  fae : List Edge := []
  fie : List Edge := []
  fan : List NodeID := []
  fin : List NodeID := []
deriving DecidableEq, Repr

/-- The item loop of `convertCondition`: edge items are resolved through
`GetEdgeByID` (propagating its error); node items are appended to the
active or inactive slice according to `state == "ACTIVE"`. -/
def convertConditionLoop (g : Graph) :
    List ConditionItemAST → CondLists → Except GoError CondLists
  | [], acc => .ok acc
  | .edge id st :: rest, acc =>
    match getEdgeByID g id with
    | .error e => .error e
    | .ok edge =>
      if st = "ACTIVE" then
        convertConditionLoop g rest { acc with fae := acc.fae ++ [edge] }
      else
        convertConditionLoop g rest { acc with fie := acc.fie ++ [edge] }
  | .node id st :: rest, acc =>
    if st = "ACTIVE" then
      convertConditionLoop g rest { acc with fan := acc.fan ++ [id] }
    else
      convertConditionLoop g rest { acc with fin := acc.fin ++ [id] }

/-- `dsl.convertCondition` (convert.go lines 211–253).  Faithful to the
source, including the final struct literal, whose `ForcedActiveNodes`
field is assigned `forcedInactiveNodes` (the collected
`forcedActiveNodes` slice is never used). -/
def convertCondition (g : Graph) (items : List ConditionItemAST) :
    Except GoError Condition :=
  (convertConditionLoop g items {}).map (fun acc =>
    { ForcedActiveEdges := acc.fae
      ForcedInactiveEdges := acc.fie
      ForcedActiveNodes := acc.fin
      ForcedInactiveNodes := acc.fin })

/-- The node ids of the INACTIVE-marked node items, in order. -/
def inactiveNodeIDs : List ConditionItemAST → List NodeID
  | [] => []
  | .node id st :: rest =>
    if st = "ACTIVE" then inactiveNodeIDs rest else id :: inactiveNodeIDs rest
  | .edge _ _ :: rest => inactiveNodeIDs rest

theorem convertConditionLoop_fin (g : Graph) :
    ∀ (items : List ConditionItemAST) (acc res : CondLists),
      convertConditionLoop g items acc = .ok res →
      res.fin = acc.fin ++ inactiveNodeIDs items := by
  intro items
  induction items with
  | nil =>
    intro acc res h
    have h' : Except.ok (ε := GoError) acc = Except.ok res := h
    cases h'
    simp [inactiveNodeIDs]
  | cons item rest ih =>
    intro acc res h
    cases item with
    | edge id st =>
      unfold convertConditionLoop at h
      cases hge : getEdgeByID g id with
      | error e => rw [hge] at h; exact absurd h (by simp)
      | ok edge =>
        rw [hge] at h
        dsimp only at h
        by_cases hst : st = "ACTIVE"
        · rw [if_pos hst] at h
          simpa [inactiveNodeIDs] using ih _ _ h
        · rw [if_neg hst] at h
          simpa [inactiveNodeIDs] using ih _ _ h
    | node id st =>
      unfold convertConditionLoop at h
      by_cases hst : st = "ACTIVE"
      · rw [if_pos hst] at h
        simpa [inactiveNodeIDs, hst] using ih _ _ h
      · rw [if_neg hst] at h
        have := ih _ _ h
        simp only [inactiveNodeIDs, if_neg hst, this]
        simp

theorem convertConditionLoop_appendActiveNode (g : Graph) (n : NodeID) :
    ∀ (items : List ConditionItemAST) (acc : CondLists),
      convertConditionLoop g (items ++ [.node n "ACTIVE"]) acc =
        (convertConditionLoop g items acc).map (fun r => { r with fan := r.fan ++ [n] }) := by
  intro items
  induction items with
  | nil =>
    intro acc
    simp [convertConditionLoop, Except.map]
  | cons item rest ih =>
    intro acc
    cases item with
    | edge id st =>
      simp only [List.cons_append]
      unfold convertConditionLoop
      cases hge : getEdgeByID g id with
      | error e => simp [Except.map]
      | ok edge =>
        by_cases hst : st = "ACTIVE" <;> simp [hst, ih]
    | node id st =>
      simp only [List.cons_append]
      unfold convertConditionLoop
      by_cases hst : st = "ACTIVE" <;> simp [hst, ih]

/-- C9: in every condition built by the DSL AST conversion, node ids
marked ACTIVE are discarded: the built `Condition`'s `ForcedActiveNodes`
field is assigned the INACTIVE-marked node id list (so it always equals
`ForcedInactiveNodes`), and appending a `GIVEN NODE n ACTIVE` item leaves
the built condition completely unchanged. -/
theorem convertCondition_discards_active_nodes :
    (∀ (g : Graph) (items : List ConditionItemAST) (c : Condition),
        convertCondition g items = .ok c →
        c.ForcedActiveNodes = c.ForcedInactiveNodes ∧
          c.ForcedInactiveNodes = inactiveNodeIDs items) ∧
      ∀ (g : Graph) (items : List ConditionItemAST) (n : NodeID),
        convertCondition g (items ++ [.node n "ACTIVE"]) = convertCondition g items := by
  constructor
  · intro g items c h
    unfold convertCondition at h
    cases hl : convertConditionLoop g items {} with
    | error e => rw [hl] at h; exact absurd h (by simp [Except.map])
    | ok acc =>
      rw [hl] at h
      simp only [Except.map] at h
      have hc : c = (⟨acc.fae, acc.fie, acc.fin, acc.fin⟩ : Condition) := by
        cases h; rfl
      subst hc
      refine ⟨rfl, ?_⟩
      simpa using convertConditionLoop_fin g items {} acc hl
  · intro g items n
    unfold convertCondition
    rw [convertConditionLoop_appendActiveNode]
    cases convertConditionLoop g items {} with
    | error e => simp [Except.map]
    | ok acc => simp [Except.map]

/-- Witness for `convertCondition_discards_active_nodes` at a concrete
input: items `GIVEN EDGE e INACTIVE, NODE A ACTIVE, NODE B INACTIVE` on
`twoNodeGraph`. -/
theorem convertCondition_discards_witness :
    (((convertCondition twoNodeGraph
        [.edge "e" "INACTIVE", .node "A" "ACTIVE", .node "B" "INACTIVE"]).toOption.getD
          {}).ForcedActiveNodes =
      ((convertCondition twoNodeGraph
        [.edge "e" "INACTIVE", .node "A" "ACTIVE", .node "B" "INACTIVE"]).toOption.getD
          {}).ForcedInactiveNodes) ∧
      ((convertCondition twoNodeGraph
        [.edge "e" "INACTIVE", .node "A" "ACTIVE", .node "B" "INACTIVE"]).toOption.getD
          {}).ForcedInactiveNodes =
        inactiveNodeIDs [.edge "e" "INACTIVE", .node "A" "ACTIVE", .node "B" "INACTIVE"] ∧
      convertCondition twoNodeGraph
          ([.edge "e" "INACTIVE"] ++ [.node "A" "ACTIVE"]) =
        convertCondition twoNodeGraph [.edge "e" "INACTIVE"] := by
  obtain ⟨h₁, h₂⟩ :=
    convertCondition_discards_active_nodes.1 twoNodeGraph
      [.edge "e" "INACTIVE", .node "A" "ACTIVE", .node "B" "INACTIVE"]
      ((convertCondition twoNodeGraph
        [.edge "e" "INACTIVE", .node "A" "ACTIVE", .node "B" "INACTIVE"]).toOption.getD {})
      (by rfl)
  exact ⟨h₁, h₂,
    convertCondition_discards_active_nodes.2 twoNodeGraph [.edge "e" "INACTIVE"] "A"⟩

/-! ## Serialization (`internal/serialization/serialization.go`)

The JSON text layer is modelled at the value level: `WriteJSON` encodes
the graph into the `serializedGraph` record; the composition
`ReadJSON ∘ WriteJSON` is the decoder applied to that record after the
wire effect of printing and re-parsing each JSON number.  Go's
`encoding/json` decodes every JSON number into a `float64`
(`serializedValue.Value` is `any`), rounding the printed decimal to the
nearest IEEE-754 double; for `float64` inputs the encoder prints a
round-trip decimal so the composition is the identity, while `int64`
inputs are printed exactly and then rounded. -/

/-- `Error()` rendering of the tagged error structs (used when
`fromSerializedGraph` wraps an error with `fmt.Errorf(… %w)`). -/
def errMsg : GoError → String
  | .graphErr k m => "graph error (" ++ k ++ "): " ++ m
  | .inferErr k m => "inference error (" ++ k ++ "): " ++ m
  | .queryErr k m => "query error (" ++ k ++ "): " ++ m
  | .dslErr k m => "syntax error (" ++ k ++ "): " ++ m
  | .plainErr m => m

/-- Bit length of a natural number (`fuel`-structural so that the kernel
can evaluate it; 128 units of fuel cover any `int64`-ranged input). -/
def bitsLen : Nat → Nat → Nat
  | 0, _ => 0
  | fuel+1, n => if n = 0 then 0 else bitsLen fuel (n / 2) + 1

/-- Round a natural number to the nearest IEEE-754 double (53-bit
mantissa, round half to even) — what parsing a JSON integer literal into
a Go `float64` does.  Exact for `n ≤ 2^53`.  (Overflow to `+∞` starts at
`2^1024` and is unreachable from `int64` inputs.) -/
def f64roundNat (n : Nat) : Nat :=
  if n ≤ 2 ^ 53 then n
  else
    let e := bitsLen 128 n - 53
    let q := n / 2 ^ e
    let r := n % 2 ^ e
    let half := 2 ^ e / 2
    if r < half then q * 2 ^ e
    else if r > half then (q + 1) * 2 ^ e
    else (if q % 2 = 0 then q else q + 1) * 2 ^ e

/-- Signed version of `f64roundNat` (doubles round symmetrically). -/
def f64roundInt (n : Int) : Int :=
  if 0 ≤ n then (f64roundNat n.toNat : Int) else -(f64roundNat (-n).toNat : Int)

/-- The wire effect of printing a model float64 (an exact `ℚ`) as a JSON
number and re-parsing it into a `float64`: for an integral value this is
integer rounding to the nearest double; a non-integral model value stands
for an exact double, which Go prints with a round-trip decimal, so the map
is the identity there. -/
def f64round (q : ℚ) : ℚ :=
  if q.den = 1 then ((f64roundInt q.num : Int) : ℚ) else q

/-- A decoded JSON scalar as `encoding/json` produces into `any`:
numbers are `float64`. -/
inductive JVal : Type where
  | num (q : ℚ)
  | str (s : String)
  | bool (b : Bool)
deriving DecidableEq, Repr

/-- The Go `%T` name of a decoded `any` value (for decoder error
messages). -/
def jTypeName : JVal → String
  | .num _ => "float64"
  | .str _ => "string"
  | .bool _ => "bool"

/-- `serialization.serializedValue`. -/
structure SerializedValue : Type where
  kind : String
  value : JVal
deriving DecidableEq, Repr

/-- `serialization.serializedNode`. -/
structure SerializedNode : Type where
  ID : String
  Props : List (String × SerializedValue)
deriving DecidableEq, Repr

/-- `serialization.serializedEdge`. -/
structure SerializedEdge : Type where
  ID : String
  From : String
  To : String
  Probability : ℚ
  Props : List (String × SerializedValue)
deriving DecidableEq, Repr

/-- `serialization.serializedGraph`. -/
structure SerializedGraph : Type where
  Nodes : List SerializedNode
  Edges : List SerializedEdge
deriving DecidableEq, Repr

/-- `serialization.marshalValue`.  The `default: "unknown"` branch cannot
arise: the model's `ValueKind` has exactly the four declared kinds. -/
def marshalValue (v : Value) : SerializedValue :=
  match v.kind with
  | .intVal => ⟨"int", .num (v.i : ℚ)⟩
  | .floatVal => ⟨"float", .num v.f⟩
  | .stringVal => ⟨"string", .str v.s⟩
  | .boolVal => ⟨"bool", .bool v.b⟩

/-- Go `int64(f)` for an in-range float: truncation toward zero.  (For
out-of-range values the Go conversion is platform-dependent; the model
totalizes it with the exact truncation.) -/
def f64toInt64 (q : ℚ) : Int := q.num.tdiv q.den

/-- `serialization.unmarshalValue`. -/
def unmarshalValue (sv : SerializedValue) : Except GoError Value :=
  match sv.kind, sv.value with
  | "int", .num f => .ok { kind := .intVal, i := f64toInt64 f }
  | "int", v => .error (.plainErr ("expected number for int, got " ++ jTypeName v))
  | "float", .num f => .ok { kind := .floatVal, f := f }
  | "float", v => .error (.plainErr ("expected number for float, got " ++ jTypeName v))
  | "string", .str s => .ok { kind := .stringVal, s := s }
  | "string", v => .error (.plainErr ("expected string, got " ++ jTypeName v))
  | "bool", .bool b => .ok { kind := .boolVal, b := b }
  | "bool", v => .error (.plainErr ("expected bool, got " ++ jTypeName v))
  | k, _ => .error (.plainErr ("unknown serialized value kind " ++ k))

/-- `serialization.toSerializedGraph`: iterates `GetNodes`/`GetEdges`,
marshalling each property map. -/
def toSerializedGraph (g : Graph) : SerializedGraph :=
  { Nodes := (getNodes g).map (fun n =>
      ⟨n.ID, n.Props.map (fun kv => (kv.1, marshalValue kv.2))⟩)
    Edges := (getEdges g).map (fun e =>
      ⟨e.ID, e.From, e.To, e.Probability, e.Props.map (fun kv => (kv.1, marshalValue kv.2))⟩) }

/-- The wire rounding applied to one serialized value (see `f64round`). -/
def roundSV (sv : SerializedValue) : SerializedValue :=
  match sv.value with
  | .num q => ⟨sv.kind, .num (f64round q)⟩
  | _ => sv

/-- The wire effect of the JSON text round trip on a whole encoded graph:
every JSON number (property values and edge probabilities) is re-parsed
into a `float64`. -/
def jsonWire (sg : SerializedGraph) : SerializedGraph :=
  { Nodes := sg.Nodes.map (fun n =>
      { n with Props := n.Props.map (fun kv => (kv.1, roundSV kv.2)) })
    Edges := sg.Edges.map (fun e =>
      { e with Probability := f64round e.Probability
               Props := e.Props.map (fun kv => (kv.1, roundSV kv.2)) }) }

/-- The property-map decoding loop shared by the node and edge branches of
`fromSerializedGraph`; `ctx` is the error-context prefix (`"node <id>"` /
`"edge <id>"`). -/
def unmarshalProps (ctx : String) :
    List (String × SerializedValue) → List (String × Value) →
      Except GoError (List (String × Value))
  | [], acc => .ok acc
  | (k, sv) :: rest, acc =>
    match unmarshalValue sv with
    | .error e => .error (.plainErr (ctx ++ " prop " ++ k ++ ": " ++ errMsg e))
    | .ok v => unmarshalProps ctx rest (acc ++ [(k, v)])

/-- The per-node step of `fromSerializedGraph`: decode the property map,
then `AddNode`, wrapping failures with context. -/
def decodeNodeStep (g : Graph) (sn : SerializedNode) : Except GoError Graph :=
  match unmarshalProps ("node " ++ sn.ID) sn.Props [] with
  | .error e => .error e
  | .ok props =>
    match addNode g sn.ID props with
    | .error e => .error (.plainErr ("adding node " ++ sn.ID ++ ": " ++ errMsg e))
    | .ok g' => .ok g'

/-- The per-edge step of `fromSerializedGraph`. -/
def decodeEdgeStep (g : Graph) (se : SerializedEdge) : Except GoError Graph :=
  match unmarshalProps ("edge " ++ se.ID) se.Props [] with
  | .error e => .error e
  | .ok props =>
    match addEdge g se.ID se.From se.To se.Probability props with
    | .error e => .error (.plainErr ("adding edge " ++ se.ID ++ ": " ++ errMsg e))
    | .ok g' => .ok g'

/-- `serialization.fromSerializedGraph`: adds every node, then every edge,
through the graph API, wrapping failures with context. -/
def fromSerializedGraph (sg : SerializedGraph) : Except GoError Graph := do
  let g ← sg.Nodes.foldlM decodeNodeStep emptyGraph
  let g ← sg.Edges.foldlM decodeEdgeStep g
  return g

/-- `ReadJSON ∘ WriteJSON` at the value level (see the section header). -/
def readWriteJSON (g : Graph) : Except GoError Graph :=
  fromSerializedGraph (jsonWire (toSerializedGraph g))

/-- One node `N` holding the int property `big = 2^53 + 1`, a valid graph
value. -/
def bigIntGraph : Graph :=
  (addNode emptyGraph "N"
    [("big", { kind := .intVal, i := 2 ^ 53 + 1 })]).toOption.getD emptyGraph

/-- C4, counterexample part: decoding the JSON produced by encoding
`bigIntGraph` succeeds but yields `big = 2^53` — the decoder parses the
JSON integer into a `float64` and `2^53 + 1` is not representable, so the
decoded value differs from the original and the round-tripped graph is
distinguishable from `g`. -/
theorem roundTrip_large_int_counterexample :
    ((readWriteJSON bigIntGraph).toOption.bind
        (fun g' => lookupA g'.nodeMap "N")).map (fun n => lookupA n.Props "big") =
      some (some { kind := .intVal, i := 2 ^ 53 }) ∧
      lookupA
        (((addNode emptyGraph "N"
          [("big", { kind := .intVal, i := 2 ^ 53 + 1 })]).toOption.getD
            emptyGraph).nodeMap) "N" =
        some ⟨"N", [("big", { kind := .intVal, i := 2 ^ 53 + 1 })]⟩ ∧
      (2 ^ 53 : Int) ≠ 2 ^ 53 + 1 := by
  refine ⟨by decide, by decide, by decide⟩

/-- Canonical payload: only the field selected by `kind` may be non-zero.
Every `graph.Value` the system constructs (DSL conversion,
deserialization) has this shape. -/
def valueCanonical (v : Value) : Bool :=
  match v.kind with
  | .intVal => v.f == 0 && v.s == "" && v.b == false
  | .floatVal => v.i == 0 && v.s == "" && v.b == false
  | .stringVal => v.i == 0 && v.f == 0 && v.b == false
  | .boolVal => v.i == 0 && v.f == 0 && v.s == ""

/-- The value survives the JSON number wire unchanged: for ints,
`f64roundInt` fixes it (guaranteed for `|i| ≤ 2^53`); for floats, the
model value must stand for an exact double (`f64round` fixes it — always
true of a real Go `float64`). -/
def wireStable (v : Value) : Bool :=
  match v.kind with
  | .intVal => f64roundInt v.i == v.i
  | .floatVal => f64round v.f == v.f
  | _ => true

/-- A property map whose values round-trip losslessly. -/
def propsOK (ps : List (String × Value)) : Prop :=
  ∀ kv ∈ ps, valueCanonical kv.2 = true ∧ wireStable kv.2 = true

/-- Well-formedness of a graph for serialization: the graph invariants
I1–I5 (unique ids, endpoints present, mirror adjacency, probabilities in
range, edge map consistent with the adjacency) plus lossless property
values (`propsOK`). -/
def WFserial (g : Graph) : Prop :=
  (keysA g.nodeMap).Nodup ∧
  (∀ kv ∈ g.nodeMap, kv.2.ID = kv.1 ∧ propsOK kv.2.Props) ∧
  (keysA g.out).Nodup ∧
  (keysA g.edgeMap).Nodup ∧
  (∀ row ∈ g.out, (keysA row.2).Nodup) ∧
  (∀ row ∈ g.out, ∀ ent ∈ row.2,
    ent.2.From = row.1 ∧ ent.2.To = ent.1 ∧
    containsNode g row.1 = true ∧ containsNode g ent.1 = true ∧
    0 ≤ ent.2.Probability ∧ ent.2.Probability ≤ 1 ∧
    lookupA g.edgeMap ent.2.ID = some ent.2 ∧
    propsOK ent.2.Props) ∧
  (∀ em ∈ g.edgeMap, em.2.ID = em.1 ∧
    lookupA (outL g em.2.From) em.2.To = some em.2) ∧
  (∀ a b, lookupA (innL g a) b = lookupA (outL g b) a)

/-! ### Association-list facts used by the round-trip proof -/

theorem setA_fresh {α β : Type} [DecidableEq α] (m : List (α × β)) (k : α) (v : β)
    (h : lookupA m k = none) : setA m k v = m ++ [(k, v)] := by
  induction m with
  | nil => simp [setA]
  | cons kv rest ih =>
    obtain ⟨k₀, v₀⟩ := kv
    by_cases hk : k₀ = k
    · subst hk
      simp [lookupA] at h
    · simp only [lookupA, if_neg hk] at h
      simp [setA, hk, ih h]

theorem lookupA_append {α β : Type} [DecidableEq α] (m₁ m₂ : List (α × β)) (k : α) :
    lookupA (m₁ ++ m₂) k =
      match lookupA m₁ k with
      | some v => some v
      | none => lookupA m₂ k := by
  induction m₁ with
  | nil => simp [lookupA]
  | cons kv rest ih =>
    obtain ⟨k₀, v₀⟩ := kv
    by_cases hk : k₀ = k <;> simp [lookupA, hk, ih]

theorem lookupA_eq_some_mem {α β : Type} [DecidableEq α] {m : List (α × β)} {k : α}
    {v : β} (h : lookupA m k = some v) : (k, v) ∈ m := by
  induction m with
  | nil => simp [lookupA] at h
  | cons kv rest ih =>
    obtain ⟨k₀, v₀⟩ := kv
    by_cases hk : k₀ = k
    · subst hk
      simp only [lookupA, if_pos rfl] at h
      cases h
      exact List.mem_cons_self _ _
    · simp only [lookupA, if_neg hk] at h
      exact List.mem_cons_of_mem _ (ih h)

theorem lookupA_isSome_of_mem {α β : Type} [DecidableEq α] {m : List (α × β)}
    {k : α} {v : β} (h : (k, v) ∈ m) : (lookupA m k).isSome = true := by
  induction m with
  | nil => cases h
  | cons kv rest ih =>
    obtain ⟨k₀, v₀⟩ := kv
    by_cases hk : k₀ = k
    · simp [lookupA, hk]
    · cases List.mem_cons.mp h with
      | inl he => cases he; simp at hk
      | inr ht => simpa [lookupA, hk] using ih ht

theorem lookupA_of_mem_nodup {α β : Type} [DecidableEq α] {m : List (α × β)}
    {k : α} {v : β} (h : (k, v) ∈ m) (hnd : (keysA m).Nodup) :
    lookupA m k = some v := by
  induction m with
  | nil => cases h
  | cons kv rest ih =>
    obtain ⟨k₀, v₀⟩ := kv
    simp only [keysA, List.map_cons, List.nodup_cons] at hnd
    cases List.mem_cons.mp h with
    | inl he =>
      cases he
      simp [lookupA]
    | inr ht =>
      have hk : k₀ ≠ k := by
        intro hc
        subst hc
        exact hnd.1 (by simpa [keysA] using List.mem_map_of_mem Prod.fst ht)
      simp only [lookupA, if_neg hk]
      exact ih ht (by simpa [keysA] using hnd.2)

/-! ### Value-level round trip -/

theorem f64roundNat_small {n : Nat} (h : n ≤ 2 ^ 53) : f64roundNat n = n := by
  unfold f64roundNat
  rw [if_pos h]

/-- The claim's guarantee range: integers within `±2^53` are fixed by the
double rounding. -/
theorem f64roundInt_small {n : Int} (h : n.natAbs ≤ 2 ^ 53) : f64roundInt n = n := by
  unfold f64roundInt
  by_cases hn : 0 ≤ n
  · rw [if_pos hn, f64roundNat_small (by omega), Int.toNat_of_nonneg hn]
  · rw [if_neg hn, f64roundNat_small (by omega)]
    omega

theorem f64round_intCast (n : Int) : f64round (n : ℚ) = ((f64roundInt n : Int) : ℚ) := by
  unfold f64round
  rw [if_pos (Rat.intCast_den n), Rat.intCast_num]

/-- Probabilities in `[0,1]` pass the JSON number wire unchanged. -/
theorem f64round_unit {q : ℚ} (h0 : 0 ≤ q) (h1 : q ≤ 1) : f64round q = q := by
  unfold f64round
  by_cases hd : q.den = 1
  · rw [if_pos hd]
    have hq : q = (q.num : ℚ) := by
      conv_lhs => rw [← Rat.num_div_den q]
      rw [hd]
      simp
    have h0' : 0 ≤ q.num := Rat.num_nonneg.mpr h0
    have h1' : q.num ≤ 1 := by
      by_contra hc
      push_neg at hc
      have : (1 : ℚ) < (q.num : ℚ) := by exact_mod_cast hc
      rw [← hq] at this
      exact absurd h1 (not_le.mpr this)
    rw [f64roundInt_small (by omega), ← hq]
  · rw [if_neg hd]

theorem unmarshal_roundSV_marshal {v : Value} (hc : valueCanonical v = true)
    (hw : wireStable v = true) :
    unmarshalValue (roundSV (marshalValue v)) = .ok v := by
  obtain ⟨kind, i, f, s, b⟩ := v
  cases kind with
  | intVal =>
    simp only [valueCanonical, Bool.and_eq_true, beq_iff_eq] at hc
    simp only [wireStable, beq_iff_eq] at hw
    obtain ⟨⟨hf, hs⟩, hb⟩ := hc
    subst hf; subst hs; subst hb
    simp only [marshalValue, roundSV, unmarshalValue, f64round_intCast, hw]
    simp only [f64toInt64, Rat.intCast_num, Rat.intCast_den, Nat.cast_one, Int.tdiv_one]
  | floatVal =>
    simp only [valueCanonical, Bool.and_eq_true, beq_iff_eq] at hc
    simp only [wireStable, beq_iff_eq] at hw
    obtain ⟨⟨hi, hs⟩, hb⟩ := hc
    subst hi; subst hs; subst hb
    simp only [marshalValue, roundSV, unmarshalValue, hw]
  | stringVal =>
    simp only [valueCanonical, Bool.and_eq_true, beq_iff_eq] at hc
    obtain ⟨⟨hi, hf⟩, hb⟩ := hc
    subst hi; subst hf; subst hb
    simp [marshalValue, roundSV, unmarshalValue]
  | boolVal =>
    simp only [valueCanonical, Bool.and_eq_true, beq_iff_eq] at hc
    obtain ⟨⟨hi, hf⟩, hs⟩ := hc
    subst hi; subst hf; subst hs
    simp [marshalValue, roundSV, unmarshalValue]

/-- The wire image of an encoded property map. -/
def wireProps (ps : List (String × Value)) : List (String × SerializedValue) :=
  ps.map (fun kv => (kv.1, roundSV (marshalValue kv.2)))

theorem unmarshalProps_roundTrip (ctx : String) :
    ∀ (ps acc : List (String × Value)), propsOK ps →
      unmarshalProps ctx (wireProps ps) acc = .ok (acc ++ ps) := by
  intro ps
  induction ps with
  | nil => intro acc _; simp [wireProps, unmarshalProps]
  | cons kv rest ih =>
    intro acc hok
    obtain ⟨k, v⟩ := kv
    have hv := hok (k, v) (List.mem_cons_self _ _)
    have hrest : propsOK rest := fun x hx => hok x (List.mem_cons_of_mem _ hx)
    simp only [wireProps, List.map_cons, unmarshalProps,
      unmarshal_roundSV_marshal hv.1 hv.2]
    simpa using ih (acc ++ [(k, v)]) hrest

/-! ### Decoding characterization: node phase -/

theorem decodeNodeStep_ok {g₀ : Graph} {n : Node}
    (hprops : propsOK n.Props)
    (hn : lookupA g₀.nodeMap n.ID = none) :
    decodeNodeStep g₀ ⟨n.ID, wireProps n.Props⟩ =
      .ok { g₀ with
        nodeMap := setA g₀.nodeMap n.ID n
        out := setA g₀.out n.ID []
        inn := setA g₀.inn n.ID [] } := by
  unfold decodeNodeStep
  rw [unmarshalProps_roundTrip _ _ [] hprops]
  have hcn : containsNode g₀ n.ID = false := by
    simp [containsNode, hn]
  unfold addNode
  rw [hcn]
  simp only [Bool.false_eq_true, if_false, List.nil_append]

theorem decodeNodes_fold :
    ∀ (ns : List Node) (g₀ : Graph),
      (∀ n ∈ ns, propsOK n.Props) →
      (ns.map Node.ID).Nodup →
      (∀ n ∈ ns, lookupA g₀.nodeMap n.ID = none ∧ lookupA g₀.out n.ID = none ∧
        lookupA g₀.inn n.ID = none) →
      (ns.map (fun n => (⟨n.ID, wireProps n.Props⟩ : SerializedNode))).foldlM
          decodeNodeStep g₀ =
        .ok { nodeMap := g₀.nodeMap ++ ns.map (fun n => (n.ID, n))
              edgeMap := g₀.edgeMap
              out := g₀.out ++ ns.map (fun n => (n.ID, ([] : List (NodeID × Edge))))
              inn := g₀.inn ++ ns.map (fun n => (n.ID, ([] : List (NodeID × Edge)))) } := by
  intro ns
  induction ns with
  | nil =>
    intro g₀ _ _ _
    simp only [List.map_nil, List.foldlM_nil, List.append_nil]
    rfl
  | cons n ns ih =>
    intro g₀ hprops hnd hfresh
    obtain ⟨hn, hout, hinn⟩ := hfresh n (List.mem_cons_self _ _)
    simp only [List.map_cons, List.foldlM_cons,
      decodeNodeStep_ok (hprops n (List.mem_cons_self _ _)) hn]
    simp only [List.map_cons, List.nodup_cons] at hnd
    rw [setA_fresh _ _ _ hn, setA_fresh _ _ _ hout, setA_fresh _ _ _ hinn]
    have hbind :
        ∀ (x : Graph) (f : Graph → Except GoError Graph), (Except.ok x >>= f) = f x := by
      intro x f; rfl
    rw [hbind]
    rw [ih _ (fun m hm => hprops m (List.mem_cons_of_mem _ hm)) hnd.2 ?_]
    · simp [List.append_assoc]
    · intro m hm
      have hne : n.ID ≠ m.ID := fun hc => hnd.1 (hc ▸ List.mem_map_of_mem Node.ID hm)
      obtain ⟨h₁, h₂, h₃⟩ := hfresh m (List.mem_cons_of_mem _ hm)
      refine ⟨?_, ?_, ?_⟩ <;>
        simp [lookupA_append, h₁, h₂, h₃, lookupA, hne]

/-! ### Decoding characterization: edge phase -/

/-- The out-adjacency entries contributed by the edges with source `n`,
in list order. -/
def edgeEntriesFor (es : List Edge) (n : NodeID) : List (NodeID × Edge) :=
  (es.filter (fun e => e.From == n)).map (fun e => (e.To, e))

/-- The in-adjacency entries contributed by the edges with target `a`,
in list order. -/
def edgeEntriesRevFor (es : List Edge) (a : NodeID) : List (NodeID × Edge) :=
  (es.filter (fun e => e.To == a)).map (fun e => (e.From, e))

theorem decodeEdgeStep_ok {g₂ : Graph} {e : Edge}
    (hprops : propsOK e.Props)
    (hid : lookupA g₂.edgeMap e.ID = none)
    (hfrom : containsNode g₂ e.From = true)
    (hto : containsNode g₂ e.To = true)
    (hp0 : 0 ≤ e.Probability) (hp1 : e.Probability ≤ 1) :
    decodeEdgeStep g₂ ⟨e.ID, e.From, e.To, e.Probability, wireProps e.Props⟩ =
      .ok { g₂ with
        out := adjustA g₂.out e.From (fun inner => setA inner e.To e)
        inn := adjustA g₂.inn e.To (fun inner => setA inner e.From e)
        edgeMap := setA g₂.edgeMap e.ID e } := by
  unfold decodeEdgeStep
  rw [unmarshalProps_roundTrip _ _ [] hprops]
  have hce : containsEdgeByID g₂ e.ID = false := by simp [containsEdgeByID, hid]
  unfold addEdge
  rw [hce]
  have hpr : ¬ (e.Probability < 0 ∨ e.Probability > 1) := by
    push_neg
    exact ⟨hp0, hp1⟩
  simp only [Bool.false_eq_true, if_false, hfrom, hto, Bool.not_true,
    if_neg hpr, List.nil_append]
  rfl

theorem decodeEdges_fold :
    ∀ (es : List Edge) (g₂ : Graph),
      (∀ e ∈ es, propsOK e.Props) →
      (∀ e ∈ es, containsNode g₂ e.From = true ∧ containsNode g₂ e.To = true) →
      (∀ e ∈ es, 0 ≤ e.Probability ∧ e.Probability ≤ 1) →
      (∀ e ∈ es, lookupA g₂.edgeMap e.ID = none) →
      (∀ e ∈ es, lookupA (outL g₂ e.From) e.To = none) →
      (∀ e ∈ es, lookupA (innL g₂ e.To) e.From = none) →
      (∀ e ∈ es, (lookupA g₂.out e.From).isSome = true ∧
        (lookupA g₂.inn e.To).isSome = true) →
      List.Pairwise (fun a b => a.ID ≠ b.ID ∧ (a.From ≠ b.From ∨ a.To ≠ b.To)) es →
      ∃ g₃,
        (es.map (fun e =>
            (⟨e.ID, e.From, e.To, e.Probability, wireProps e.Props⟩ :
              SerializedEdge))).foldlM decodeEdgeStep g₂ = .ok g₃ ∧
        g₃.nodeMap = g₂.nodeMap ∧
        (∀ id, lookupA g₃.edgeMap id =
          (match lookupA g₂.edgeMap id with
           | some v => some v
           | none => lookupA (es.map (fun e => (e.ID, e))) id)) ∧
        (∀ n, lookupA g₃.out n =
          (lookupA g₂.out n).map (fun inner => inner ++ edgeEntriesFor es n)) ∧
        (∀ a, lookupA g₃.inn a =
          (lookupA g₂.inn a).map (fun inner => inner ++ edgeEntriesRevFor es a)) := by
  intro es
  induction es with
  | nil =>
    intro g₂ _ _ _ _ _ _ _ _
    refine ⟨g₂, rfl, rfl, ?_, ?_, ?_⟩
    · intro id
      cases lookupA g₂.edgeMap id <;> simp [lookupA]
    · intro n
      cases lookupA g₂.out n <;> simp [edgeEntriesFor]
    · intro a
      cases lookupA g₂.inn a <;> simp [edgeEntriesRevFor]
  | cons e es ih =>
    intro g₂ hprops hnodes hbounds hfreshId hfreshPair hfreshPairInn hrows hpw
    have hpwHead := List.pairwise_cons.mp hpw
    obtain ⟨hpHead, hpTail⟩ := hpwHead
    have hme := List.mem_cons_self e es
    set g₂' : Graph :=
      { g₂ with
        out := adjustA g₂.out e.From (fun inner => setA inner e.To e)
        inn := adjustA g₂.inn e.To (fun inner => setA inner e.From e)
        edgeMap := setA g₂.edgeMap e.ID e } with hg₂'
    have hfreshId' : ∀ f ∈ es, lookupA g₂'.edgeMap f.ID = none := by
      intro f hf
      have hne := (hpHead f hf).1
      simp [hg₂', lookupA_setA, hne, hfreshId f (List.mem_cons_of_mem _ hf)]
    have hfreshPair' : ∀ f ∈ es, lookupA (outL g₂' f.From) f.To = none := by
      intro f hf
      have hdiff := (hpHead f hf).2
      have hold := hfreshPair f (List.mem_cons_of_mem _ hf)
      simp only [outL, hg₂', lookupA_adjustA]
      by_cases hq : e.From = f.From
      · rw [if_pos hq]
        cases hl : lookupA g₂.out f.From with
        | none =>
          simp [lookupA]
        | some inner =>
          rw [outL, hl, Option.getD_some] at hold
          simp only [Option.map_some', Option.getD_some]
          rw [lookupA_setA]
          have hto : ¬ e.To = f.To := by
            cases hdiff with
            | inl h => exact absurd hq h
            | inr h => exact fun hc => h hc
          rw [if_neg hto]
          exact hold
      · rw [if_neg hq]
        exact hold
    have hfreshPairInn' : ∀ f ∈ es, lookupA (innL g₂' f.To) f.From = none := by
      intro f hf
      have hdiff := (hpHead f hf).2
      have hold := hfreshPairInn f (List.mem_cons_of_mem _ hf)
      simp only [innL, hg₂', lookupA_adjustA]
      by_cases hq : e.To = f.To
      · rw [if_pos hq]
        cases hl : lookupA g₂.inn f.To with
        | none =>
          simp [lookupA]
        | some inner =>
          rw [innL, hl, Option.getD_some] at hold
          simp only [Option.map_some', Option.getD_some]
          rw [lookupA_setA]
          have hfr2 : ¬ e.From = f.From := by
            cases hdiff with
            | inl h => exact fun hc => h hc
            | inr h => exact absurd hq h
          rw [if_neg hfr2]
          exact hold
      · rw [if_neg hq]
        exact hold
    have hrows' : ∀ f ∈ es, (lookupA g₂'.out f.From).isSome = true ∧
        (lookupA g₂'.inn f.To).isSome = true := by
      intro f hf
      obtain ⟨h₁, h₂⟩ := hrows f (List.mem_cons_of_mem _ hf)
      constructor
      · simp only [hg₂', lookupA_adjustA]
        by_cases hq : e.From = f.From
        · rw [if_pos hq]
          simpa using h₁
        · rwa [if_neg hq]
      · simp only [hg₂', lookupA_adjustA]
        by_cases hq : e.To = f.To
        · rw [if_pos hq]
          simpa using h₂
        · rwa [if_neg hq]
    obtain ⟨g₃, hfold, hnm, hem, hout, hinn⟩ := ih g₂'
      (fun f hf => hprops f (List.mem_cons_of_mem _ hf))
      (fun f hf => hnodes f (List.mem_cons_of_mem _ hf))
      (fun f hf => hbounds f (List.mem_cons_of_mem _ hf))
      hfreshId' hfreshPair' hfreshPairInn' hrows' hpTail
    refine ⟨g₃, ?_, ?_, ?_, ?_, ?_⟩
    · simp only [List.map_cons, List.foldlM_cons,
        decodeEdgeStep_ok (hprops e hme) (hfreshId e hme)
          (hnodes e hme).1 (hnodes e hme).2
          (hbounds e hme).1 (hbounds e hme).2]
      exact hfold
    · exact hnm
    · intro id
      rw [hem id]
      have : lookupA g₂'.edgeMap id = if e.ID = id then some e else lookupA g₂.edgeMap id := by
        simp [hg₂', lookupA_setA]
      rw [this]
      by_cases hidq : e.ID = id
      · subst hidq
        rw [if_pos rfl, hfreshId e hme]
        simp [lookupA]
      · rw [if_neg hidq]
        cases hl : lookupA g₂.edgeMap id with
        | some v => simp
        | none => simp [lookupA, hidq]
    · intro n
      rw [hout n]
      have hadj : lookupA g₂'.out n =
          if e.From = n then
            (lookupA g₂.out n).map (fun inner => setA inner e.To e)
          else lookupA g₂.out n := by
        simp [hg₂', lookupA_adjustA]
      rw [hadj]
      by_cases hn : e.From = n
      · subst hn
        rw [if_pos rfl]
        cases hl : lookupA g₂.out e.From with
        | none => simp
        | some inner =>
          have hfr : lookupA inner e.To = none := by
            have := hfreshPair e hme
            rwa [outL, hl, Option.getD_some] at this
          simp only [Option.map_some']
          rw [setA_fresh _ _ _ hfr]
          simp [edgeEntriesFor, List.append_assoc]
      · rw [if_neg hn]
        have : edgeEntriesFor (e :: es) n = edgeEntriesFor es n := by
          simp [edgeEntriesFor, List.filter_cons, hn]
        rw [this]
    · intro a
      rw [hinn a]
      have hadj : lookupA g₂'.inn a =
          if e.To = a then
            (lookupA g₂.inn a).map (fun inner => setA inner e.From e)
          else lookupA g₂.inn a := by
        simp [hg₂', lookupA_adjustA]
      rw [hadj]
      by_cases ha : e.To = a
      · subst ha
        rw [if_pos rfl]
        cases hl : lookupA g₂.inn e.To with
        | none => simp
        | some inner =>
          have hfr : lookupA inner e.From = none := by
            have := hfreshPairInn e hme
            rwa [innL, hl, Option.getD_some] at this
          simp only [Option.map_some']
          rw [setA_fresh _ _ _ hfr]
          simp [edgeEntriesRevFor, List.append_assoc]
      · rw [if_neg ha]
        have : edgeEntriesRevFor (e :: es) a = edgeEntriesRevFor es a := by
          simp [edgeEntriesRevFor, List.filter_cons, ha]
        rw [this]
/-! ### Facts derived from `WFserial` -/

theorem getNodes_id_eq_keys {g : Graph} (hwf : WFserial g) :
    (getNodes g).map Node.ID = keysA g.nodeMap := by
  unfold getNodes valuesA keysA
  rw [List.map_map]
  exact List.map_congr_left (fun kv hkv => (hwf.2.1 kv hkv).1)

theorem nodeMap_rebuild {g : Graph} (hwf : WFserial g) :
    (getNodes g).map (fun n => (n.ID, n)) = g.nodeMap := by
  unfold getNodes valuesA
  rw [List.map_map]
  have : ∀ kv ∈ g.nodeMap, ((fun n => (n.ID, n)) ∘ Prod.snd) kv = id kv := by
    intro kv hkv
    have := (hwf.2.1 kv hkv).1
    simp only [Function.comp_apply, id_eq, this]
  rw [List.map_congr_left this, List.map_id]

theorem outL_entry_spec {g : Graph} (hwf : WFserial g) {n : NodeID}
    {ent : NodeID × Edge} (hent : ent ∈ outL g n) :
    ent.2.From = n ∧ ent.2.To = ent.1 ∧
    containsNode g n = true ∧ containsNode g ent.1 = true ∧
    0 ≤ ent.2.Probability ∧ ent.2.Probability ≤ 1 ∧
    lookupA g.edgeMap ent.2.ID = some ent.2 ∧ propsOK ent.2.Props := by
  unfold outL at hent
  cases hl : lookupA g.out n with
  | none => rw [hl] at hent; cases hent
  | some inner =>
    rw [hl, Option.getD_some] at hent
    have hrow : (n, inner) ∈ g.out := lookupA_eq_some_mem hl
    exact hwf.2.2.2.2.2.1 (n, inner) hrow ent hent

theorem mem_getEdges_spec {g : Graph} (hwf : WFserial g) {e : Edge}
    (he : e ∈ getEdges g) :
    lookupA (outL g e.From) e.To = some e ∧
    containsNode g e.From = true ∧ containsNode g e.To = true ∧
    0 ≤ e.Probability ∧ e.Probability ≤ 1 ∧
    lookupA g.edgeMap e.ID = some e ∧ propsOK e.Props := by
  unfold getEdges at he
  obtain ⟨n, hn, hev⟩ := List.mem_flatMap.mp he
  obtain ⟨ent, hent, hent2⟩ := List.mem_map.mp hev
  obtain ⟨hFrom, hTo, hcn, hct, hp0, hp1, hem, hprops⟩ :=
    outL_entry_spec hwf hent
  subst hent2
  refine ⟨?_, hFrom ▸ hcn, hTo ▸ hct, hp0, hp1, hem, hprops⟩
  rw [hFrom, hTo]
  have hnd : (keysA (outL g n.ID)).Nodup := by
    unfold outL
    cases hl : lookupA g.out n.ID with
    | none => simp [keysA]
    | some inner =>
      simp only [Option.getD_some]
      exact hwf.2.2.2.2.1 (n.ID, inner) (lookupA_eq_some_mem hl)
  exact lookupA_of_mem_nodup hent hnd

theorem getEdges_mem_of_lookup {g : Graph} (hwf : WFserial g) {e : Edge}
    (h : lookupA (outL g e.From) e.To = some e) : e ∈ getEdges g := by
  have hent : (e.To, e) ∈ outL g e.From := lookupA_eq_some_mem h
  have hcn : containsNode g e.From = true := (outL_entry_spec hwf hent).2.2.1
  unfold containsNode at hcn
  cases hn : lookupA g.nodeMap e.From with
  | none => rw [hn] at hcn; simp at hcn
  | some node =>
    have hmemN : (e.From, node) ∈ g.nodeMap := lookupA_eq_some_mem hn
    have hid : node.ID = e.From := (hwf.2.1 (e.From, node) hmemN).1
    unfold getEdges
    refine List.mem_flatMap.mpr ⟨node, ?_, ?_⟩
    · exact List.mem_map_of_mem Prod.snd hmemN
    · rw [hid]
      exact List.mem_map_of_mem Prod.snd hent

theorem valuesA_outL_from {g : Graph} (hwf : WFserial g) {n : NodeID} {e : Edge}
    (he : e ∈ valuesA (outL g n)) : e.From = n := by
  obtain ⟨ent, hent, h2⟩ := List.mem_map.mp he
  have := (outL_entry_spec hwf hent).1
  rw [h2] at this
  exact this

theorem getEdges_nodup {g : Graph} (hwf : WFserial g) : (getEdges g).Nodup := by
  unfold getEdges
  rw [List.nodup_flatMap]
  constructor
  · intro n hn
    unfold outL valuesA
    cases hl : lookupA g.out n.ID with
    | none => simp
    | some inner =>
      simp only [Option.getD_some]
      have hkeys : (keysA inner).Nodup :=
        hwf.2.2.2.2.1 (n.ID, inner) (lookupA_eq_some_mem hl)
      have hinner : inner.Nodup := List.Nodup.of_map Prod.fst hkeys
      refine List.Nodup.map_on ?_ hinner
      intro x hx y hy hxy
      have hxTo := (hwf.2.2.2.2.2.1 (n.ID, inner) (lookupA_eq_some_mem hl) x hx).2.1
      have hyTo := (hwf.2.2.2.2.2.1 (n.ID, inner) (lookupA_eq_some_mem hl) y hy).2.1
      have : x.1 = y.1 := by rw [← hxTo, ← hyTo, hxy]
      exact Prod.ext this hxy
  · have hidnd : ((getNodes g).map Node.ID).Nodup := by
      rw [getNodes_id_eq_keys hwf]; exact hwf.1
    have hpw : List.Pairwise (fun a b => a.ID ≠ b.ID) (getNodes g) := by
      have h' : List.Pairwise (fun a b => a ≠ b) ((getNodes g).map Node.ID) := hidnd
      exact List.pairwise_map.mp h' 
    refine hpw.imp ?_
    intro a b hab
    intro x hxa hxb
    have h1 := valuesA_outL_from hwf hxa
    have h2 := valuesA_outL_from hwf hxb
    exact hab (h1 ▸ h2 ▸ rfl)

theorem getEdges_pairwise {g : Graph} (hwf : WFserial g) :
    List.Pairwise
      (fun a b => a.ID ≠ b.ID ∧ (a.From ≠ b.From ∨ a.To ≠ b.To)) (getEdges g) := by
  have hnd : (getEdges g).Nodup := getEdges_nodup hwf
  refine List.Pairwise.imp_of_mem ?_ hnd
  intro a b ha hb hne
  have hsa := mem_getEdges_spec hwf ha
  have hsb := mem_getEdges_spec hwf hb
  constructor
  · intro hc
    apply hne
    have := hsa.2.2.2.2.2.1
    rw [hc, hsb.2.2.2.2.2.1] at this
    exact (Option.some.inj this).symm
  · by_contra hcc
    push_neg at hcc
    obtain ⟨hf, ht⟩ := hcc
    apply hne
    have := hsa.1
    rw [hf, ht, hsb.1] at this
    exact (Option.some.inj this).symm

/-! ### Rebuilding the graph from its wire image -/

theorem mem_keysA_iff_isSome {α β : Type} [DecidableEq α] (m : List (α × β)) (k : α) :
    k ∈ keysA m ↔ (lookupA m k).isSome = true := by
  constructor
  · intro h
    unfold keysA at h
    obtain ⟨kv, hkv, hk⟩ := List.mem_map.mp h
    subst hk
    exact lookupA_isSome_of_mem hkv
  · intro h
    obtain ⟨v, hv⟩ := Option.isSome_iff_exists.mp h
    unfold keysA
    exact List.mem_map.mpr ⟨(k, v), lookupA_eq_some_mem hv, rfl⟩

theorem lookupA_map_const_getD {β : Type} (ns : List Node) (c : β) (k : NodeID) :
    (lookupA (ns.map (fun n => (n.ID, c))) k).getD c = c := by
  induction ns with
  | nil => rfl
  | cons n ns ih =>
    by_cases h : n.ID = k <;> simp [lookupA, h, ih]

theorem lookupA_map_const_isSome {β : Type} (ns : List Node) (c : β) (k : NodeID)
    (h : k ∈ ns.map Node.ID) :
    lookupA (ns.map (fun n => (n.ID, c))) k = some c := by
  induction ns with
  | nil => simp at h
  | cons n ns ih =>
    by_cases hk : n.ID = k
    · simp [lookupA, hk]
    · simp only [List.map_cons, List.mem_cons] at h
      have hmem : k ∈ ns.map Node.ID := by
        cases h with
        | inl h' => exact absurd h'.symm hk
        | inr h' => exact h'
      simp [lookupA, hk, ih hmem]

theorem lookupA_map_const_none {β : Type} (ns : List Node) (c : β) (k : NodeID)
    (h : k ∉ ns.map Node.ID) :
    lookupA (ns.map (fun n => (n.ID, c))) k = none := by
  induction ns with
  | nil => rfl
  | cons n ns ih =>
    simp only [List.map_cons, List.mem_cons, not_or] at h
    have hk : ¬ n.ID = k := fun hc => h.1 hc.symm
    simp [lookupA, hk, ih h.2]

theorem outL_nil_of_not_node {g : Graph} (hwf : WFserial g) {n : NodeID}
    (h : containsNode g n = false) : outL g n = [] := by
  cases houtl : outL g n with
  | nil => rfl
  | cons ent rest =>
    have hent : ent ∈ outL g n := by
      rw [houtl]
      exact List.mem_cons_self _ _
    have hc := (outL_entry_spec hwf hent).2.2.1
    rw [h] at hc
    exact Bool.noConfusion hc

theorem getNodes_pairwise_id {g : Graph} (hwf : WFserial g) :
    List.Pairwise (fun a b => a.ID ≠ b.ID) (getNodes g) := by
  have hidnd : ((getNodes g).map Node.ID).Nodup := by
    rw [getNodes_id_eq_keys hwf]
    exact hwf.1
  have h' : List.Pairwise (fun a b => a ≠ b) ((getNodes g).map Node.ID) := hidnd
  exact List.pairwise_map.mp h'

theorem filter_flatMap_blocks {g : Graph} (hwf : WFserial g) (n : NodeID) :
    ∀ ns : List Node,
      List.Pairwise (fun a b => a.ID ≠ b.ID) ns →
      (ns.flatMap (fun m => valuesA (outL g m.ID))).filter (fun e => e.From == n) =
        if n ∈ ns.map Node.ID then valuesA (outL g n) else [] := by
  intro ns
  induction ns with
  | nil =>
    intro _
    simp
  | cons m ns ih =>
    intro hpw
    obtain ⟨hhead, htail⟩ := List.pairwise_cons.mp hpw
    rw [List.flatMap_cons, List.filter_append, ih htail]
    by_cases hm : m.ID = n
    · have hblock : (valuesA (outL g m.ID)).filter (fun e => e.From == n) =
          valuesA (outL g m.ID) := by
        rw [List.filter_eq_self]
        intro e he
        have hf := valuesA_outL_from hwf he
        simp [hf, hm]
      have hnot : n ∉ ns.map Node.ID := by
        intro hc
        obtain ⟨b, hb, hbid⟩ := List.mem_map.mp hc
        exact hhead b hb (hm.trans hbid.symm)
      rw [hblock, if_neg hnot, List.append_nil, hm,
        if_pos (show n ∈ (m :: ns).map Node.ID from by
          simp only [List.map_cons, List.mem_cons]
          exact Or.inl hm.symm)]
    · have hblock : (valuesA (outL g m.ID)).filter (fun e => e.From == n) = [] := by
        rw [List.filter_eq_nil_iff]
        intro e he
        have hf := valuesA_outL_from hwf he
        simp [hf, hm]
      rw [hblock, List.nil_append]
      have hcond : n ∈ (m :: ns).map Node.ID ↔ n ∈ ns.map Node.ID := by
        simp only [List.map_cons, List.mem_cons]
        constructor
        · intro h
          cases h with
          | inl h' => exact absurd h'.symm hm
          | inr h' => exact h'
        · exact Or.inr
      by_cases hmem : n ∈ ns.map Node.ID
      · rw [if_pos hmem, if_pos (hcond.mpr hmem)]
      · rw [if_neg hmem, if_neg (fun hc => hmem (hcond.mp hc))]

theorem filter_getEdges {g : Graph} (hwf : WFserial g) (n : NodeID) :
    (getEdges g).filter (fun e => e.From == n) = valuesA (outL g n) := by
  unfold getEdges
  rw [filter_flatMap_blocks hwf n (getNodes g) (getNodes_pairwise_id hwf)]
  by_cases h : n ∈ (getNodes g).map Node.ID
  · rw [if_pos h]
  · rw [if_neg h]
    have hcn : containsNode g n = false := by
      rw [getNodes_id_eq_keys hwf] at h
      unfold containsNode
      cases hl : lookupA g.nodeMap n with
      | none => rfl
      | some v =>
        exact absurd ((mem_keysA_iff_isSome _ _).mpr (by simp [hl])) h
    rw [outL_nil_of_not_node hwf hcn]
    rfl

theorem outL_rebuild {g : Graph} (hwf : WFserial g) (n : NodeID) :
    edgeEntriesFor (getEdges g) n = outL g n := by
  unfold edgeEntriesFor
  rw [filter_getEdges hwf n]
  unfold valuesA
  rw [List.map_map]
  have hcongr : ∀ ent ∈ outL g n, ((fun e => (e.To, e)) ∘ Prod.snd) ent = id ent := by
    intro ent hent
    have hTo := (outL_entry_spec hwf hent).2.1
    simp only [Function.comp_apply, id_eq, hTo]
  rw [List.map_congr_left hcongr, List.map_id]

theorem innL_rebuild {g : Graph} (hwf : WFserial g) (a b : NodeID) :
    lookupA (edgeEntriesRevFor (getEdges g) a) b = lookupA (outL g b) a := by
  cases hl : lookupA (edgeEntriesRevFor (getEdges g) a) b with
  | some e =>
    have hm := lookupA_eq_some_mem hl
    unfold edgeEntriesRevFor at hm
    obtain ⟨f, hf, hfe⟩ := List.mem_map.mp hm
    obtain ⟨hfes, hfto⟩ := List.mem_filter.mp hf
    have h1 : f.From = b := congrArg Prod.fst hfe
    have h2 : f = e := congrArg Prod.snd hfe
    subst h2
    have hTo : f.To = a := by simpa using hfto
    have hspec := (mem_getEdges_spec hwf hfes).1
    rw [h1, hTo] at hspec
    exact hspec.symm
  | none =>
    cases ho : lookupA (outL g b) a with
    | none => rfl
    | some e =>
      exfalso
      have hent : (a, e) ∈ outL g b := lookupA_eq_some_mem ho
      have hFrom : e.From = b := (outL_entry_spec hwf hent).1
      have hTo : e.To = a := (outL_entry_spec hwf hent).2.1
      have hedge : e ∈ getEdges g := by
        apply getEdges_mem_of_lookup hwf
        rw [hFrom, hTo]
        exact ho
      have hfil : e ∈ (getEdges g).filter (fun f => f.To == a) :=
        List.mem_filter.mpr ⟨hedge, by simp [hTo]⟩
      have hmm : ((b, e) : NodeID × Edge) ∈ edgeEntriesRevFor (getEdges g) a := by
        unfold edgeEntriesRevFor
        refine List.mem_map.mpr ⟨e, hfil, ?_⟩
        rw [hFrom]
      have hkey := lookupA_isSome_of_mem hmm
      rw [hl] at hkey
      simp at hkey

theorem edgeMap_rebuild {g : Graph} (hwf : WFserial g) (i : EdgeID) :
    lookupA ((getEdges g).map (fun e => (e.ID, e))) i = lookupA g.edgeMap i := by
  cases hl : lookupA ((getEdges g).map (fun e => (e.ID, e))) i with
  | some e =>
    have hm := lookupA_eq_some_mem hl
    obtain ⟨f, hf, hfe⟩ := List.mem_map.mp hm
    have h1 : f.ID = i := congrArg Prod.fst hfe
    have h2 : f = e := congrArg Prod.snd hfe
    subst h2
    have hspec := (mem_getEdges_spec hwf hf).2.2.2.2.2.1
    rw [h1] at hspec
    exact hspec.symm
  | none =>
    cases he : lookupA g.edgeMap i with
    | none => rfl
    | some e =>
      exfalso
      have hmem : (i, e) ∈ g.edgeMap := lookupA_eq_some_mem he
      have hid : e.ID = i := (hwf.2.2.2.2.2.2.1 (i, e) hmem).1
      have hol : lookupA (outL g e.From) e.To = some e :=
        (hwf.2.2.2.2.2.2.1 (i, e) hmem).2
      have hedge : e ∈ getEdges g := getEdges_mem_of_lookup hwf hol
      have hmm : ((i, e) : EdgeID × Edge) ∈ (getEdges g).map (fun f => (f.ID, f)) := by
        refine List.mem_map.mpr ⟨e, hedge, ?_⟩
        rw [hid]
      have hkey := lookupA_isSome_of_mem hmm
      rw [hl] at hkey
      simp at hkey

/-- C4 (amended): for every graph satisfying the serialization
well-formedness invariants `WFserial` (unique ids, endpoints present,
mirror adjacency, probabilities in `[0,1]`, edge map consistent with the
adjacency) whose property values survive the `float64` wire (`propsOK` —
in particular every `int` property within `±2^53`), decoding the JSON
produced by encoding the graph succeeds and yields a graph
indistinguishable from the original: the same node map, the same edge map
(pointwise), and the same out- and in-adjacency (pointwise).  Without the
`±2^53` restriction the round trip is lossy
(`roundTrip_large_int_counterexample`). -/
theorem roundTrip_preserves_graph {g : Graph} (hwf : WFserial g) :
    ∃ g', readWriteJSON g = .ok g' ∧
      g'.nodeMap = g.nodeMap ∧
      (∀ i, lookupA g'.edgeMap i = lookupA g.edgeMap i) ∧
      (∀ x, outL g' x = outL g x) ∧
      (∀ a b, lookupA (innL g' a) b = lookupA (innL g a) b) := by
  have hNodes : (jsonWire (toSerializedGraph g)).Nodes =
      (getNodes g).map (fun n => (⟨n.ID, wireProps n.Props⟩ : SerializedNode)) := by
    unfold jsonWire toSerializedGraph
    simp only [List.map_map]
    refine List.map_congr_left ?_
    intro n _
    simp only [Function.comp_apply, List.map_map]
    rfl
  have hEdges : (jsonWire (toSerializedGraph g)).Edges =
      (getEdges g).map (fun e =>
        (⟨e.ID, e.From, e.To, e.Probability, wireProps e.Props⟩ : SerializedEdge)) := by
    unfold jsonWire toSerializedGraph
    simp only [List.map_map]
    refine List.map_congr_left ?_
    intro e he
    obtain ⟨_, _, _, hp0, hp1, _, _⟩ := mem_getEdges_spec hwf he
    simp only [Function.comp_apply, List.map_map, f64round_unit hp0 hp1]
    rfl
  have hnprops : ∀ n ∈ getNodes g, propsOK n.Props := by
    intro n hn
    unfold getNodes valuesA at hn
    obtain ⟨kv, hkv, hk⟩ := List.mem_map.mp hn
    rw [← hk]
    exact (hwf.2.1 kv hkv).2
  have hndids : ((getNodes g).map Node.ID).Nodup := by
    rw [getNodes_id_eq_keys hwf]
    exact hwf.1
  have hfold₁ := decodeNodes_fold (getNodes g) emptyGraph hnprops hndids
    (fun n _ => ⟨rfl, rfl, rfl⟩)
  have hmain : ∀ R : Graph,
      R.nodeMap = (getNodes g).map (fun n => (n.ID, n)) →
      R.edgeMap = ([] : List (EdgeID × Edge)) →
      R.out = (getNodes g).map (fun n => (n.ID, ([] : List (NodeID × Edge)))) →
      R.inn = (getNodes g).map (fun n => (n.ID, ([] : List (NodeID × Edge)))) →
      ∃ g₃,
        ((getEdges g).map (fun e =>
          (⟨e.ID, e.From, e.To, e.Probability, wireProps e.Props⟩ :
            SerializedEdge))).foldlM decodeEdgeStep R = .ok g₃ ∧
        g₃.nodeMap = g.nodeMap ∧
        (∀ i, lookupA g₃.edgeMap i = lookupA g.edgeMap i) ∧
        (∀ x, outL g₃ x = outL g x) ∧
        (∀ a b, lookupA (innL g₃ a) b = lookupA (innL g a) b) := by
    intro R hRn hRe hRo hRi
    have hRcontains : ∀ x, containsNode R x = containsNode g x := by
      intro x
      unfold containsNode
      rw [hRn, nodeMap_rebuild hwf]
    have hRoutL : ∀ x, outL R x = [] := by
      intro x
      unfold outL
      rw [hRo]
      exact lookupA_map_const_getD _ _ _
    have hRinnL : ∀ x, innL R x = [] := by
      intro x
      unfold innL
      rw [hRi]
      exact lookupA_map_const_getD _ _ _
    obtain ⟨g₃, hfold₂, hnm₃, hem₃, hout₃, hinn₃⟩ :=
      decodeEdges_fold (getEdges g) R
        (fun e he => (mem_getEdges_spec hwf he).2.2.2.2.2.2)
        (fun e he => by
          rw [hRcontains, hRcontains]
          exact ⟨(mem_getEdges_spec hwf he).2.1, (mem_getEdges_spec hwf he).2.2.1⟩)
        (fun e he => ⟨(mem_getEdges_spec hwf he).2.2.2.1,
          (mem_getEdges_spec hwf he).2.2.2.2.1⟩)
        (fun e _ => by simp [hRe, lookupA])
        (fun e _ => by simp [hRoutL, lookupA])
        (fun e _ => by simp [hRinnL, lookupA])
        (fun e he => by
          have hmemF : e.From ∈ (getNodes g).map Node.ID := by
            rw [getNodes_id_eq_keys hwf]
            exact (mem_keysA_iff_isSome _ _).mpr (mem_getEdges_spec hwf he).2.1
          have hmemT : e.To ∈ (getNodes g).map Node.ID := by
            rw [getNodes_id_eq_keys hwf]
            exact (mem_keysA_iff_isSome _ _).mpr (mem_getEdges_spec hwf he).2.2.1
          constructor
          · simp [hRo, lookupA_map_const_isSome _ _ _ hmemF]
          · simp [hRi, lookupA_map_const_isSome _ _ _ hmemT])
        (getEdges_pairwise hwf)
    refine ⟨g₃, hfold₂, ?_, ?_, ?_, ?_⟩
    · rw [hnm₃, hRn, nodeMap_rebuild hwf]
    · intro i
      rw [hem₃ i, hRe]
      exact edgeMap_rebuild hwf i
    · intro x
      by_cases hmem : x ∈ (getNodes g).map Node.ID
      · have hsome : lookupA R.out x = some ([] : List (NodeID × Edge)) := by
          rw [hRo]
          exact lookupA_map_const_isSome _ _ _ hmem
        have h₃ : outL g₃ x = edgeEntriesFor (getEdges g) x := by
          unfold outL
          rw [hout₃ x, hsome]
          rfl
        rw [h₃, outL_rebuild hwf x]
      · have hnone : lookupA R.out x = none := by
          rw [hRo]
          exact lookupA_map_const_none _ _ _ hmem
        have h₃ : outL g₃ x = [] := by
          unfold outL
          rw [hout₃ x, hnone]
          rfl
        have hcn : containsNode g x = false := by
          rw [getNodes_id_eq_keys hwf] at hmem
          unfold containsNode
          cases hl : lookupA g.nodeMap x with
          | none => rfl
          | some v =>
            exact absurd ((mem_keysA_iff_isSome _ _).mpr (by simp [hl])) hmem
        rw [h₃, outL_nil_of_not_node hwf hcn]
    · intro a b
      by_cases hmem : a ∈ (getNodes g).map Node.ID
      · have hsome : lookupA R.inn a = some ([] : List (NodeID × Edge)) := by
          rw [hRi]
          exact lookupA_map_const_isSome _ _ _ hmem
        have h₃ : innL g₃ a = edgeEntriesRevFor (getEdges g) a := by
          unfold innL
          rw [hinn₃ a, hsome]
          rfl
        rw [h₃, innL_rebuild hwf a b, hwf.2.2.2.2.2.2.2 a b]
      · have hnone : lookupA R.inn a = none := by
          rw [hRi]
          exact lookupA_map_const_none _ _ _ hmem
        have h₃ : innL g₃ a = [] := by
          unfold innL
          rw [hinn₃ a, hnone]
          rfl
        rw [h₃, hwf.2.2.2.2.2.2.2 a b]
        cases ho : lookupA (outL g b) a with
        | none => rfl
        | some e =>
          exfalso
          have hent : (a, e) ∈ outL g b := lookupA_eq_some_mem ho
          have hctn : containsNode g a = true := (outL_entry_spec hwf hent).2.2.2.1
          have hkeys : a ∈ keysA g.nodeMap := (mem_keysA_iff_isSome _ _).mpr hctn
          rw [← getNodes_id_eq_keys hwf] at hkeys
          exact hmem hkeys
  obtain ⟨g₃, hfold₂, hnm₃, hem₃, hout₃, hinn₃⟩ :=
    hmain
      { nodeMap := emptyGraph.nodeMap ++ (getNodes g).map (fun n => (n.ID, n))
        edgeMap := emptyGraph.edgeMap
        out := emptyGraph.out ++
          (getNodes g).map (fun n => (n.ID, ([] : List (NodeID × Edge))))
        inn := emptyGraph.inn ++
          (getNodes g).map (fun n => (n.ID, ([] : List (NodeID × Edge)))) }
      rfl rfl rfl rfl
  refine ⟨g₃, ?_, hnm₃, hem₃, hout₃, hinn₃⟩
  have hb₁ : ∀ (x : Graph) (f : Graph → Except GoError Graph),
      (Except.ok x >>= f) = f x := fun x f => rfl
  unfold readWriteJSON fromSerializedGraph
  rw [hNodes, hEdges]
  simp only [hfold₁, hb₁, hfold₂]
  rfl

/-- A small well-formed test graph as stored: nodes `A`, `B` and the edge
`e : A → B` with probability `1/2` (the stored image of `twoNodeGraph`). -/
def wfWitnessGraph : Graph :=
  { nodeMap := [("A", ⟨"A", []⟩), ("B", ⟨"B", []⟩)]
    edgeMap := [("e", twoNodeEdge)]
    out := [("A", [("B", twoNodeEdge)]), ("B", [])]
    inn := [("A", []), ("B", [("A", twoNodeEdge)])] }

instance propsOKDec (ps : List (String × Value)) : Decidable (propsOK ps) :=
  decidable_of_iff
    (∀ kv ∈ ps, valueCanonical kv.2 = true ∧ wireStable kv.2 = true) Iff.rfl

theorem wfWitnessGraph_wf : WFserial wfWitnessGraph := by
  refine ⟨by decide, by decide, by decide, by decide, by decide, by decide,
    by decide, ?_⟩
  intro a b
  by_cases haA : a = "A"
  · subst haA
    by_cases hbA : b = "A"
    · subst hbA
      decide
    · by_cases hbB : b = "B"
      · subst hbB
        decide
      · have h1 : ¬ ("A" = b) := fun h => hbA h.symm
        have h2 : ¬ ("B" = b) := fun h => hbB h.symm
        simp [innL, outL, wfWitnessGraph, lookupA, h1, h2]
  · by_cases haB : a = "B"
    · subst haB
      by_cases hbA : b = "A"
      · subst hbA
        decide
      · by_cases hbB : b = "B"
        · subst hbB
          decide
        · have h1 : ¬ ("A" = b) := fun h => hbA h.symm
          have h2 : ¬ ("B" = b) := fun h => hbB h.symm
          simp [innL, outL, wfWitnessGraph, lookupA, h1, h2]
    · have h1 : ¬ ("A" = a) := fun h => haA h.symm
      have h2 : ¬ ("B" = a) := fun h => haB h.symm
      by_cases hbA : b = "A"
      · subst hbA
        simp [innL, outL, wfWitnessGraph, lookupA, h1, h2]
      · by_cases hbB : b = "B"
        · subst hbB
          simp [innL, outL, wfWitnessGraph, lookupA, h1, h2]
        · have h3 : ¬ ("A" = b) := fun h => hbA h.symm
          have h4 : ¬ ("B" = b) := fun h => hbB h.symm
          simp [innL, outL, wfWitnessGraph, lookupA, h1, h2, h3, h4]

/-- C4, witness: the round-trip theorem applied to the concrete
well-formed graph `A → B` (probability `1/2`), with `WFserial`
discharged. -/
theorem roundTrip_preserves_witness :
    ∃ g', readWriteJSON wfWitnessGraph = .ok g' ∧
      g'.nodeMap = wfWitnessGraph.nodeMap ∧
      (∀ i, lookupA g'.edgeMap i = lookupA wfWitnessGraph.edgeMap i) ∧
      (∀ x, outL g' x = outL wfWitnessGraph x) ∧
      (∀ a b, lookupA (innL g' a) b = lookupA (innL wfWitnessGraph a) b) :=
  roundTrip_preserves_graph wfWitnessGraph_wf

/-! ## The query layer (C5)

The interpreter below covers the spec's eight-variant query algebra
(`MaxProbabilityPathQuery`, `TopKProbabilityPathsQuery`,
`ReachabilityProbabilityQuery` with its two valid inference modes,
`ConditionalQuery`, `MultiQuery`, `AndQuery`, `OrQuery`, `ThresholdQuery`,
`AggregateQuery`).  `SequentialQuery` is not part of the spec's algebra
(its continuation is an arbitrary Go function, not query syntax) and is
outside the formalized statement.  Concurrency is determinized:
`executeConcurrent` runs its subqueries in index order and reports the
first error in index order, and the cancellation context never fires.
Ambient runtime inputs are abstracted into an environment: `W` stands for
`runtime.GOMAXPROCS(0)` (≥ 1 in Go; `max W 1` totalizes), `rand seed w i`
for the `i`-th `Float64()` draw of the worker-`w` PCG stream seeded from
`seed`, and `sqrtA` for `math.Sqrt`. -/

structure Env : Type where
  W : Nat
  rand : Nat → Nat → Nat → ℚ
  sqrtA : ℚ → ℚ

/-- `sampling.CI95ZScore`.  Modelled from the spec: the constant's source
file is not under `src/` (only its use in part_005); the spec fixes it to
`1.959964`. -/
def CI95ZScore : ℚ := mkRat 1959964 1000000

/-- `query.InferenceMode` (part_007): the two valid modes. -/
inductive InferenceMode : Type where
  | exact
  | monteCarlo
deriving DecidableEq, Repr

/-- The concrete `query.Reducer` implementations (part_006). -/
inductive ReducerK : Type where
  | mean
  | best
  | maxP
  | minP
  | countAbove (t : ℚ)
deriving DecidableEq, Repr

/-- Dispatch `Reducer.Reduce` over the concrete reducers. -/
def reduceK : ReducerK → List ResultR → Except GoError ResultR
  | .mean, rs => meanReduce rs
  | .best, rs => bestPathReduce rs
  | .maxP, rs => maxReduce rs
  | .minP, rs => minReduce rs
  | .countAbove t, rs => countAboveReduce t rs

/-- `inference.dfsProbabilisticReachability` (graph_traversals.go), with
the recursion made structural on fuel (the visited set bounds the true
recursion depth by the node count, so the caller's fuel is never
exhausted); `visited` is passed downward only (Go's
`defer delete(visited, current)` pops it on return), `memo` is threaded
through siblings and returned. -/
def dfsReach (g : Graph) (endID : NodeID) :
    Nat → NodeID → List NodeID → List (NodeID × ℚ) →
      Except GoError (ℚ × List (NodeID × ℚ))
  | 0, _, _, memo => .ok (0, memo)
  | fuel+1, current, visited, memo =>
    if current = endID then .ok (1, memo)
    else
      match lookupA memo current with
      | some v => .ok (v, memo)
      | none =>
        if visited.contains current then .ok (0, memo)
        else
          match outgoingEdges g current with
          | .error e => .error e
          | .ok edges =>
            if edges.length = 0 then .ok (0, setA memo current 0)
            else
              match edges.foldlM
                  (fun (acc : ℚ × List (NodeID × ℚ)) e => do
                    let r ← dfsReach g endID fuel e.To (current :: visited) acc.2
                    pure (qmul acc.1 (qsub 1 (qmul e.Probability r.1)), r.2))
                  (1, memo) with
              | .error e => .error e
              | .ok acc => .ok (qsub 1 acc.1, setA memo current (qsub 1 acc.1))

/-- `inference.ReachabilityProbability` (part_005): exact reachability by
memoized DFS from fresh `visited`/`memo` maps. -/
def reachabilityProbability (g : Graph) (start endID : NodeID) :
    Except GoError ℚ :=
  (dfsReach g endID (g.nodeMap.length + 2) start [] []).map Prod.fst

/-- The queue loop of `inference.bfsDeterministicReachability`.  The mask
is keyed by the edge's `(From, To)` pair — faithful to the Go `*Edge` key:
within one graph the adjacency holds exactly one pointer per such pair.
Fuel bounds the pops (each pop consumes one of at most
`1 + |edges|` enqueues). -/
def bfsLoop (g : Graph) (endID : NodeID)
    (mask : List ((NodeID × NodeID) × Bool)) :
    Nat → List NodeID → List NodeID → Except GoError Bool
  | 0, _, _ => .ok false
  | fuel+1, queue, visited =>
    match queue with
    | [] => .ok false
    | current :: rest =>
      if current = endID then .ok true
      else
        match outgoingEdges g current with
        | .error e => .error e
        | .ok edges =>
          let acc := edges.foldl
            (fun (acc : List NodeID × List NodeID) e =>
              if (lookupA mask (e.From, e.To)).getD false then
                if acc.2.contains e.To then acc
                else (acc.1 ++ [e.To], acc.2 ++ [e.To])
              else acc)
            (rest, visited)
          bfsLoop g endID mask fuel acc.1 acc.2

/-- `inference.bfsDeterministicReachability`. -/
def bfsReach (g : Graph) (start endID : NodeID)
    (mask : List ((NodeID × NodeID) × Bool)) : Except GoError Bool :=
  if ¬ containsNode g start then
    .error (.graphErr "NodeDoesNotExist" ("start node " ++ start ++ " does not exist"))
  else if ¬ containsNode g endID then
    .error (.graphErr "NodeDoesNotExist" ("end node " ++ endID ++ " does not exist"))
  else
    bfsLoop g endID mask ((getEdges g).length + g.nodeMap.length + 2)
      [start] [start]

/-- One `IndependentEdgeSampler.Sample` (part_002): walks `GetEdges`,
drawing one `Float64` per edge (`idx` is the worker-stream consumption
counter, advanced and returned). -/
def sampleMask (env : Env) (seed w : Nat) :
    List Edge → Nat → List ((NodeID × NodeID) × Bool) →
      (List ((NodeID × NodeID) × Bool) × Nat)
  | [], idx, mask => (mask, idx)
  | e :: es, idx, mask =>
    sampleMask env seed w es (idx + 1)
      (setA mask (e.From, e.To) (decide (env.rand seed w idx ≤ e.Probability)))

/-- The trial loop of one Monte-Carlo worker (part_005): sample a world,
run the masked BFS, count successes. -/
def mcTrials (env : Env) (g : Graph) (start endID : NodeID) (seed w : Nat) :
    Nat → Nat → Nat → Except GoError Nat
  | 0, _, succ => .ok succ
  | t+1, idx, succ =>
    let sm := sampleMask env seed w (getEdges g) idx []
    match bfsReach g start endID sm.1 with
    | .error e => .error e
    | .ok true => mcTrials env g start endID seed w t sm.2 (succ + 1)
    | .ok false => mcTrials env g start endID seed w t sm.2 succ

/-- `inference.ReachabilityProbabilityMonteCarlo` (part_005), with the
workers determinized in index order (the Go channel collection order only
permutes a commutative integer sum). -/
def mcReach (env : Env) (g : Graph) (start endID : NodeID)
    (numSamples : Nat) (seed : Nat) : Except GoError ResultR :=
  if numSamples = 0 then .error (.plainErr "numSamples must be greater than 0")
  else
    let numWorkers := min (max env.W 1) numSamples
    let spw := numSamples / numWorkers
    let rem := numSamples % numWorkers
    match (List.range numWorkers).mapM (fun w =>
        (mcTrials env g start endID seed w (spw + (if w < rem then 1 else 0)) 0 0).map
          (fun s => (s, spw + (if w < rem then 1 else 0)))) with
    | .error e => .error e
    | .ok rs =>
      let totalS := (rs.map Prod.fst).sum
      let totalT := (rs.map Prod.snd).sum
      let p := qdiv (totalS : ℚ) (totalT : ℚ)
      let variance := qmul p (qsub 1 p)
      let stderr := env.sqrtA (qdiv variance (totalT : ℚ))
      .ok (.sample
        { Estimate := p
          NumSamples := (numSamples : Int)
          Variance := variance
          StdErr := stderr
          CI95Low := qsub p (qmul CI95ZScore stderr)
          CI95High := qadd p (qmul CI95ZScore stderr) })

/-- The spec's eight-variant query algebra (part_007 simple queries and
composite_queries.go). -/
inductive QueryQ : Type where
  | maxPath (s t : NodeID)
  | topK (s t : NodeID) (k : Int)
  | reach (s t : NodeID) (mode : InferenceMode) (seed : Nat)
  | conditional (c : Condition) (q : QueryQ)
  | multi (qs : List QueryQ)
  | andQ (qs : List QueryQ)
  | orQ (qs : List QueryQ)
  | threshold (q : QueryQ) (t : ℚ)
  | aggregate (qs : List QueryQ) (r : ReducerK)
deriving Repr

/-- The probability product of `AndQuery.Execute`'s reducer closure,
with the `ProbabilisticResult` interface assertion. -/
def probProductLoop : List ResultR → ℚ → Except GoError ℚ
  | [], acc => .ok acc
  | r :: rest, acc =>
    match probabilityValue r with
    | none => .error (.queryErr "TypeMismatch"
        ("inner query expected ProbabilisticResult, got " ++ goTypeName r))
    | some p => probProductLoop rest (qmul acc p)

/-- The failure-probability product of `OrQuery.Execute`'s reducer
closure. -/
def failProductLoop : List ResultR → ℚ → Except GoError ℚ
  | [], acc => .ok acc
  | r :: rest, acc =>
    match probabilityValue r with
    | none => .error (.queryErr "TypeMismatch"
        ("inner query expected ProbabilisticResult, got " ++ goTypeName r))
    | some p => failProductLoop rest (qmul acc (qsub 1 p))

mutual

/-- `Query.Execute`, determinized (see the section comment).  The
`ThresholdQuery` error message's ` got %f` suffix is elided.  The
Monte-Carlo reachability query passes `numSamples = 10000` as in
part_007. -/
def execQ (env : Env) : QueryQ → Graph → Except GoError ResultR
  | .maxPath s t, g => (maxProbabilityPath g s t).map ResultR.path
  | .topK s t k, g => (topKMaxProbabilityPaths g s t k).map ResultR.paths
  | .reach s t .exact _, g =>
    (reachabilityProbability g s t).map ResultR.probability
  | .reach s t .monteCarlo seed, g => mcReach env g s t 10000 seed
  | .conditional c q, g =>
    match applyCondition g c with
    | .error e => .error e
    | .ok cg => execQ env q cg
  | .multi qs, g =>
    if qs.length = 0 then
      .error (.queryErr "InvalidStructure" "query requires at least one subquery")
    else (execQs env qs g).map ResultR.multi
  | .andQ qs, g =>
    if qs.length = 0 then
      .error (.queryErr "InvalidStructure" "query requires at least one subquery")
    else
      match execQs env qs g with
      | .error e => .error e
      | .ok rs =>
        match probProductLoop rs 1 with
        | .error e => .error e
        | .ok p => .ok (.probability p)
  | .orQ qs, g =>
    if qs.length = 0 then
      .error (.queryErr "InvalidStructure" "query requires at least one subquery")
    else
      match execQs env qs g with
      | .error e => .error e
      | .ok rs =>
        match failProductLoop rs 1 with
        | .error e => .error e
        | .ok p => .ok (.probability (qsub 1 p))
  | .threshold q t, g =>
    match execQ env q g with
    | .error e => .error e
    | .ok r =>
      match probabilityValue r with
      | none => .error (.queryErr "TypeMismatch"
          ("inner query expected ProbabilisticResult, got " ++ goTypeName r))
      | some p =>
        if t < 0 ∨ t > 1 then
          .error (.queryErr "InvalidParameter" "threshold must be between 0 and 1")
        else .ok (.boolean (decide (p ≥ t)))
  | .aggregate qs r, g =>
    if qs.length = 0 then
      .error (.queryErr "InvalidStructure" "query requires at least one subquery")
    else
      match execQs env qs g with
      | .error e => .error e
      | .ok rs => reduceK r rs

/-- `executeConcurrent`'s fan-out, determinized in index order. -/
def execQs (env : Env) : List QueryQ → Graph → Except GoError (List ResultR)
  | [], _ => .ok []
  | q :: qs, g =>
    match execQ env q g with
    | .error e => .error e
    | .ok r => (execQs env qs g).map (fun rs => r :: rs)

end

/-! ### Execution well-formedness and the observational relation -/

/-- The invariants the query layer needs for congruent behavior: unique
node-map and out-row keys, unique inner keys, and every out-adjacency
entry correctly positioned (`From` = row key, `To` = inner key) with its
source node present and the entry mirrored by the edge map.  This is the
fragment of the documented invariants I1/I2/I5 preserved by `Clone`,
`RemoveEdge` and `ApplyCondition`. -/
def WFx (g : Graph) : Prop :=
  (keysA g.nodeMap).Nodup ∧
  (keysA g.out).Nodup ∧
  (∀ x, (keysA (outL g x)).Nodup) ∧
  (∀ x, ∀ ent ∈ outL g x,
    ent.2.From = x ∧ ent.2.To = ent.1 ∧ containsNode g x = true ∧
    lookupA g.edgeMap ent.2.ID = some ent.2)

/-- Observational equivalence for query execution: equal node maps, equal
out-adjacency rows, and in-adjacency equal as a map (the conditioning
path reads the in-adjacency only through lookups and key membership). -/
def ExecEq (g₁ g₂ : Graph) : Prop :=
  g₁.nodeMap = g₂.nodeMap ∧
  (∀ x, outL g₁ x = outL g₂ x) ∧
  (∀ a b, lookupA (innL g₁ a) b = lookupA (innL g₂ a) b)

theorem containsNode_eqv {g₁ g₂ : Graph} (h : ExecEq g₁ g₂) (x : NodeID) :
    containsNode g₁ x = containsNode g₂ x := by
  unfold containsNode
  rw [h.1]

theorem getNodes_eqv {g₁ g₂ : Graph} (h : ExecEq g₁ g₂) :
    getNodes g₁ = getNodes g₂ := by
  unfold getNodes valuesA
  rw [h.1]

theorem flatMap_congr_mem {α β : Type} {l : List α} {f f' : α → List β}
    (h : ∀ a ∈ l, f a = f' a) : l.flatMap f = l.flatMap f' := by
  induction l with
  | nil => rfl
  | cons x xs ih =>
    rw [List.flatMap_cons, List.flatMap_cons, h x (List.mem_cons_self _ _),
      ih (fun a ha => h a (List.mem_cons_of_mem _ ha))]

theorem mapM_congr_except {α β ε : Type} {l : List α} {f f' : α → Except ε β}
    (h : ∀ a ∈ l, f a = f' a) : l.mapM f = l.mapM f' := by
  induction l with
  | nil => rfl
  | cons x xs ih =>
    simp only [List.mapM_cons, h x (List.mem_cons_self _ _),
      ih (fun a ha => h a (List.mem_cons_of_mem _ ha))]

theorem outgoingEdges_eqv {g₁ g₂ : Graph} (h : ExecEq g₁ g₂) (x : NodeID) :
    outgoingEdges g₁ x = outgoingEdges g₂ x := by
  unfold outgoingEdges
  rw [containsNode_eqv h, h.2.1 x]

theorem getEdges_eqv {g₁ g₂ : Graph} (h : ExecEq g₁ g₂) :
    getEdges g₁ = getEdges g₂ := by
  unfold getEdges
  rw [getNodes_eqv h]
  apply flatMap_congr_mem
  intro n _
  rw [h.2.1]

theorem adjSize_eqv {g₁ g₂ : Graph} (h : ExecEq g₁ g₂) :
    adjSize g₁ = adjSize g₂ := by
  unfold adjSize
  rw [getNodes_eqv h]
  congr 1
  apply List.map_congr_left
  intro n _
  rw [h.2.1]

theorem getEdge_eqv {g₁ g₂ : Graph} (h : ExecEq g₁ g₂) (a b : NodeID) :
    getEdge g₁ a b = getEdge g₂ a b := by
  unfold getEdge
  rw [containsNode_eqv h, containsNode_eqv h, h.2.1 a]

theorem containsEdge_eqv {g₁ g₂ : Graph} (h : ExecEq g₁ g₂) (a b : NodeID) :
    containsEdge g₁ a b = containsEdge g₂ a b := by
  unfold containsEdge
  rw [h.2.1 a]

/-! ### Congruence of the traversal kernels -/

theorem dijkstraLoop_eqv {g₁ g₂ : Graph} (h : ExecEq g₁ g₂) (endID : NodeID) :
    ∀ fuel st, dijkstraLoop g₁ endID fuel st = dijkstraLoop g₂ endID fuel st := by
  intro fuel
  induction fuel with
  | zero => intro st; rfl
  | succ n ih =>
    intro st
    simp only [dijkstraLoop]
    cases pqPopMax st.pq with
    | none => rfl
    | some pr =>
      obtain ⟨curr, pq'⟩ := pr
      by_cases hend : curr.ID = endID
      · simp [hend]
      · simp only [if_neg hend]
        by_cases hstale : curr.PriorityP < distLookup st.dist curr.ID
        · simp only [if_pos hstale]
          exact ih _
        · simp only [if_neg hstale]
          rw [outgoingEdges_eqv h]
          cases outgoingEdges g₂ curr.ID with
          | error e => rfl
          | ok edges => exact ih _

theorem maxProbabilityPath_eqv {g₁ g₂ : Graph} (h : ExecEq g₁ g₂)
    (s t : NodeID) : maxProbabilityPath g₁ s t = maxProbabilityPath g₂ s t := by
  unfold maxProbabilityPath
  rw [containsNode_eqv h, containsNode_eqv h, getNodes_eqv h, adjSize_eqv h]
  dsimp only
  rw [dijkstraLoop_eqv h]

theorem pathProbability_eqv {g₁ g₂ : Graph} (h : ExecEq g₁ g₂) :
    ∀ ns acc, pathProbability g₁ ns acc = pathProbability g₂ ns acc := by
  intro ns
  induction ns with
  | nil => intro acc; rfl
  | cons a rest ih =>
    intro acc
    cases rest with
    | nil => rfl
    | cons b rest2 =>
      simp only [pathProbability]
      rw [getEdge_eqv h]
      cases getEdge g₂ a b with
      | error e => rfl
      | ok e => exact ih _

theorem dfsReach_eqv {g₁ g₂ : Graph} (h : ExecEq g₁ g₂) (endID : NodeID) :
    ∀ fuel current visited memo,
      dfsReach g₁ endID fuel current visited memo =
        dfsReach g₂ endID fuel current visited memo := by
  intro fuel
  induction fuel with
  | zero => intro c v m; rfl
  | succ n ih =>
    intro c v m
    simp only [dfsReach]
    by_cases hend : c = endID
    · simp [hend]
    · simp only [if_neg hend]
      cases lookupA m c with
      | some val => rfl
      | none =>
        by_cases hvis : v.contains c
        · have hm : c ∈ v := by simpa using hvis
          simp [hm]
        · simp only [hvis, Bool.false_eq_true, if_false]
          rw [outgoingEdges_eqv h]
          cases outgoingEdges g₂ c with
          | error e => rfl
          | ok edges =>
            by_cases hlen : edges.length = 0
            · simp [hlen]
            · simp only [if_neg hlen]
              have hfun :
                  (fun (acc : ℚ × List (NodeID × ℚ)) (e : Edge) => do
                    let r ← dfsReach g₁ endID n e.To (c :: v) acc.2
                    pure (qmul acc.1 (qsub 1 (qmul e.Probability r.1)), r.2)) =
                  (fun (acc : ℚ × List (NodeID × ℚ)) (e : Edge) => do
                    let r ← dfsReach g₂ endID n e.To (c :: v) acc.2
                    pure (qmul acc.1 (qsub 1 (qmul e.Probability r.1)), r.2)) := by
                funext acc e
                rw [ih]
              rw [hfun]

theorem reachabilityProbability_eqv {g₁ g₂ : Graph} (h : ExecEq g₁ g₂)
    (s t : NodeID) :
    reachabilityProbability g₁ s t = reachabilityProbability g₂ s t := by
  unfold reachabilityProbability
  rw [dfsReach_eqv h, h.1]

theorem bfsLoop_eqv {g₁ g₂ : Graph} (h : ExecEq g₁ g₂) (endID : NodeID)
    (mask : List ((NodeID × NodeID) × Bool)) :
    ∀ fuel queue visited,
      bfsLoop g₁ endID mask fuel queue visited =
        bfsLoop g₂ endID mask fuel queue visited := by
  intro fuel
  induction fuel with
  | zero => intro q v; rfl
  | succ n ih =>
    intro q v
    simp only [bfsLoop]
    cases q with
    | nil => rfl
    | cons current rest =>
      by_cases hend : current = endID
      · simp [hend]
      · simp only [if_neg hend]
        rw [outgoingEdges_eqv h]
        cases outgoingEdges g₂ current with
        | error e => rfl
        | ok edges => exact ih _ _

theorem bfsReach_eqv {g₁ g₂ : Graph} (h : ExecEq g₁ g₂) (s t : NodeID)
    (mask : List ((NodeID × NodeID) × Bool)) :
    bfsReach g₁ s t mask = bfsReach g₂ s t mask := by
  unfold bfsReach
  rw [containsNode_eqv h, containsNode_eqv h, getEdges_eqv h, h.1,
    bfsLoop_eqv h]

theorem mcTrials_eqv {g₁ g₂ : Graph} (h : ExecEq g₁ g₂) (env : Env)
    (s t : NodeID) (seed w : Nat) :
    ∀ trials idx succ,
      mcTrials env g₁ s t seed w trials idx succ =
        mcTrials env g₂ s t seed w trials idx succ := by
  intro trials
  induction trials with
  | zero => intro idx succ; rfl
  | succ n ih =>
    intro idx succ
    simp only [mcTrials]
    rw [getEdges_eqv h, bfsReach_eqv h]
    cases bfsReach g₂ s t (sampleMask env seed w (getEdges g₂) idx []).1 with
    | error e => rfl
    | ok b => cases b <;> exact ih _ _

theorem mcReach_eqv {g₁ g₂ : Graph} (h : ExecEq g₁ g₂) (env : Env)
    (s t : NodeID) (numSamples seed : Nat) :
    mcReach env g₁ s t numSamples seed = mcReach env g₂ s t numSamples seed := by
  unfold mcReach
  by_cases hz : numSamples = 0
  · simp [hz]
  · simp only [if_neg hz]
    congr 1
    apply mapM_congr_except
    intro w _
    rw [mcTrials_eqv h]

/-! ### Association-list machinery for the `Clone` characterization -/

theorem lookupA_map_row_const {α β γ : Type} [DecidableEq α]
    (m : List (α × β)) (c : γ) (k : α) :
    lookupA (m.map (fun kv => (kv.1, c))) k = (lookupA m k).map (fun _ => c) := by
  induction m with
  | nil => rfl
  | cons kv rest ih =>
    by_cases h : kv.1 = k <;> simp [lookupA, h, ih]

theorem lookupA_eq_none_of_not_mem {α β : Type} [DecidableEq α]
    {m : List (α × β)} {k : α} (h : k ∉ keysA m) : lookupA m k = none := by
  cases hl : lookupA m k with
  | none => rfl
  | some v => exact absurd ((mem_keysA_iff_isSome _ _).mpr (by simp [hl])) h

theorem foldl_congr_mem {α β : Type} :
    ∀ {l : List α} {f f' : β → α → β} {b : β},
      (∀ a ∈ l, ∀ acc, f acc a = f' acc a) → l.foldl f b = l.foldl f' b := by
  intro l
  induction l with
  | nil => intro f f' b _; rfl
  | cons x xs ih =>
    intro f f' b h
    rw [List.foldl_cons, List.foldl_cons, h x (List.mem_cons_self _ _)]
    exact ih (fun a ha => h a (List.mem_cons_of_mem _ ha))

theorem keysA_adjustA {α β : Type} [DecidableEq α] (m : List (α × β)) (k : α)
    (f : β → β) : keysA (adjustA m k f) = keysA m := by
  unfold keysA adjustA
  rw [List.map_map]
  apply List.map_congr_left
  intro kv _
  by_cases h : kv.1 = k <;> simp [h]

/-- The two components of the `Clone` adjacency rebuild evolve
independently; the double row/entry fold is a single fold over the
flattened `(from, (to, edge))` pairs. -/
theorem clone_filled_flatten (em : List (EdgeID × Edge)) :
    ∀ (rows : List (NodeID × List (NodeID × Edge)))
      (acc : List (NodeID × List (NodeID × Edge)) × List (NodeID × List (NodeID × Edge))),
      rows.foldl (fun acc row => row.2.foldl
        (fun acc e => cloneAdjStep em acc row.1 e) acc) acc =
      (rows.flatMap (fun row => row.2.map (fun ent => (row.1, ent)))).foldl
        (fun acc p => cloneAdjStep em acc p.1 p.2) acc := by
  intro rows
  induction rows with
  | nil => intro acc; rfl
  | cons r rs ih =>
    intro acc
    rw [List.foldl_cons, List.flatMap_cons, List.foldl_append, List.foldl_map, ih]

theorem foldl_pairs_fst (em : List (EdgeID × Edge)) :
    ∀ (P : List (NodeID × (NodeID × Edge)))
      (acc : List (NodeID × List (NodeID × Edge)) × List (NodeID × List (NodeID × Edge))),
      (P.foldl (fun acc p => cloneAdjStep em acc p.1 p.2) acc).1 =
        P.foldl (fun o p => adjustA o p.1 (fun inner =>
          setA inner p.2.1 ((lookupA em p.2.2.ID).getD p.2.2))) acc.1 := by
  intro P
  induction P with
  | nil => intro acc; rfl
  | cons p ps ih =>
    intro acc
    rw [List.foldl_cons, List.foldl_cons, ih]
    rfl

theorem foldl_pairs_snd (em : List (EdgeID × Edge)) :
    ∀ (P : List (NodeID × (NodeID × Edge)))
      (acc : List (NodeID × List (NodeID × Edge)) × List (NodeID × List (NodeID × Edge))),
      (P.foldl (fun acc p => cloneAdjStep em acc p.1 p.2) acc).2 =
        P.foldl (fun i p => adjustA i p.2.1 (fun inner =>
          setA inner p.1 ((lookupA em p.2.2.ID).getD p.2.2))) acc.2 := by
  intro P
  induction P with
  | nil => intro acc; rfl
  | cons p ps ih =>
    intro acc
    rw [List.foldl_cons, List.foldl_cons, ih]
    rfl

/-- Pointwise view of a fold of row-targeted `adjustA`/`setA` updates:
row `x` collects exactly the updates keyed at `x`, in order. -/
theorem lookupA_foldl_adjust {π : Type} (key ik : π → NodeID) (v : π → Edge) :
    ∀ (P : List π) (o : List (NodeID × List (NodeID × Edge))) (x : NodeID),
      lookupA (P.foldl (fun o p => adjustA o (key p)
          (fun inner => setA inner (ik p) (v p))) o) x =
        (lookupA o x).map (fun inner =>
          (P.filter (fun p => decide (key p = x))).foldl
            (fun inner p => setA inner (ik p) (v p)) inner) := by
  intro P
  induction P with
  | nil =>
    intro o x
    cases hl : lookupA o x <;> simp [hl]
  | cons p ps ih =>
    intro o x
    rw [List.foldl_cons, ih, lookupA_adjustA, List.filter_cons]
    by_cases hk : key p = x
    · rw [if_pos hk, if_pos (show decide (key p = x) = true by simp [hk])]
      cases hl : lookupA o x <;> simp [hl, List.foldl_cons]
    · rw [if_neg hk, if_neg (show ¬ decide (key p = x) = true by simp [hk])]

theorem foldl_setA_entries :
    ∀ (entries inner₀ : List (NodeID × Edge)),
      (keysA (inner₀ ++ entries)).Nodup →
      entries.foldl (fun inn ent => setA inn ent.1 ent.2) inner₀ =
        inner₀ ++ entries := by
  intro entries
  induction entries with
  | nil => intro inner₀ _; simp
  | cons ent rest ih =>
    intro inner₀ hnd
    have hnotmem : ent.1 ∉ keysA inner₀ := by
      intro hc
      unfold keysA at hnd
      rw [List.map_append, List.nodup_append] at hnd
      exact hnd.2.2 hc (by simp)
    have hfresh : lookupA inner₀ ent.1 = none := lookupA_eq_none_of_not_mem hnotmem
    rw [List.foldl_cons, setA_fresh _ _ _ hfresh]
    have hnd' : (keysA ((inner₀ ++ [ent]) ++ rest)).Nodup := by
      have : (inner₀ ++ [ent]) ++ rest = inner₀ ++ ent :: rest := by simp
      rw [this]
      exact hnd
    rw [ih _ hnd']
    simp

/-- Filtering the flattened out-adjacency pairs to source `x` yields
exactly row `x` (the rows have unique keys). -/
theorem flatMap_pairs_filter :
    ∀ (rows : List (NodeID × List (NodeID × Edge))) (x : NodeID),
      (keysA rows).Nodup →
      ((rows.flatMap (fun row => row.2.map (fun ent => (row.1, ent)))).filter
        (fun p => decide (p.1 = x))) =
        ((lookupA rows x).getD []).map (fun ent => (x, ent)) := by
  intro rows
  induction rows with
  | nil => intro x _; rfl
  | cons r rs ih =>
    intro x hnd
    simp only [keysA, List.map_cons, List.nodup_cons] at hnd
    rw [List.flatMap_cons, List.filter_append]
    by_cases hk : r.1 = x
    · have hhead : (r.2.map (fun ent => (r.1, ent))).filter
          (fun p => decide (p.1 = x)) = r.2.map (fun ent => (x, ent)) := by
        rw [← hk, List.filter_eq_self.mpr]
        intro p hp
        obtain ⟨ent, _, hpe⟩ := List.mem_map.mp hp
        rw [← hpe]
        simp
      have htail : ((rs.flatMap (fun row => row.2.map (fun ent => (row.1, ent)))).filter
          (fun p => decide (p.1 = x))) = [] := by
        rw [List.filter_eq_nil_iff]
        intro p hp
        obtain ⟨row, hrow, hpm⟩ := List.mem_flatMap.mp hp
        obtain ⟨ent, _, hpe⟩ := List.mem_map.mp hpm
        simp only [decide_eq_true_eq]
        intro hc
        apply hnd.1
        rw [hk]
        rw [← hpe] at hc
        rw [← hc]
        exact List.mem_map_of_mem Prod.fst hrow
      rw [hhead, htail, List.append_nil]
      have : lookupA ((r.1, r.2) :: rs) x = some r.2 := by
        simp [lookupA, hk]
      rw [show (r :: rs) = ((r.1, r.2) :: rs) from rfl, this, Option.getD_some]
    · have hhead : (r.2.map (fun ent => (r.1, ent))).filter
          (fun p => decide (p.1 = x)) = [] := by
        rw [List.filter_eq_nil_iff]
        intro p hp
        obtain ⟨ent, _, hpe⟩ := List.mem_map.mp hp
        rw [← hpe]
        simp [hk]
      rw [hhead, List.nil_append, ih x hnd.2]
      have : lookupA ((r.1, r.2) :: rs) x = lookupA rs x := by
        simp [lookupA, hk]
      rw [show (r :: rs) = ((r.1, r.2) :: rs) from rfl, this]

/-! ### `Clone` under the execution invariants -/

theorem keysA_foldl_adjust {π : Type} (key : π → NodeID)
    (f : π → List (NodeID × Edge) → List (NodeID × Edge)) :
    ∀ (P : List π) (o : List (NodeID × List (NodeID × Edge))),
      keysA (P.foldl (fun o p => adjustA o (key p) (f p)) o) = keysA o := by
  intro P
  induction P with
  | nil => intro o; rfl
  | cons p ps ih =>
    intro o
    rw [List.foldl_cons, ih, keysA_adjustA]

theorem clone_out_def (g : Graph) :
    (clone g).out =
      (g.out.flatMap (fun row => row.2.map (fun ent => (row.1, ent)))).foldl
        (fun o p => adjustA o p.1 (fun inner => setA inner p.2.1
          ((lookupA g.edgeMap p.2.2.ID).getD p.2.2)))
        (g.nodeMap.map (fun kv => (kv.1, ([] : List (NodeID × Edge))))) := by
  have hem : g.edgeMap.map (fun kv => (kv.1, cloneEdgeVal kv.2)) = g.edgeMap :=
    clone_edgeMap g
  show (g.out.foldl
      (fun acc row => row.2.foldl
        (fun acc e => cloneAdjStep (g.edgeMap.map (fun kv => (kv.1, cloneEdgeVal kv.2)))
          acc row.1 e) acc)
      (g.nodeMap.map (fun kv => (kv.1, ([] : List (NodeID × Edge)))),
       g.nodeMap.map (fun kv => (kv.1, ([] : List (NodeID × Edge)))))).1 = _
  rw [clone_filled_flatten, foldl_pairs_fst, hem]

theorem clone_inn_def (g : Graph) :
    (clone g).inn =
      (g.out.flatMap (fun row => row.2.map (fun ent => (row.1, ent)))).foldl
        (fun i p => adjustA i p.2.1 (fun inner => setA inner p.1
          ((lookupA g.edgeMap p.2.2.ID).getD p.2.2)))
        (g.nodeMap.map (fun kv => (kv.1, ([] : List (NodeID × Edge))))) := by
  have hem : g.edgeMap.map (fun kv => (kv.1, cloneEdgeVal kv.2)) = g.edgeMap :=
    clone_edgeMap g
  show (g.out.foldl
      (fun acc row => row.2.foldl
        (fun acc e => cloneAdjStep (g.edgeMap.map (fun kv => (kv.1, cloneEdgeVal kv.2)))
          acc row.1 e) acc)
      (g.nodeMap.map (fun kv => (kv.1, ([] : List (NodeID × Edge)))),
       g.nodeMap.map (fun kv => (kv.1, ([] : List (NodeID × Edge)))))).2 = _
  rw [clone_filled_flatten, foldl_pairs_snd, hem]

theorem clone_out_lookup (g : Graph) (x : NodeID) :
    lookupA (clone g).out x =
      (lookupA g.nodeMap x).map (fun _ =>
        ((g.out.flatMap (fun row => row.2.map (fun ent => (row.1, ent)))).filter
          (fun p => decide (p.1 = x))).foldl
          (fun inner p => setA inner p.2.1
            ((lookupA g.edgeMap p.2.2.ID).getD p.2.2)) []) := by
  rw [clone_out_def, lookupA_foldl_adjust _ _ _, lookupA_map_row_const]
  cases hl : lookupA g.nodeMap x <;> simp [hl]

theorem clone_inn_lookup (g : Graph) (a : NodeID) :
    lookupA (clone g).inn a =
      (lookupA g.nodeMap a).map (fun _ =>
        ((g.out.flatMap (fun row => row.2.map (fun ent => (row.1, ent)))).filter
          (fun p => decide (p.2.1 = a))).foldl
          (fun inner p => setA inner p.1
            ((lookupA g.edgeMap p.2.2.ID).getD p.2.2)) []) := by
  rw [clone_inn_def, lookupA_foldl_adjust _ _ _, lookupA_map_row_const]
  cases hl : lookupA g.nodeMap a <;> simp [hl]

theorem outL_nil_of_no_node {g : Graph} (hwf : WFx g) {x : NodeID}
    (hn : lookupA g.nodeMap x = none) : outL g x = [] := by
  cases ho : outL g x with
  | nil => rfl
  | cons ent rest =>
    have hent : ent ∈ outL g x := by
      rw [ho]
      exact List.mem_cons_self _ _
    have hc := (hwf.2.2.2 x ent hent).2.2.1
    unfold containsNode at hc
    rw [hn] at hc
    exact Bool.noConfusion hc

theorem row_nodup_of_wfx {g : Graph} (hwf : WFx g) :
    ∀ row ∈ g.out, (keysA row.2).Nodup := by
  intro row hrow
  have hl : lookupA g.out row.1 = some row.2 :=
    lookupA_of_mem_nodup hrow hwf.2.1
  have houtL : outL g row.1 = row.2 := by
    unfold outL
    rw [hl]
    rfl
  rw [← houtL]
  exact hwf.2.2.1 row.1

theorem clone_outL {g : Graph} (hwf : WFx g) (x : NodeID) :
    outL (clone g) x = outL g x := by
  show (lookupA (clone g).out x).getD [] = outL g x
  rw [clone_out_lookup]
  cases hn : lookupA g.nodeMap x with
  | none =>
    rw [outL_nil_of_no_node hwf hn]
    rfl
  | some node =>
    simp only [Option.map_some', Option.getD_some]
    rw [flatMap_pairs_filter g.out x hwf.2.1]
    have houtL : (lookupA g.out x).getD [] = outL g x := rfl
    rw [houtL, List.foldl_map]
    dsimp only
    have h1 : (outL g x).foldl
        (fun inner ent => setA inner ent.1 ((lookupA g.edgeMap ent.2.ID).getD ent.2)) [] =
        (outL g x).foldl (fun inner ent => setA inner ent.1 ent.2) [] := by
      apply foldl_congr_mem
      intro ent hent acc
      rw [(hwf.2.2.2 x ent hent).2.2.2]
      rfl
    have h2 : (outL g x).foldl (fun inner ent => setA inner ent.1 ent.2) [] =
        outL g x := by
      have h3 := foldl_setA_entries (outL g x) [] (by simpa using hwf.2.2.1 x)
      simpa using h3
    rw [h1, h2]

theorem WFx_clone {g : Graph} (hwf : WFx g) : WFx (clone g) := by
  refine ⟨?_, ?_, ?_, ?_⟩
  · rw [clone_nodeMap]
    exact hwf.1
  · rw [clone_out_def, keysA_foldl_adjust _ _]
    have hkeys : keysA (g.nodeMap.map (fun kv => (kv.1, ([] : List (NodeID × Edge))))) =
        keysA g.nodeMap := by
      unfold keysA
      rw [List.map_map]
      rfl
    rw [hkeys]
    exact hwf.1
  · intro x
    rw [clone_outL hwf x]
    exact hwf.2.2.1 x
  · intro x ent hent
    rw [clone_outL hwf x] at hent
    obtain ⟨h1, h2, h3, h4⟩ := hwf.2.2.2 x ent hent
    refine ⟨h1, h2, ?_, ?_⟩
    · unfold containsNode
      rw [clone_nodeMap]
      exact h3
    · rw [clone_edgeMap]
      exact h4

theorem filter_key_singleton {β : Type} :
    ∀ (inner : List (NodeID × β)) (a : NodeID), (keysA inner).Nodup →
      inner.filter (fun ent => decide (ent.1 = a)) =
        (match lookupA inner a with
         | some v => [(a, v)]
         | none => []) := by
  intro inner
  induction inner with
  | nil => intro a _; rfl
  | cons kv rest ih =>
    intro a hnd
    obtain ⟨k₀, v₀⟩ := kv
    simp only [keysA, List.map_cons, List.nodup_cons] at hnd
    rw [List.filter_cons]
    by_cases hk : k₀ = a
    · subst hk
      rw [if_pos (by simp)]
      have hrest : rest.filter (fun ent => decide (ent.1 = k₀)) = [] := by
        rw [List.filter_eq_nil_iff]
        intro ent hent
        simp only [decide_eq_true_eq]
        intro hc
        exact hnd.1 (hc ▸ List.mem_map_of_mem Prod.fst hent)
      rw [hrest]
      simp [lookupA]
    · rw [if_neg (by simp [hk])]
      have hl : lookupA ((k₀, v₀) :: rest) a = lookupA rest a := by
        simp [lookupA, hk]
      rw [hl]
      exact ih a hnd.2

theorem inn_fold_eq (em : List (EdgeID × Edge)) (a : NodeID) :
    ∀ (rows : List (NodeID × List (NodeID × Edge))) (inner₀ : List (NodeID × Edge)),
      (keysA rows).Nodup →
      (∀ row ∈ rows, (keysA row.2).Nodup) →
      (∀ row ∈ rows, lookupA inner₀ row.1 = none) →
      ((rows.flatMap (fun row => row.2.map (fun ent => (row.1, ent)))).filter
          (fun p => decide (p.2.1 = a))).foldl
          (fun inner p => setA inner p.1 ((lookupA em p.2.2.ID).getD p.2.2)) inner₀ =
        inner₀ ++ rows.filterMap (fun row => (lookupA row.2 a).map
          (fun e => (row.1, (lookupA em e.ID).getD e))) := by
  intro rows
  induction rows with
  | nil => intro inner₀ _ _ _; simp
  | cons r rs ih =>
    intro inner₀ hnd hinner hfresh
    simp only [keysA, List.map_cons, List.nodup_cons] at hnd
    rw [List.flatMap_cons, List.filter_append, List.foldl_append]
    have hcomm : (r.2.map (fun ent => (r.1, ent))).filter (fun p => decide (p.2.1 = a)) =
        (r.2.filter (fun ent => decide (ent.1 = a))).map (fun ent => (r.1, ent)) := by
      rw [List.filter_map]
      rfl
    rw [hcomm, filter_key_singleton r.2 a (hinner r (List.mem_cons_self _ _)),
      List.filterMap_cons]
    cases hla : lookupA r.2 a with
    | none =>
      simp only [List.map_nil, List.foldl_nil, Option.map_none']
      exact ih inner₀ hnd.2 (fun row hrow => hinner row (List.mem_cons_of_mem _ hrow))
        (fun row hrow => hfresh row (List.mem_cons_of_mem _ hrow))
    | some e =>
      simp only [List.map_cons, List.map_nil, List.foldl_cons, List.foldl_nil,
        Option.map_some']
      rw [setA_fresh _ _ _ (hfresh r (List.mem_cons_self _ _))]
      rw [ih (inner₀ ++ [(r.1, (lookupA em e.ID).getD e)]) hnd.2
        (fun row hrow => hinner row (List.mem_cons_of_mem _ hrow)) ?_]
      · simp
      · intro row hrow
        rw [lookupA_append]
        rw [hfresh row (List.mem_cons_of_mem _ hrow)]
        have hne : ¬ r.1 = row.1 := by
          intro hc
          exact hnd.1 (hc ▸ List.mem_map_of_mem Prod.fst hrow)
        simp [lookupA, hne]

theorem lookup_filterMap_rows (em : List (EdgeID × Edge)) (a b : NodeID) :
    ∀ (rows : List (NodeID × List (NodeID × Edge))),
      (keysA rows).Nodup →
      lookupA (rows.filterMap (fun row => (lookupA row.2 a).map
          (fun e => (row.1, (lookupA em e.ID).getD e)))) b =
        (lookupA ((lookupA rows b).getD []) a).map
          (fun e => (lookupA em e.ID).getD e) := by
  intro rows
  induction rows with
  | nil => intro _; rfl
  | cons r rs ih =>
    intro hnd
    simp only [keysA, List.map_cons, List.nodup_cons] at hnd
    rw [List.filterMap_cons]
    have hrow : lookupA ((r.1, r.2) :: rs) b =
        if r.1 = b then some r.2 else lookupA rs b := by
      simp [lookupA]
    rw [show (r :: rs) = ((r.1, r.2) :: rs) from rfl, hrow]
    cases hla : lookupA r.2 a with
    | none =>
      simp only [Option.map_none']
      by_cases hb : r.1 = b
      · rw [if_pos hb, Option.getD_some, hla, Option.map_none']
        -- remaining: lookup of the tail filterMap at b is none, since b = r.1 ∉ keysA rs
        apply lookupA_eq_none_of_not_mem
        intro hc
        unfold keysA at hc
        obtain ⟨p, hp, hpb⟩ := List.mem_map.mp hc
        obtain ⟨row, hrowm, hpe⟩ := List.mem_filterMap.mp hp
        cases hle : lookupA row.2 a with
        | none => rw [hle] at hpe; exact Option.noConfusion hpe
        | some e2 =>
          rw [hle] at hpe
          simp only [Option.map_some', Option.some.injEq] at hpe
          apply hnd.1
          rw [hb, ← hpb, ← hpe]
          exact List.mem_map_of_mem Prod.fst hrowm
      · rw [if_neg hb]
        exact ih hnd.2
    | some e =>
      simp only [Option.map_some']
      by_cases hb : r.1 = b
      · rw [if_pos hb, Option.getD_some, hla, Option.map_some']
        have : ((r.1, (lookupA em e.ID).getD e)) = ((b, (lookupA em e.ID).getD e)) := by
          rw [hb]
        rw [this]
        simp [lookupA]
      · rw [if_neg hb]
        simp only [lookupA, if_neg hb]
        exact ih hnd.2

theorem clone_innL {g : Graph} (hwf : WFx g) (a b : NodeID) :
    lookupA (innL (clone g) a) b =
      if (lookupA g.nodeMap a).isSome = true then lookupA (outL g b) a
      else none := by
  show lookupA ((lookupA (clone g).inn a).getD []) b = _
  rw [clone_inn_lookup]
  cases hn : lookupA g.nodeMap a with
  | none => simp [lookupA]
  | some node =>
    simp only [Option.map_some', Option.getD_some, Option.isSome_some, if_true]
    rw [inn_fold_eq g.edgeMap a g.out [] hwf.2.1 (row_nodup_of_wfx hwf)
      (fun row _ => rfl), List.nil_append,
      lookup_filterMap_rows g.edgeMap a b g.out hwf.2.1]
    have houtL : (lookupA g.out b).getD [] = outL g b := rfl
    rw [houtL]
    cases ho : lookupA (outL g b) a with
    | none => rfl
    | some e =>
      have hent : (a, e) ∈ outL g b := lookupA_eq_some_mem ho
      have h4 : lookupA g.edgeMap e.ID = some e := (hwf.2.2.2 b (a, e) hent).2.2.2
      simp [h4]

theorem clone_eqv {g₁ g₂ : Graph} (h₁ : WFx g₁) (h₂ : WFx g₂)
    (h : ExecEq g₁ g₂) : ExecEq (clone g₁) (clone g₂) := by
  refine ⟨?_, ?_, ?_⟩
  · rw [clone_nodeMap, clone_nodeMap]
    exact h.1
  · intro x
    rw [clone_outL h₁, clone_outL h₂]
    exact h.2.1 x
  · intro a b
    rw [clone_innL h₁, clone_innL h₂, h.1, h.2.1 b]

/-! ### Pointwise behavior of the mutating operations -/

theorem delA_delA {α β : Type} [DecidableEq α] (m : List (α × β)) (k : α) :
    delA (delA m k) k = delA m k := by
  unfold delA
  rw [List.filter_filter]
  congr 1
  funext kv
  exact Bool.and_self _

theorem mem_delA {α β : Type} [DecidableEq α] {m : List (α × β)} {k : α}
    {kv : α × β} (h : kv ∈ delA m k) : kv ∈ m ∧ kv.1 ≠ k := by
  unfold delA at h
  have h' := List.mem_filter.mp h
  exact ⟨h'.1, by simpa using h'.2⟩

theorem keysA_delA_nodup {α β : Type} [DecidableEq α] {m : List (α × β)} {k : α}
    (h : (keysA m).Nodup) : (keysA (delA m k)).Nodup := by
  unfold keysA delA
  exact h.sublist (List.Sublist.map Prod.fst (List.filter_sublist m))

theorem getD_lookupA_adjustA (m : List (NodeID × List (NodeID × Edge)))
    (k x : NodeID) (f : List (NodeID × Edge) → List (NodeID × Edge))
    (hf : f [] = []) :
    (lookupA (adjustA m k f) x).getD [] =
      if k = x then f ((lookupA m x).getD []) else (lookupA m x).getD [] := by
  rw [lookupA_adjustA]
  by_cases h : k = x
  · rw [if_pos h, if_pos h]
    cases lookupA m x <;> simp [hf]
  · rw [if_neg h, if_neg h]

/-- Pointwise view of a fold of same-shaped `adjustA` updates over a key
list: a row is updated iff its key occurs (idempotence absorbs
duplicates), independent of the key order. -/
theorem lookupA_foldl_adjust_keys
    {f : List (NodeID × Edge) → List (NodeID × Edge)}
    (hf : ∀ l, f (f l) = f l) :
    ∀ (ks : List NodeID) (m : List (NodeID × List (NodeID × Edge))) (x : NodeID),
      lookupA (ks.foldl (fun m r => adjustA m r f) m) x =
        if x ∈ ks then (lookupA m x).map f else lookupA m x := by
  intro ks
  induction ks with
  | nil => intro m x; simp
  | cons r ks ih =>
    intro m x
    rw [List.foldl_cons, ih, lookupA_adjustA]
    by_cases hr : r = x
    · subst hr
      by_cases hks : r ∈ ks
      · rw [if_pos hks, if_pos rfl, if_pos (List.mem_cons_self _ _)]
        cases lookupA m r <;> simp [hf]
      · rw [if_neg hks, if_pos rfl, if_pos (List.mem_cons_self _ _)]
    · by_cases hks : x ∈ ks
      · rw [if_pos hks, if_neg hr, if_pos (List.mem_cons_of_mem _ hks)]
      · rw [if_neg hks, if_neg hr,
          if_neg (by simp only [List.mem_cons]; push_neg; exact ⟨fun hc => hr hc.symm, hks⟩)]

theorem removeEdge_ok_spec {g : Graph} {a b : NodeID} {e₀ : Edge}
    (he : lookupA (outL g a) b = some e₀)
    (hca : containsNode g a = true) (hcb : containsNode g b = true) :
    removeEdge g a b = .ok
      { g with out := adjustA g.out a (fun inner => delA inner b)
               inn := adjustA g.inn b (fun inner => delA inner a)
               edgeMap := delA g.edgeMap e₀.ID } := by
  have hce : containsEdge g a b = true := by
    unfold containsEdge
    rw [he]
    rfl
  unfold removeEdge
  rw [if_neg (by simp [hca]), if_neg (by simp [hcb]), if_neg (by simp [hce]), he]
  rfl

/-- Rebuild `WFx` from pointwise facts about the updated graph. -/
theorem WFx_of_parts {g g' : Graph}
    (hwf : WFx g)
    (hn : g'.nodeMap = g.nodeMap)
    (hk : keysA g'.out = keysA g.out)
    (ho : ∀ x, outL g' x = outL g x ∨ ∃ b, outL g' x = delA (outL g x) b)
    (hem : ∀ (x : NodeID), ∀ ent ∈ outL g' x,
      lookupA g'.edgeMap ent.2.ID = some ent.2) :
    WFx g' := by
  refine ⟨?_, ?_, ?_, ?_⟩
  · rw [hn]
    exact hwf.1
  · rw [hk]
    exact hwf.2.1
  · intro x
    cases ho x with
    | inl h => rw [h]; exact hwf.2.2.1 x
    | inr h =>
      obtain ⟨b, hb⟩ := h
      rw [hb]
      exact keysA_delA_nodup (hwf.2.2.1 x)
  · intro x ent hent
    have hmem : ent ∈ outL g x := by
      cases ho x with
      | inl h => rw [h] at hent; exact hent
      | inr h =>
        obtain ⟨b, hb⟩ := h
        rw [hb] at hent
        exact (mem_delA hent).1
    obtain ⟨h1, h2, h3, _⟩ := hwf.2.2.2 x ent hmem
    refine ⟨h1, h2, ?_, hem x ent hent⟩
    unfold containsNode
    rw [hn]
    exact h3

theorem outL_adjdel_record (g : Graph) (a b : NodeID) (em : List (EdgeID × Edge))
    (x : NodeID) :
    outL { g with out := adjustA g.out a (fun inner => delA inner b),
                  inn := adjustA g.inn b (fun inner => delA inner a),
                  edgeMap := em } x =
      if a = x then delA (outL g x) b else outL g x := by
  unfold outL
  show (lookupA (adjustA g.out a (fun inner => delA inner b)) x).getD [] =
    if a = x then delA ((lookupA g.out x).getD []) b else (lookupA g.out x).getD []
  rw [getD_lookupA_adjustA _ _ _ _ rfl]

theorem innLook_adjdel_record (g : Graph) (a b : NodeID) (em : List (EdgeID × Edge))
    (x y : NodeID) :
    lookupA (innL { g with out := adjustA g.out a (fun inner => delA inner b),
                           inn := adjustA g.inn b (fun inner => delA inner a),
                           edgeMap := em } x) y =
      if b = x ∧ a = y then none else lookupA (innL g x) y := by
  unfold innL
  show lookupA ((lookupA (adjustA g.inn b (fun inner => delA inner a)) x).getD []) y = _
  rw [getD_lookupA_adjustA _ _ _ _ rfl]
  by_cases hb : b = x
  · rw [if_pos hb, lookupA_delA]
    by_cases ha : a = y
    · rw [if_pos ha, if_pos ⟨hb, ha⟩]
    · rw [if_neg ha, if_neg (fun hc => ha hc.2)]
  · rw [if_neg hb, if_neg (fun hc => hb hc.1)]

theorem WFx_adjdel {g : Graph} (hwf : WFx g) (a b : NodeID)
    (em : List (EdgeID × Edge))
    (hem : ∀ (x : NodeID), ∀ ent ∈ outL g x, ent.1 ≠ b ∨ x ≠ a →
      lookupA em ent.2.ID = some ent.2) :
    WFx { g with out := adjustA g.out a (fun inner => delA inner b),
                 inn := adjustA g.inn b (fun inner => delA inner a),
                 edgeMap := em } := by
  refine WFx_of_parts hwf ?_ ?_ ?_ ?_
  · rfl
  · exact keysA_adjustA g.out a _
  · intro x
    rw [outL_adjdel_record]
    by_cases hax : a = x
    · rw [if_pos hax]
      exact Or.inr ⟨b, rfl⟩
    · rw [if_neg hax]
      exact Or.inl rfl
  · intro x ent hent
    rw [outL_adjdel_record] at hent
    by_cases hax : a = x
    · rw [if_pos hax] at hent
      obtain ⟨hmem, hne⟩ := mem_delA hent
      exact hem x ent hmem (Or.inl hne)
    · rw [if_neg hax] at hent
      exact hem x ent hent (Or.inr (fun hc => hax hc.symm))

theorem WFx_removeEdge_ok {g : Graph} (hwf : WFx g) {a b : NodeID} {e₀ : Edge}
    (he : lookupA (outL g a) b = some e₀) :
    WFx { g with out := adjustA g.out a (fun inner => delA inner b)
                 inn := adjustA g.inn b (fun inner => delA inner a)
                 edgeMap := delA g.edgeMap e₀.ID } := by
  have hent₀ : (b, e₀) ∈ outL g a := lookupA_eq_some_mem he
  have hFrom₀ : e₀.From = a := (hwf.2.2.2 a (b, e₀) hent₀).1
  have hTo₀ : e₀.To = b := (hwf.2.2.2 a (b, e₀) hent₀).2.1
  have hid₀ : lookupA g.edgeMap e₀.ID = some e₀ := (hwf.2.2.2 a (b, e₀) hent₀).2.2.2
  apply WFx_adjdel hwf a b
  intro x ent hmem hside
  obtain ⟨hF, hT, _, hid⟩ := hwf.2.2.2 x ent hmem
  rw [lookupA_delA]
  have hne : ¬ e₀.ID = ent.2.ID := by
    intro hc
    rw [hc, hid] at hid₀
    have heq : ent.2 = e₀ := Option.some.inj hid₀
    cases hside with
    | inl h1 =>
      apply h1
      rw [← hT, heq, hTo₀]
    | inr h2 => exact h2 (by rw [← hF, heq, hFrom₀])
  rw [if_neg hne]
  exact hid

theorem execEq_adjdel {g₁ g₂ : Graph} (h : ExecEq g₁ g₂) (a b : NodeID)
    (em₁ em₂ : List (EdgeID × Edge)) :
    ExecEq
      { g₁ with out := adjustA g₁.out a (fun inner => delA inner b),
                inn := adjustA g₁.inn b (fun inner => delA inner a),
                edgeMap := em₁ }
      { g₂ with out := adjustA g₂.out a (fun inner => delA inner b),
                inn := adjustA g₂.inn b (fun inner => delA inner a),
                edgeMap := em₂ } := by
  refine ⟨h.1, ?_, ?_⟩
  · intro x
    rw [outL_adjdel_record, outL_adjdel_record, h.2.1 x]
  · intro x y
    rw [innLook_adjdel_record, innLook_adjdel_record, h.2.2 x y]

theorem containsNode_false_of_ne {g : Graph} {x : NodeID}
    (h : ¬ containsNode g x = true) : containsNode g x = false := by
  revert h
  cases containsNode g x <;> simp

theorem removeEdge_rel {g₁ g₂ : Graph} (h₁ : WFx g₁) (h₂ : WFx g₂)
    (h : ExecEq g₁ g₂) (a b : NodeID) :
    (∃ err, removeEdge g₁ a b = .error err ∧ removeEdge g₂ a b = .error err) ∨
    (∃ r₁ r₂, removeEdge g₁ a b = .ok r₁ ∧ removeEdge g₂ a b = .ok r₂ ∧
      ExecEq r₁ r₂ ∧ WFx r₁ ∧ WFx r₂) := by
  have hcnA := containsNode_eqv h a
  have hcnB := containsNode_eqv h b
  by_cases hca : containsNode g₂ a = true
  · by_cases hcb : containsNode g₂ b = true
    · by_cases hce : containsEdge g₂ a b = true
      · right
        have hs : (lookupA (outL g₂ a) b).isSome = true := hce
        obtain ⟨e₀, he₂⟩ := Option.isSome_iff_exists.mp hs
        have he₁ : lookupA (outL g₁ a) b = some e₀ := by
          rw [h.2.1 a]
          exact he₂
        refine ⟨_, _,
          removeEdge_ok_spec he₁ (by rw [hcnA]; exact hca) (by rw [hcnB]; exact hcb),
          removeEdge_ok_spec he₂ hca hcb,
          execEq_adjdel h a b _ _, WFx_removeEdge_ok h₁ he₁, WFx_removeEdge_ok h₂ he₂⟩
      · left
        refine ⟨edgeDoesNotExistErr a b, ?_, ?_⟩
        · unfold removeEdge
          rw [if_neg (by simp [hcnA, hca]), if_neg (by simp [hcnB, hcb]),
            if_pos (by rw [containsEdge_eqv h]; exact hce)]
        · unfold removeEdge
          rw [if_neg (by simp [hca]), if_neg (by simp [hcb]), if_pos hce]
    · left
      refine ⟨nodeDoesNotExistErr b, ?_, ?_⟩
      · unfold removeEdge
        rw [if_neg (by simp [hcnA, hca]), if_pos (by rw [hcnB]; exact hcb)]
      · unfold removeEdge
        rw [if_neg (by simp [hca]), if_pos hcb]
  · left
    refine ⟨nodeDoesNotExistErr a, ?_, ?_⟩
    · unfold removeEdge
      rw [if_pos (by rw [hcnA]; exact hca)]
    · unfold removeEdge
      rw [if_pos hca]

theorem applyInactiveEdge_ok_spec {g : Graph} {e : Edge}
    (hca : containsNode g e.From = true) (hcb : containsNode g e.To = true)
    (hce : containsEdge g e.From e.To = true) :
    applyInactiveEdge g e = .ok
      { g with out := adjustA g.out e.From (fun inner => delA inner e.To)
               inn := adjustA g.inn e.To (fun inner => delA inner e.From) } := by
  unfold applyInactiveEdge
  rw [if_neg (by simp [hca, hcb]), if_pos hce]

theorem WFx_inactiveEdge_ok {g : Graph} (hwf : WFx g) (e : Edge) :
    WFx { g with out := adjustA g.out e.From (fun inner => delA inner e.To)
                 inn := adjustA g.inn e.To (fun inner => delA inner e.From) } := by
  apply WFx_adjdel hwf e.From e.To
  intro x ent hmem _
  exact (hwf.2.2.2 x ent hmem).2.2.2

theorem applyInactiveEdge_rel {g₁ g₂ : Graph} (h₁ : WFx g₁) (h₂ : WFx g₂)
    (h : ExecEq g₁ g₂) (e : Edge) :
    (∃ err, applyInactiveEdge g₁ e = .error err ∧
      applyInactiveEdge g₂ e = .error err) ∨
    (∃ r₁ r₂, applyInactiveEdge g₁ e = .ok r₁ ∧ applyInactiveEdge g₂ e = .ok r₂ ∧
      ExecEq r₁ r₂ ∧ WFx r₁ ∧ WFx r₂) := by
  have hcnA := containsNode_eqv h e.From
  have hcnB := containsNode_eqv h e.To
  by_cases hcond : ¬ containsNode g₂ e.From = true ∨ ¬ containsNode g₂ e.To = true
  · left
    refine ⟨invalidConditionEdgeErr e.ID, ?_, ?_⟩
    · unfold applyInactiveEdge
      rw [if_pos (by rw [hcnA, hcnB]; exact hcond)]
    · unfold applyInactiveEdge
      rw [if_pos hcond]
  · push_neg at hcond
    right
    by_cases hce : containsEdge g₂ e.From e.To = true
    · have hce₁ : containsEdge g₁ e.From e.To = true := by
        rw [containsEdge_eqv h]
        exact hce
      refine ⟨_, _,
        applyInactiveEdge_ok_spec (by rw [hcnA]; exact hcond.1)
          (by rw [hcnB]; exact hcond.2) hce₁,
        applyInactiveEdge_ok_spec hcond.1 hcond.2 hce,
        ?_, WFx_inactiveEdge_ok h₁ e, WFx_inactiveEdge_ok h₂ e⟩
      exact execEq_adjdel h e.From e.To g₁.edgeMap g₂.edgeMap
    · refine ⟨g₁, g₂, ?_, ?_, h, h₁, h₂⟩
      · unfold applyInactiveEdge
        rw [if_neg (by rw [hcnA, hcnB]; push_neg; exact hcond),
          if_neg (by rw [containsEdge_eqv h]; exact hce)]
      · unfold applyInactiveEdge
        rw [if_neg (by push_neg; exact hcond), if_neg hce]

/-! ### The forced-inactive-node purge -/

theorem getD_map_del (o : Option (List (NodeID × Edge))) (k : NodeID) :
    (o.map (fun inner => delA inner k)).getD [] = delA (o.getD []) k := by
  cases o <;> rfl

/-- The in-adjacency after the first purge loop of
`applyInactiveNode` (`for to := range clone.out[id] { delete(clone.in[to], id) }`). -/
def purgeInn1 (cl : Graph) (id : NodeID) : List (NodeID × List (NodeID × Edge)) :=
  (keysA (outL cl id)).foldl
    (fun m toID => adjustA m toID (fun inner => delA inner id)) cl.inn

/-- The keys of `clone.in[id]` as read by the second purge loop. -/
def purgeInnKeys (cl : Graph) (id : NodeID) : List NodeID :=
  keysA ((lookupA (purgeInn1 cl id) id).getD [])

/-- The out-adjacency after the second purge loop
(`for from := range clone.in[id] { delete(clone.out[from], id) }`). -/
def purgeOut1 (cl : Graph) (id : NodeID) : List (NodeID × List (NodeID × Edge)) :=
  (purgeInnKeys cl id).foldl
    (fun m fromID => adjustA m fromID (fun inner => delA inner id)) cl.out

/-- The graph produced by the success branch of `applyInactiveNode`. -/
def inactiveNodePurge (cl : Graph) (id : NodeID) : Graph :=
  { cl with
    nodeMap := delA cl.nodeMap id
    out := delA (purgeOut1 cl id) id
    inn := delA (purgeInn1 cl id) id }

theorem applyInactiveNode_ok_spec {cl : Graph} {id : NodeID}
    (hc : containsNode cl id = true) :
    applyInactiveNode cl id = .ok (inactiveNodePurge cl id) := by
  unfold applyInactiveNode inactiveNodePurge purgeOut1 purgeInnKeys purgeInn1
  rw [if_neg (by simp [hc])]

theorem purgeInn1_lookup (cl : Graph) (id x : NodeID) :
    lookupA (purgeInn1 cl id) x =
      if x ∈ keysA (outL cl id)
      then (lookupA cl.inn x).map (fun inner => delA inner id)
      else lookupA cl.inn x :=
  lookupA_foldl_adjust_keys (fun l => delA_delA l id) _ _ _

theorem purgeInnRow (cl : Graph) (id : NodeID) :
    (lookupA (purgeInn1 cl id) id).getD [] =
      if id ∈ keysA (outL cl id) then delA (innL cl id) id else innL cl id := by
  rw [purgeInn1_lookup]
  by_cases hmem : id ∈ keysA (outL cl id)
  · rw [if_pos hmem, if_pos hmem, getD_map_del]
    rfl
  · rw [if_neg hmem, if_neg hmem]
    rfl

theorem mem_purgeInnKeys_iff (cl : Graph) (id x : NodeID) :
    x ∈ purgeInnKeys cl id ↔
      (if id ∈ keysA (outL cl id)
       then (if id = x then none else lookupA (innL cl id) x)
       else lookupA (innL cl id) x).isSome = true := by
  unfold purgeInnKeys
  rw [mem_keysA_iff_isSome, purgeInnRow]
  by_cases hmem : id ∈ keysA (outL cl id)
  · rw [if_pos hmem, if_pos hmem, lookupA_delA]
  · rw [if_neg hmem, if_neg hmem]

theorem purgeOut1_lookup (cl : Graph) (id x : NodeID) :
    lookupA (purgeOut1 cl id) x =
      if x ∈ purgeInnKeys cl id
      then (lookupA cl.out x).map (fun inner => delA inner id)
      else lookupA cl.out x :=
  lookupA_foldl_adjust_keys (fun l => delA_delA l id) _ _ _

theorem purge_outL (cl : Graph) (id x : NodeID) :
    outL (inactiveNodePurge cl id) x =
      if id = x then []
      else if x ∈ purgeInnKeys cl id then delA (outL cl x) id else outL cl x := by
  unfold inactiveNodePurge outL
  show (lookupA (delA (purgeOut1 cl id) id) x).getD [] = _
  rw [lookupA_delA]
  by_cases hid : id = x
  · rw [if_pos hid, if_pos hid]
    rfl
  · rw [if_neg hid, if_neg hid, purgeOut1_lookup]
    by_cases hmem : x ∈ purgeInnKeys cl id
    · rw [if_pos hmem, if_pos hmem, getD_map_del]
    · rw [if_neg hmem, if_neg hmem]

theorem purge_innLook (cl : Graph) (id x y : NodeID) :
    lookupA (innL (inactiveNodePurge cl id) x) y =
      if id = x then none
      else if x ∈ keysA (outL cl id) then
        (if id = y then none else lookupA (innL cl x) y)
      else lookupA (innL cl x) y := by
  unfold inactiveNodePurge innL
  show lookupA ((lookupA (delA (purgeInn1 cl id) id) x).getD []) y = _
  rw [lookupA_delA]
  by_cases hid : id = x
  · rw [if_pos hid, if_pos hid]
    rfl
  · rw [if_neg hid, if_neg hid, purgeInn1_lookup]
    by_cases hmem : x ∈ keysA (outL cl id)
    · rw [if_pos hmem, if_pos hmem, getD_map_del, lookupA_delA]
    · rw [if_neg hmem, if_neg hmem]

theorem WFx_purge {cl : Graph} (hwf : WFx cl) (id : NodeID) :
    WFx (inactiveNodePurge cl id) := by
  refine ⟨?_, ?_, ?_, ?_⟩
  · show (keysA (delA cl.nodeMap id)).Nodup
    exact keysA_delA_nodup hwf.1
  · show (keysA (delA (purgeOut1 cl id) id)).Nodup
    apply keysA_delA_nodup
    unfold purgeOut1
    rw [keysA_foldl_adjust _ _]
    exact hwf.2.1
  · intro x
    rw [purge_outL]
    by_cases hid : id = x
    · rw [if_pos hid]
      exact List.nodup_nil
    · rw [if_neg hid]
      by_cases hmem : x ∈ purgeInnKeys cl id
      · rw [if_pos hmem]
        exact keysA_delA_nodup (hwf.2.2.1 x)
      · rw [if_neg hmem]
        exact hwf.2.2.1 x
  · intro x ent hent
    rw [purge_outL] at hent
    by_cases hid : id = x
    · rw [if_pos hid] at hent
      cases hent
    · rw [if_neg hid] at hent
      have hmem : ent ∈ outL cl x := by
        by_cases hk : x ∈ purgeInnKeys cl id
        · rw [if_pos hk] at hent
          exact (mem_delA hent).1
        · rw [if_neg hk] at hent
          exact hent
      obtain ⟨h1, h2, h3, h4⟩ := hwf.2.2.2 x ent hmem
      refine ⟨h1, h2, ?_, h4⟩
      show (lookupA (delA cl.nodeMap id) x).isSome = true
      rw [lookupA_delA, if_neg hid]
      exact h3

theorem purgeInnKeys_mem_eqv {g₁ g₂ : Graph} (h : ExecEq g₁ g₂) (id x : NodeID) :
    x ∈ purgeInnKeys g₁ id ↔ x ∈ purgeInnKeys g₂ id := by
  rw [mem_purgeInnKeys_iff, mem_purgeInnKeys_iff, h.2.1 id, h.2.2 id x]

theorem purge_eqv {g₁ g₂ : Graph} (h : ExecEq g₁ g₂) (id : NodeID) :
    ExecEq (inactiveNodePurge g₁ id) (inactiveNodePurge g₂ id) := by
  refine ⟨?_, ?_, ?_⟩
  · show delA g₁.nodeMap id = delA g₂.nodeMap id
    rw [h.1]
  · intro x
    rw [purge_outL, purge_outL, h.2.1 x]
    by_cases hid : id = x
    · rw [if_pos hid, if_pos hid]
    · rw [if_neg hid, if_neg hid]
      by_cases hk : x ∈ purgeInnKeys g₂ id
      · rw [if_pos hk, if_pos ((purgeInnKeys_mem_eqv h id x).mpr hk)]
      · rw [if_neg hk, if_neg (fun hc => hk ((purgeInnKeys_mem_eqv h id x).mp hc))]
  · intro x y
    rw [purge_innLook, purge_innLook, h.2.1 id, h.2.2 x y]

theorem applyInactiveNode_rel {g₁ g₂ : Graph} (h₁ : WFx g₁) (h₂ : WFx g₂)
    (h : ExecEq g₁ g₂) (id : NodeID) :
    (∃ err, applyInactiveNode g₁ id = .error err ∧
      applyInactiveNode g₂ id = .error err) ∨
    (∃ r₁ r₂, applyInactiveNode g₁ id = .ok r₁ ∧ applyInactiveNode g₂ id = .ok r₂ ∧
      ExecEq r₁ r₂ ∧ WFx r₁ ∧ WFx r₂) := by
  have hcn := containsNode_eqv h id
  by_cases hc : containsNode g₂ id = true
  · right
    exact ⟨_, _, applyInactiveNode_ok_spec (by rw [hcn]; exact hc),
      applyInactiveNode_ok_spec hc, purge_eqv h id, WFx_purge h₁ id, WFx_purge h₂ id⟩
  · left
    refine ⟨invalidConditionNodeErr id, ?_, ?_⟩
    · unfold applyInactiveNode
      rw [if_pos (by rw [hcn]; exact hc)]
    · unfold applyInactiveNode
      rw [if_pos hc]

/-! ### `ApplyCondition` respects the observational relation -/

theorem except_bind_error {ε α β : Type} (e : ε) (f : α → Except ε β) :
    ((Except.error e : Except ε α) >>= f) = .error e := rfl

theorem except_bind_ok_eq {ε α β : Type} (a : α) (f : α → Except ε β) :
    ((Except.ok a : Except ε α) >>= f) = f a := rfl

theorem except_bind_pure {ε α : Type} (x : Except ε α) : (x >>= pure) = x := by
  cases x <;> rfl

theorem foldlM_rel {α : Type} (step : Graph → α → Except GoError Graph)
    (hstep : ∀ {g₁ g₂ : Graph}, WFx g₁ → WFx g₂ → ExecEq g₁ g₂ → ∀ a : α,
      (∃ err, step g₁ a = .error err ∧ step g₂ a = .error err) ∨
      (∃ r₁ r₂, step g₁ a = .ok r₁ ∧ step g₂ a = .ok r₂ ∧
        ExecEq r₁ r₂ ∧ WFx r₁ ∧ WFx r₂)) :
    ∀ (l : List α) {g₁ g₂ : Graph}, WFx g₁ → WFx g₂ → ExecEq g₁ g₂ →
      (∃ err, l.foldlM step g₁ = .error err ∧ l.foldlM step g₂ = .error err) ∨
      (∃ r₁ r₂, l.foldlM step g₁ = .ok r₁ ∧ l.foldlM step g₂ = .ok r₂ ∧
        ExecEq r₁ r₂ ∧ WFx r₁ ∧ WFx r₂) := by
  intro l
  induction l with
  | nil =>
    intro g₁ g₂ h₁ h₂ h
    right
    exact ⟨g₁, g₂, rfl, rfl, h, h₁, h₂⟩
  | cons a l ih =>
    intro g₁ g₂ h₁ h₂ h
    rw [List.foldlM_cons, List.foldlM_cons]
    cases hstep h₁ h₂ h a with
    | inl he =>
      obtain ⟨err, he₁, he₂⟩ := he
      left
      simp only [he₁, he₂, except_bind_error]
      exact ⟨err, rfl, rfl⟩
    | inr hok =>
      obtain ⟨r₁, r₂, ho₁, ho₂, hr, hw₁, hw₂⟩ := hok
      simp only [ho₁, ho₂, except_bind_ok_eq]
      exact ih hw₁ hw₂ hr

theorem applyCondition_eq (g : Graph) (c : Condition) :
    applyCondition g c =
      (c.ForcedInactiveNodes.eraseDups.foldlM applyInactiveNode (clone g)) >>=
        fun cl => c.ForcedInactiveEdges.foldlM applyInactiveEdge cl := by
  unfold applyCondition
  dsimp only
  cases hf : c.ForcedInactiveNodes.eraseDups.foldlM applyInactiveNode (clone g) with
  | error e => rfl
  | ok cl =>
    rw [except_bind_ok_eq, except_bind_ok_eq]
    exact except_bind_pure _

theorem applyCondition_rel {g₁ g₂ : Graph} (h₁ : WFx g₁) (h₂ : WFx g₂)
    (h : ExecEq g₁ g₂) (c : Condition) :
    (∃ err, applyCondition g₁ c = .error err ∧ applyCondition g₂ c = .error err) ∨
    (∃ r₁ r₂, applyCondition g₁ c = .ok r₁ ∧ applyCondition g₂ c = .ok r₂ ∧
      ExecEq r₁ r₂ ∧ WFx r₁ ∧ WFx r₂) := by
  rw [applyCondition_eq, applyCondition_eq]
  cases foldlM_rel applyInactiveNode (fun hw₁ hw₂ hr a => applyInactiveNode_rel hw₁ hw₂ hr a)
      c.ForcedInactiveNodes.eraseDups (WFx_clone h₁) (WFx_clone h₂) (clone_eqv h₁ h₂ h) with
  | inl he =>
    obtain ⟨err, he₁, he₂⟩ := he
    left
    simp only [he₁, he₂, except_bind_error]
    exact ⟨err, rfl, rfl⟩
  | inr hok =>
    obtain ⟨r₁, r₂, ho₁, ho₂, hr, hw₁, hw₂⟩ := hok
    simp only [ho₁, ho₂, except_bind_ok_eq]
    exact foldlM_rel applyInactiveEdge
      (fun hw₁ hw₂ hr e => applyInactiveEdge_rel hw₁ hw₂ hr e)
      c.ForcedInactiveEdges hw₁ hw₂ hr

/-! ### Congruence of the Yen kernel -/

theorem removeSpurEdges_cons (p : Path) (ps : List Path) (root : List NodeID)
    (spurIdx : Nat) (gc : Graph) :
    removeSpurEdges (p :: ps) root spurIdx gc =
      removeSpurEdges ps root spurIdx
        (if spurIdx < p.NodeIDs.length ∧ equalNodePre p.NodeIDs root = true then
          match removeEdge gc (p.NodeIDs.getD spurIdx "")
              (p.NodeIDs.getD (spurIdx + 1) "") with
          | .ok gc' => gc'
          | .error _ => gc
        else gc) := by
  unfold removeSpurEdges
  rw [List.foldl_cons]

theorem removeSpurEdges_rel (root : List NodeID) (spurIdx : Nat) :
    ∀ (results : List Path) {gc₁ gc₂ : Graph}, WFx gc₁ → WFx gc₂ → ExecEq gc₁ gc₂ →
      ExecEq (removeSpurEdges results root spurIdx gc₁)
        (removeSpurEdges results root spurIdx gc₂) ∧
      WFx (removeSpurEdges results root spurIdx gc₁) ∧
      WFx (removeSpurEdges results root spurIdx gc₂) := by
  intro results
  induction results with
  | nil =>
    intro gc₁ gc₂ w₁ w₂ he
    exact ⟨he, w₁, w₂⟩
  | cons p ps ih =>
    intro gc₁ gc₂ w₁ w₂ he
    rw [removeSpurEdges_cons, removeSpurEdges_cons]
    by_cases hcond : spurIdx < p.NodeIDs.length ∧ equalNodePre p.NodeIDs root = true
    · rw [if_pos hcond, if_pos hcond]
      cases removeEdge_rel w₁ w₂ he (p.NodeIDs.getD spurIdx "")
          (p.NodeIDs.getD (spurIdx + 1) "") with
      | inl herr =>
        obtain ⟨err, he₁, he₂⟩ := herr
        rw [he₁, he₂]
        exact ih w₁ w₂ he
      | inr hok =>
        obtain ⟨r₁, r₂, ho₁, ho₂, hr, hw₁, hw₂⟩ := hok
        rw [ho₁, ho₂]
        exact ih hw₁ hw₂ hr
    · rw [if_neg hcond, if_neg hcond]
      exact ih w₁ w₂ he

theorem yenSpurStep_eqv {g₁ g₂ : Graph} (h₁ : WFx g₁) (h₂ : WFx g₂)
    (h : ExecEq g₁ g₂) (endID : NodeID) (results : List Path) (prevPath : Path)
    (candidates : List Path) (spurIdx : Nat) :
    yenSpurStep g₁ endID results prevPath candidates spurIdx =
      yenSpurStep g₂ endID results prevPath candidates spurIdx := by
  unfold yenSpurStep
  dsimp only
  obtain ⟨hrel, _, _⟩ := removeSpurEdges_rel (prevPath.NodeIDs.take (spurIdx + 1))
    spurIdx results (WFx_clone h₁) (WFx_clone h₂) (clone_eqv h₁ h₂ h)
  rw [maxProbabilityPath_eqv hrel]
  cases maxProbabilityPath
      (removeSpurEdges results (prevPath.NodeIDs.take (spurIdx + 1)) spurIdx
        (clone g₂))
      (prevPath.NodeIDs.getD spurIdx "") endID with
  | error e => rfl
  | ok spurPath =>
    by_cases hlen : spurPath.NodeIDs.length = 0
    · simp [hlen]
    · simp only [if_neg hlen]
      rw [pathProbability_eqv h]

theorem yenLoop_eqv {g₁ g₂ : Graph} (h₁ : WFx g₁) (h₂ : WFx g₂)
    (h : ExecEq g₁ g₂) (endID : NodeID) :
    ∀ (n : Nat) (results candidates : List Path),
      yenLoop g₁ endID n results candidates = yenLoop g₂ endID n results candidates := by
  intro n
  induction n with
  | zero => intro results candidates; rfl
  | succ m ih =>
    intro results candidates
    simp only [yenLoop]
    have hfold : (List.range ((results.getLastD ⟨[], 0⟩).NodeIDs.length - 1)).foldl
        (yenSpurStep g₁ endID results (results.getLastD ⟨[], 0⟩)) candidates =
        (List.range ((results.getLastD ⟨[], 0⟩).NodeIDs.length - 1)).foldl
          (yenSpurStep g₂ endID results (results.getLastD ⟨[], 0⟩)) candidates := by
      apply foldl_congr_mem
      intro a _ acc
      exact yenSpurStep_eqv h₁ h₂ h endID results (results.getLastD ⟨[], 0⟩) acc a
    rw [hfold]
    by_cases hz : ((List.range ((results.getLastD ⟨[], 0⟩).NodeIDs.length - 1)).foldl
        (yenSpurStep g₂ endID results (results.getLastD ⟨[], 0⟩)) candidates).length = 0
    · rw [if_pos hz, if_pos hz]
    · rw [if_neg hz, if_neg hz, ih]

theorem topK_eqv {g₁ g₂ : Graph} (h₁ : WFx g₁) (h₂ : WFx g₂)
    (h : ExecEq g₁ g₂) (s t : NodeID) (k : Int) :
    topKMaxProbabilityPaths g₁ s t k = topKMaxProbabilityPaths g₂ s t k := by
  unfold topKMaxProbabilityPaths
  by_cases hk : k ≤ 0
  · simp [hk]
  · simp only [if_neg hk]
    rw [maxProbabilityPath_eqv h]
    cases maxProbabilityPath g₂ s t with
    | error e => rfl
    | ok firstPath =>
      by_cases hlen : firstPath.NodeIDs.length = 0
      · simp [hlen]
      · simp only [if_neg hlen]
        rw [yenLoop_eqv h₁ h₂ h]

/-! ### The interpreter is invariant under the observational relation -/

mutual

theorem execQ_congr (env : Env) :
    ∀ (q : QueryQ) (g₁ g₂ : Graph), WFx g₁ → WFx g₂ → ExecEq g₁ g₂ →
      execQ env q g₁ = execQ env q g₂
  | .maxPath s t, g₁, g₂, h₁, h₂, h => by
    simp only [execQ]
    rw [maxProbabilityPath_eqv h]
  | .topK s t k, g₁, g₂, h₁, h₂, h => by
    simp only [execQ]
    rw [topK_eqv h₁ h₂ h]
  | .reach s t .exact seed, g₁, g₂, h₁, h₂, h => by
    simp only [execQ]
    rw [reachabilityProbability_eqv h]
  | .reach s t .monteCarlo seed, g₁, g₂, h₁, h₂, h => by
    simp only [execQ]
    rw [mcReach_eqv h]
  | .conditional c q, g₁, g₂, h₁, h₂, h => by
    simp only [execQ]
    cases applyCondition_rel h₁ h₂ h c with
    | inl he =>
      obtain ⟨err, he₁, he₂⟩ := he
      rw [he₁, he₂]
    | inr hok =>
      obtain ⟨r₁, r₂, ho₁, ho₂, hr, hw₁, hw₂⟩ := hok
      rw [ho₁, ho₂]
      exact execQ_congr env q r₁ r₂ hw₁ hw₂ hr
  | .multi qs, g₁, g₂, h₁, h₂, h => by
    simp only [execQ]
    rw [execQs_congr env qs g₁ g₂ h₁ h₂ h]
  | .andQ qs, g₁, g₂, h₁, h₂, h => by
    simp only [execQ]
    rw [execQs_congr env qs g₁ g₂ h₁ h₂ h]
  | .orQ qs, g₁, g₂, h₁, h₂, h => by
    simp only [execQ]
    rw [execQs_congr env qs g₁ g₂ h₁ h₂ h]
  | .threshold q t, g₁, g₂, h₁, h₂, h => by
    simp only [execQ]
    rw [execQ_congr env q g₁ g₂ h₁ h₂ h]
  | .aggregate qs r, g₁, g₂, h₁, h₂, h => by
    simp only [execQ]
    rw [execQs_congr env qs g₁ g₂ h₁ h₂ h]

theorem execQs_congr (env : Env) :
    ∀ (qs : List QueryQ) (g₁ g₂ : Graph), WFx g₁ → WFx g₂ → ExecEq g₁ g₂ →
      execQs env qs g₁ = execQs env qs g₂
  | [], _, _, _, _, _ => rfl
  | q :: qs, g₁, g₂, h₁, h₂, h => by
    simp only [execQs]
    rw [execQ_congr env q g₁ g₂ h₁ h₂ h, execQs_congr env qs g₁ g₂ h₁ h₂ h]

end

theorem WFx_of_WFserial {g : Graph} (hwf : WFserial g) : WFx g := by
  refine ⟨hwf.1, hwf.2.2.1, ?_, ?_⟩
  · intro x
    unfold outL
    cases hl : lookupA g.out x with
    | none => simp [keysA]
    | some inner =>
      simp only [Option.getD_some]
      exact hwf.2.2.2.2.1 (x, inner) (lookupA_eq_some_mem hl)
  · intro x ent hent
    have hs := outL_entry_spec hwf hent
    exact ⟨hs.1, hs.2.1, hs.2.2.1, hs.2.2.2.2.2.2.1⟩

/-- C5: conditioning on a single forced-inactive edge is observationally
removal of that edge.  For every graph satisfying the documented
invariants (`WFserial`), every edge `e` present in the graph, every
environment (worker count, RNG streams, `math.Sqrt`) and every query `q`
of the eight-variant algebra, executing
`ConditionalQuery{Condition: {ForcedInactiveEdges: [e]}, Inner: q}` on
`g` returns the same result (value or error) as executing `q` on the
graph obtained by `RemoveEdge(g, e.From, e.To)`.  (The conditioned clone
keeps `e` in its edge map — see C10 — but execution cannot observe the
difference.) -/
theorem conditional_inactive_edge_semantics {g : Graph} {e : Edge}
    (hwf : WFserial g) (hpres : lookupA (outL g e.From) e.To = some e)
    (env : Env) (q : QueryQ) :
    ∃ rm, removeEdge g e.From e.To = .ok rm ∧
      execQ env (.conditional { ForcedInactiveEdges := [e] } q) g =
        execQ env q rm := by
  have hwx : WFx g := WFx_of_WFserial hwf
  have hent : (e.To, e) ∈ outL g e.From := lookupA_eq_some_mem hpres
  have hcnF : containsNode g e.From = true := (outL_entry_spec hwf hent).2.2.1
  have hcnT : containsNode g e.To = true := (outL_entry_spec hwf hent).2.2.2.1
  have hre := removeEdge_ok_spec hpres hcnF hcnT
  refine ⟨_, hre, ?_⟩
  have hcnF' : containsNode (clone g) e.From = true := by
    unfold containsNode
    rw [clone_nodeMap]
    exact hcnF
  have hcnT' : containsNode (clone g) e.To = true := by
    unfold containsNode
    rw [clone_nodeMap]
    exact hcnT
  have hce' : containsEdge (clone g) e.From e.To = true := by
    unfold containsEdge
    rw [clone_outL hwx, hpres]
    rfl
  have hcond : applyCondition g { ForcedInactiveEdges := [e] } =
      .ok { clone g with
            out := adjustA (clone g).out e.From (fun inner => delA inner e.To)
            inn := adjustA (clone g).inn e.To (fun inner => delA inner e.From) } := by
    have h1 : (({ ForcedInactiveEdges := [e] } :
        Condition)).ForcedInactiveNodes.eraseDups.foldlM
        applyInactiveNode (clone g) = .ok (clone g) := rfl
    rw [applyCondition_eq, h1, except_bind_ok_eq]
    show List.foldlM applyInactiveEdge (clone g) [e] = _
    rw [List.foldlM_cons, applyInactiveEdge_ok_spec hcnF' hcnT' hce',
      except_bind_ok_eq]
    rfl
  have hrel : ExecEq
      { clone g with
        out := adjustA (clone g).out e.From (fun inner => delA inner e.To)
        inn := adjustA (clone g).inn e.To (fun inner => delA inner e.From) }
      { g with out := adjustA g.out e.From (fun inner => delA inner e.To)
               inn := adjustA g.inn e.To (fun inner => delA inner e.From)
               edgeMap := delA g.edgeMap e.ID } := by
    refine ⟨?_, ?_, ?_⟩
    · show (clone g).nodeMap = g.nodeMap
      exact clone_nodeMap g
    · intro x
      rw [show ({ clone g with
            out := adjustA (clone g).out e.From (fun inner => delA inner e.To)
            inn := adjustA (clone g).inn e.To (fun inner => delA inner e.From) } :
          Graph) =
          { clone g with
            out := adjustA (clone g).out e.From (fun inner => delA inner e.To)
            inn := adjustA (clone g).inn e.To (fun inner => delA inner e.From)
            edgeMap := (clone g).edgeMap } from rfl]
      rw [outL_adjdel_record, outL_adjdel_record, clone_outL hwx]
    · intro x y
      rw [show ({ clone g with
            out := adjustA (clone g).out e.From (fun inner => delA inner e.To)
            inn := adjustA (clone g).inn e.To (fun inner => delA inner e.From) } :
          Graph) =
          { clone g with
            out := adjustA (clone g).out e.From (fun inner => delA inner e.To)
            inn := adjustA (clone g).inn e.To (fun inner => delA inner e.From)
            edgeMap := (clone g).edgeMap } from rfl]
      rw [innLook_adjdel_record, innLook_adjdel_record, clone_innL hwx]
      by_cases hc : e.To = x ∧ e.From = y
      · rw [if_pos hc, if_pos hc]
      · rw [if_neg hc, if_neg hc, hwf.2.2.2.2.2.2.2 x y]
        by_cases hx : (lookupA g.nodeMap x).isSome = true
        · rw [if_pos hx]
        · rw [if_neg hx]
          cases ho : lookupA (outL g y) x with
          | none => rfl
          | some e2 =>
            exfalso
            have hent2 : (x, e2) ∈ outL g y := lookupA_eq_some_mem ho
            have hcx : containsNode g x = true :=
              (outL_entry_spec hwf hent2).2.2.2.1
            exact hx hcx
  simp only [execQ]
  rw [hcond]
  exact execQ_congr env q _ _ (WFx_inactiveEdge_ok (WFx_clone hwx) e)
    (WFx_removeEdge_ok hwx hpres) hrel

/-- C5, witness: the theorem applied to the concrete graph `A → B`
(probability `1/2`), its edge `e`, a one-worker environment with constant
RNG and identity square root, and the inner query `maxPath A B`. -/
theorem conditional_inactive_edge_witness :
    ∃ rm, removeEdge wfWitnessGraph twoNodeEdge.From twoNodeEdge.To = .ok rm ∧
      execQ ⟨1, fun _ _ _ => 0, fun x => x⟩
          (.conditional { ForcedInactiveEdges := [twoNodeEdge] }
            (.maxPath "A" "B")) wfWitnessGraph =
        execQ ⟨1, fun _ _ _ => 0, fun x => x⟩ (.maxPath "A" "B") rm :=
  conditional_inactive_edge_semantics wfWitnessGraph_wf (by decide)
    ⟨1, fun _ _ _ => 0, fun x => x⟩ (.maxPath "A" "B")

end PGraph
